import Mathlib

/-!
Verification of showlog (pzs-ng sitebot): matchers and backward log scan.

A shallow embedding of `sitebot/src/showlog.c`.

Conventions of the embedding.

* A C string is the list of its bytes before the terminating NUL; bytes are
  natural numbers.  Reading the byte a pointer points at (`*p`) is `deref`:
  the head of the remaining list, and `0` (the terminator) at its end.
  Advancing a pointer (`p++`) drops the head.
* Character constants are written as their codes: `32` is the space, `42` is
  `*`, `44` is `,`, `47` is `/`, `63` is `?`, and `65 .. 90` are `A .. Z`.
* A C function returns a `Run`: the value it returned, or `fault` when it
  reads through a NULL pointer or outside its string, or `timeout` when the
  iteration bound given to a `while` loop of the model is used up.
* The constants `group_dirs` and `subdir_list` of `zsconfig.h`, the size and
  the layout of the two record types, and the text produced by `printf` are
  parameters of the functions that use them; `dirlogLine` and `nukelogLine`
  are the two `printf` calls of the source, field by field.
-/

namespace Showlog

/-! ## Basic model -/

/-- Result of running a C function of the program. -/
inductive Run (α : Type) where
  | done (v : α)
  | fault
  | timeout
  deriving DecidableEq

/-- Sequencing of two runs: the second one starts from the value of the first. -/
def Run.bind {α β : Type} (r : Run α) (f : α → Run β) : Run β :=
  match r with
  | .done v => f v
  | .fault => .fault
  | .timeout => .timeout

/-- Bytes of a string literal, for writing inputs down. -/
def cstr (s : String) : List Nat := s.toList.map Char.toNat

/-- The byte `*p` of a pointer into a NUL-terminated string. -/
def deref (p : List Nat) : Nat := p.headD 0

/-- The function `tolower` of the C locale: only `A`..`Z` are changed. -/
def tolower (c : Nat) : Nat := if 65 ≤ c ∧ c ≤ 90 then c + 32 else c

/-! ## wildcasecmp (showlog.c, lines 491-523) -/

/-- First loop of `wildcasecmp`:
`while (*string && *wild != '*') { if (*wild != '?' && tolower(*wild) != tolower(*string)) return 0; wild++; string++; }`.
The result is `none` for `return 0`, and the two pointers at loop exit otherwise. -/
def wildLoop1 : List Nat → List Nat → Option (List Nat × List Nat)
  | wild, [] => some (wild, [])
  | wild, c :: string =>
    if c ≠ 0 ∧ deref wild ≠ 42 then
      if deref wild ≠ 63 ∧ tolower (deref wild) ≠ tolower c then none
      else wildLoop1 wild.tail string
    else some (wild, c :: string)

/-- Last loop of `wildcasecmp` with its return:
`while (*wild == '*') wild++; return !*wild;`. -/
def wildEnd : List Nat → Nat
  | [] => 1
  | c :: wild => if c = 42 then wildEnd wild else if c = 0 then 1 else 0

/-- Second loop of `wildcasecmp`, followed by the last loop when it exits.
`mp` and `cp` are the two backtrack pointers, `none` while they are NULL.
The first argument bounds the number of iterations. -/
def wildLoop2 : Nat → List Nat → List Nat → Option (List Nat) → Option (List Nat) → Run Nat
  | 0, _, _, _, _ => .timeout
  | fuel + 1, wild, string, mp, cp =>
    if deref string = 0 then .done (wildEnd wild)
    else if deref wild = 42 then
      if deref wild.tail = 0 then .done 1
      else wildLoop2 fuel wild.tail string (some wild.tail) (some string.tail)
    else if deref wild = 63 ∨ tolower (deref wild) = tolower (deref string) then
      wildLoop2 fuel wild.tail string.tail mp cp
    else
      match mp, cp with
      | some m, some c => wildLoop2 fuel m c (some m) (some c.tail)
      | _, _ => .fault

/-- The function `wildcasecmp(wild, string)`.  The bound given to the second
loop is never reached (`wildcasecmp_spec`). -/
def wildcasecmp (wild string : List Nat) : Run Nat :=
  match wildLoop1 wild string with
  | none => .done 0
  | some (w, s) => wildLoop2 ((string.length + 1) * (wild.length + 1) + 2) w s none none

/-! ### Reference semantics of glob patterns -/

/-- What one pattern character stands for: `*` for any run of characters,
`?` for exactly one character, any other character for one character equal to
it after lower-casing. -/
def Fits (p : Nat) (piece : List Nat) : Prop :=
  if p = 42 then True
  else if p = 63 then piece.length = 1
  else ∃ c, piece = [c] ∧ tolower p = tolower c

/-- Reference glob semantics: the candidate is cut into one piece per pattern
character, each piece fitting its character, and the pieces make up the whole
candidate. -/
def GlobMatches (pattern candidate : List Nat) : Prop :=
  ∃ pieces : List (List Nat), List.Forall₂ Fits pattern pieces ∧ pieces.flatten = candidate

/-- A pattern character other than `*` standing against one candidate
character: the test `*wild == '?' || tolower(*wild) == tolower(*string)`. -/
def CharOk (p c : Nat) : Prop := p ≠ 42 ∧ (p = 63 ∨ tolower p = tolower c)

/-! ## matchpath (showlog.c, lines 225-257) -/

/-- The byte `s[i]` of the NUL-terminated string `s`, for a signed index: the
indices `0 .. strlen(s)` lie inside the string (the last one holds the
terminator), any other index is outside of it. -/
def charAt (s : List Nat) (i : Int) : Run Nat :=
  if 0 ≤ i ∧ i ≤ s.length then .done (s.getD i.toNat 0) else .fault

/-- The test `strncmp(a, b, n) == 0`. -/
def strncmpEq : Nat → List Nat → List Nat → Bool
  | 0, _, _ => true
  | n + 1, a, b =>
    if deref a ≠ deref b then false
    else if deref a = 0 then true
    else strncmpEq n a.tail b.tail

/-- The value of `c` after
`if ((int)strlen(path) == pos - 1 && *(path + pos - 2) != '/' && *(instr - 1) == '/') c = 1;`
in `matchpath`, with the pointer `instr` at offset `i` of the list `instr0`. -/
def matchpathC (instr0 path : List Nat) (i : Nat) (pos : Int) : Run Int :=
  if (path.length : Int) = pos - 1 then
    (charAt path (pos - 2)).bind fun a =>
      if a ≠ 47 then
        (charAt instr0 ((i : Int) - 1)).bind fun b => .done (if b = 47 then 1 else 0)
      else .done 0
  else .done 0

/-- The branch `case 0: case ' ':` of `matchpath` up to (not including)
`c = 0; pos = 0;`, with the pointer `instr` at offset `i` of the list `instr0`.
The value is `true` for `return 1`.  (`pos - c` is never negative: `c` is 1 only
when `pos - 1` is the length of `path`.) -/
def matchpathDelim (instr0 path : List Nat) (i : Nat) (pos : Int) : Run Bool :=
  (matchpathC instr0 path i pos).bind fun c =>
  if (i : Int) - pos < 0 then .fault
  else if strncmpEq (pos - c).toNat (instr0.drop ((i : Int) - pos).toNat) path then
    (charAt instr0 ((i : Int) - 1)).bind fun b =>
      if b = 47 then .done true
      else if (path.length : Int) ≥ pos then
        (charAt path pos).bind fun d => .done (decide (d = 47 ∨ d = 0))
      else .done true
  else .done false

/-- The `do { switch (*instr) ... } while (*instr++);` loop of `matchpath`.
The third argument is the pointer `instr` (what is left of the list), the
fourth its offset from the start `instr0` of the list. -/
def matchpathLoop (instr0 path : List Nat) : List Nat → Nat → Int → Run Nat
  | [], i, pos =>
    (matchpathDelim instr0 path i pos).bind fun hit => .done (if hit then 1 else 0)
  | ch :: instr, i, pos =>
    if ch = 0 ∨ ch = 32 then
      (matchpathDelim instr0 path i pos).bind fun hit =>
        if hit then .done 1
        else if ch = 0 then .done 0
        else matchpathLoop instr0 path instr (i + 1) 0
    else matchpathLoop instr0 path instr (i + 1) (pos + 1)

/-- The function `matchpath(instr, path)`. -/
def matchpath (instr path : List Nat) : Run Nat :=
  if instr.length < 2 ∨ path.length < 2 then .done 0
  else matchpathLoop instr path instr 0 0

/-! ## subcomp (showlog.c, lines 528-576) -/

/-- The pointer `strrchr(s, c) + 1`: what follows the last `c` of `s`,
`none` when `strrchr` gives NULL. -/
def afterLast (c : Nat) : List Nat → Option (List Nat)
  | [] => none
  | x :: xs =>
    match afterLast c xs with
    | some r => some r
    | none => if x = c then some xs else none

/-- The test `strncasecmp(a, b, n) == 0`. -/
def strncasecmpEq : Nat → List Nat → List Nat → Bool
  | 0, _, _ => true
  | n + 1, a, b =>
    if tolower (deref a) ≠ tolower (deref b) then false
    else if deref a = 0 then true
    else strncasecmpEq n a.tail b.tail

/-- The `do { ... } while (1);` loop of `subcomp` with the final `return 0`.
`startpos` is what is left of the list; the token at `startpos` ends at the
next `,` (where the code writes a NUL) and its prefix at the first `?`.
`endpos` is the rest of the list from that `,` on (empty at the end of the
list), so that `startpos = endpos + 1; if (startpos >= tstring + m) break;`
leaves the loop when at most one character is left at `endpos`.  The first
argument bounds the number of iterations. -/
def subcompLoop (bstring : List Nat) : Nat → List Nat → Run Nat
  | 0, _ => .timeout
  | fuel + 1, startpos =>
    let token := startpos.takeWhile (fun c => c ≠ 44)
    let endpos := startpos.dropWhile (fun c => c ≠ 44)
    let seeklen := token.length
    if seeklen = 0 then .done 0
    else
      let sublen := (token.takeWhile (fun c => c ≠ 63)).length
      if sublen = 0 then .done 0
      else if sublen ≤ bstring.length ∧ bstring.length ≤ seeklen ∧
          strncasecmpEq sublen bstring (token.takeWhile (fun c => c ≠ 63)) = true then .done 1
      else if endpos.length ≤ 1 then .done 0
      else subcompLoop bstring fuel endpos.tail

/-- The function `subcomp(directory)`; `subdir_list` is the constant of
`zsconfig.h`, and `bstring` is filled from `strrchr(directory, '/') + 1`, or
from `directory` when it has no `/`.  The bound given to the loop is never
reached (`subcomp_spec`). -/
def subcomp (subdir_list directory : List Nat) : Run Nat :=
  if directory.length < 2 then .done 0
  else
    let bstring := match afterLast 47 directory with
      | some b => b
      | none => directory
    subcompLoop bstring (subdir_list.length + 1) subdir_list

/-! ## Files -/

/-- An open stream: the bytes of the file and the position of the cursor. -/
structure FILE where
  data : List Nat
  pos : Nat
  deriving DecidableEq

/-- The call `fseek(fp, 0L, SEEK_END)`. -/
def fseekEnd (fp : FILE) : FILE := { fp with pos := fp.data.length }

/-- The call `fseek(fp, off, SEEK_CUR)` with its return value: a seek to
before the start of the file fails and leaves the cursor in place. -/
def fseekCur (fp : FILE) (off : Int) : FILE × Int :=
  if 0 ≤ (fp.pos : Int) + off then ({ fp with pos := ((fp.pos : Int) + off).toNat }, 0)
  else (fp, -1)

/-- The call `fread(&buffer, size, 1, fp)`: the buffer when one whole item
could be read, `none` when fewer than `size` bytes are left (return value 0). -/
def fread1 (fp : FILE) (size : Nat) : FILE × Option (List Nat) :=
  if fp.pos + size ≤ fp.data.length then
    ({ fp with pos := fp.pos + size }, some ((fp.data.drop fp.pos).take size))
  else ({ fp with pos := max fp.pos fp.data.length }, none)

/-- The backward scan shared by `show_newdirs` and `show_nukes`, without
their filters and without the bound `max_results`:
`fseek(fp, -R, SEEK_CUR)`, `fread`, `fseek(fp, -R, SEEK_CUR)`, until a seek
or a read fails.  The value is the list of buffers read, in reading order.
The first argument bounds the number of iterations. -/
def scanLoop (R : Nat) : Nat → FILE → Run (List (List Nat))
  | 0, _ => .timeout
  | fuel + 1, fp =>
    let s1 := fseekCur fp (-(R : Int))
    if s1.2 ≠ 0 then .done []
    else
      let rd := fread1 s1.1 R
      match rd.2 with
      | none => .done []
      | some buffer =>
        let s2 := fseekCur rd.1 (-(R : Int))
        (scanLoop R fuel s2.1).bind fun rest => .done (buffer :: rest)

/-- The backward scan of a whole file, started at its end. -/
def scanFile (R : Nat) (data : List Nat) : Run (List (List Nat)) :=
  scanLoop R (data.length + 1) (fseekEnd { data := data, pos := 0 })

/-! ## show_newdirs and show_nukes (showlog.c, lines 345-465) -/

/-- The fields of `struct dirlog`.  The field `bytes` is signed in the layout
of GLVERSION 13232 (`int32_t bytes`) and unsigned in the other layouts
(`unsigned long long bytes`, `uint64_t bytes`); it holds the value of the
stored integer, of either sign.  The field `uptime` holds the stored bits read
as an unsigned number, which is all that `(unsigned int)buffer.uptime`
depends on. -/
structure dirlog where
  status : Nat
  uptime : Nat
  uploader : Nat
  group : Nat
  files : Nat
  bytes : Int
  dirname : List Nat
  deriving DecidableEq

/-- The fields of `struct nukelog`. -/
structure nukelog where
  status : Nat
  nuketime : Nat
  nuker : List Nat
  unnuker : List Nat
  nukee : List Nat
  mult : Nat
  bytes : Rat
  reason : List Nat
  dirname : List Nat
  deriving DecidableEq

/-- The global variables set from the command line, and the two constants of
`zsconfig.h`. -/
structure Globals where
  max_results : Nat
  match_full : Bool
  search_mode : Bool
  group_dirs : List Nat
  subdir_list : List Nat

/-- The pointer `p` of both functions: the base of the directory path unless
`match_full` is set or the path has no `/`. -/
def basePtr (match_full : Bool) (dirname : List Nat) : List Nat :=
  if match_full = false then
    match afterLast 47 dirname with
    | some p => p
    | none => dirname
  else dirname

/-- The loop `while ((t = strchr(subpat, ' ')) && !match) { ... }` of
`show_newdirs`: the value is `subpat` and `match` at its exit.  `subpat` is
what is left of the copy of the pattern argument; the token handed to
`wildcasecmp` ends at the first space, where the code writes a NUL.  The first
argument bounds the number of iterations. -/
def subpatLoop (p : List Nat) : Nat → List Nat → Bool → Run (List Nat × Bool)
  | 0, _, _ => .timeout
  | fuel + 1, subpat, m =>
    match subpat.dropWhile (fun c => c ≠ 32) with
    | [] => .done (subpat, m)
    | _ :: t =>
      if m then .done (subpat, m)
      else
        (wildcasecmp (subpat.takeWhile (fun c => c ≠ 32)) p).bind fun r =>
          subpatLoop p fuel t (if r ≠ 0 then true else m)

/-- The block `if (pattern != NULL) { ... }` of `show_newdirs`: the value of
`match` at `if (!match) continue;`. -/
def newdirsMatch (match_full : Bool) (pattern dirname : List Nat) : Run Bool :=
  let p := basePtr match_full dirname
  (subpatLoop p (pattern.length + 1) pattern false).bind fun st =>
    (wildcasecmp st.1 p).bind fun r => .done (if r ≠ 0 then true else st.2)

/-- The pattern filter of `show_newdirs`: the block is skipped when `pattern`
is NULL, and the record is dropped when the value is `false`. -/
def newdirsPattern (match_full : Bool) (pattern : Option (List Nat)) (dirname : List Nat) :
    Run Bool :=
  match pattern with
  | none => .done true
  | some pat => newdirsMatch match_full pat dirname

/-- The loop `while (i < max_results)` of `show_newdirs`; the value is the
list of lines printed.  `R` is `sizeof(struct dirlog)`, `decode` reads a buffer
of that size as a `struct dirlog`, `fmt` is the `printf` of the function.  The
first argument bounds the number of iterations. -/
def newdirsLoop {Line : Type} (g : Globals) (R : Nat) (decode : List Nat → dirlog)
    (fmt : dirlog → Line) (pattern : Option (List Nat)) :
    Nat → FILE → Nat → Run (List Line)
  | 0, _, _ => .timeout
  | fuel + 1, fp, i =>
    if i < g.max_results then
      let s1 := fseekCur fp (-(R : Int))
      if s1.2 ≠ 0 then .done []
      else
        let rd := fread1 s1.1 R
        match rd.2 with
        | none => .done []
        | some raw =>
          let s2 := fseekCur rd.1 (-(R : Int))
          let buffer := decode raw
          if g.search_mode = false ∧ buffer.status ≠ 0 then
            newdirsLoop g R decode fmt pattern fuel s2.1 i
          else
            (newdirsPattern g.match_full pattern buffer.dirname).bind fun m =>
            if m = false then newdirsLoop g R decode fmt pattern fuel s2.1 i
            else
              (matchpath g.group_dirs buffer.dirname).bind fun mp =>
                if mp ≠ 0 then newdirsLoop g R decode fmt pattern fuel s2.1 i
                else
                  (subcomp g.subdir_list buffer.dirname).bind fun sc =>
                    if sc ≠ 0 then newdirsLoop g R decode fmt pattern fuel s2.1 i
                    else
                      (newdirsLoop g R decode fmt pattern fuel s2.1 (i + 1)).bind fun rest =>
                        .done (fmt buffer :: rest)
    else .done []

/-- The function `show_newdirs(pattern)` on an opened dirlog. -/
def show_newdirs {Line : Type} (g : Globals) (R : Nat) (decode : List Nat → dirlog)
    (fmt : dirlog → Line) (pattern : Option (List Nat)) (data : List Nat) : Run (List Line) :=
  newdirsLoop g R decode fmt pattern (data.length + 1) (fseekEnd { data := data, pos := 0 }) 0

/-- The block `if (pattern != NULL) { ... }` of `show_nukes`: `true` when the
record is kept. -/
def nukesMatch (match_full : Bool) (pattern dirname : List Nat) : Run Bool :=
  (wildcasecmp pattern (basePtr match_full dirname)).bind fun r => .done (decide (r ≠ 0))

/-- The pattern filter of `show_nukes`: the block is skipped when `pattern` is
NULL, and the record is dropped when the value is `false`. -/
def nukesPattern (match_full : Bool) (pattern : Option (List Nat)) (dirname : List Nat) :
    Run Bool :=
  match pattern with
  | none => .done true
  | some pat => nukesMatch match_full pat dirname

/-- The loop `while (i < max_results)` of `show_nukes`; the value is the list
of lines printed.  `R` is `sizeof(struct nukelog)`, `decode` reads a buffer of
that size as a `struct nukelog`, `fmt` is the `printf` of the function, and
`status` is the status asked for.  The first argument bounds the number of
iterations. -/
def nukesLoop {Line : Type} (g : Globals) (R : Nat) (decode : List Nat → nukelog)
    (fmt : nukelog → Line) (status : Nat) (pattern : Option (List Nat)) :
    Nat → FILE → Nat → Run (List Line)
  | 0, _, _ => .timeout
  | fuel + 1, fp, i =>
    if i < g.max_results then
      let s1 := fseekCur fp (-(R : Int))
      if s1.2 ≠ 0 then .done []
      else
        let rd := fread1 s1.1 R
        match rd.2 with
        | none => .done []
        | some raw =>
          let s2 := fseekCur rd.1 (-(R : Int))
          let buffer := decode raw
          if g.search_mode = false ∧ buffer.status ≠ status then
            nukesLoop g R decode fmt status pattern fuel s2.1 i
          else
            (nukesPattern g.match_full pattern buffer.dirname).bind fun m =>
            if m = false then nukesLoop g R decode fmt status pattern fuel s2.1 i
            else
              (nukesLoop g R decode fmt status pattern fuel s2.1 (i + 1)).bind fun rest =>
                .done (fmt buffer :: rest)
    else .done []

/-- The function `show_nukes(status, pattern)` on an opened nukelog. -/
def show_nukes {Line : Type} (g : Globals) (R : Nat) (decode : List Nat → nukelog)
    (fmt : nukelog → Line) (status : Nat) (pattern : Option (List Nat)) (data : List Nat) :
    Run (List Line) :=
  nukesLoop g R decode fmt status pattern (data.length + 1)
    (fseekEnd { data := data, pos := 0 }) 0

/-! ## Reference notions used in the statements -/

/-- The buffers of `R` bytes cut from the bytes before offset `pos`, going
backwards: the first one is the byte range `[pos - R, pos)`, the next one
`[pos - 2 R, pos - R)`, and so on, `n` of them. -/
def backChunks (R : Nat) (data : List Nat) : Nat → Nat → List (List Nat)
  | _, 0 => []
  | pos, n + 1 => (data.drop (pos - R)).take R :: backChunks R data (pos - R) n

/-- The whole records of a file counted from its start: the byte ranges
`[i R, (i + 1) R)` for `i < length / R`. -/
def wholeRecords (R : Nat) (data : List Nat) : List (List Nat) :=
  (List.range (data.length / R)).map fun i => (data.drop (i * R)).take R

/-- The tokens of a list: the pieces between the occurrences of the separator
`sep` (an empty piece where two separators touch, or at either end). -/
def splitBy (sep : Nat) : List Nat → List (List Nat)
  | [] => [[]]
  | c :: cs =>
    if c = sep then [] :: splitBy sep cs
    else
      match splitBy sep cs with
      | [] => [[c]]
      | t :: ts => (c :: t) :: ts

/-- An excluded root `T` covers the path `P`: `T` is a prefix of `P` that ends
on a component boundary (`T` ends with `/`, or `P` ends where `T` ends, or the
character of `P` after `T` is `/`), or `T` is `P` followed by one `/` while `P`
does not end in `/`. -/
def RootCovers (T P : List Nat) : Prop :=
  (T <+: P ∧ (T.getLast? = some 47 ∨ P.length = T.length ∨ P[T.length]? = some 47)) ∨
  (T = P ++ [47] ∧ P.getLast? ≠ some 47)

/-- The base name of a directory path: the part after its last `/`, the
whole path when it has no `/`. -/
def baseName (directory : List Nat) : List Nat :=
  ((splitBy 47 directory).getLast?).getD []

/-- A base name fits a token of the subdirectory list: with the prefix of the
token being its part before the first `?`, the length of the base name lies
between the length of the prefix and the length of the whole token, and the
base name begins with the prefix, compared case-insensitively. -/
def SubdirFits (T b : List Nat) : Prop :=
  (T.takeWhile (fun c => c ≠ 63)).length ≤ b.length ∧ b.length ≤ T.length ∧
    (b.take (T.takeWhile (fun c => c ≠ 63)).length).map tolower =
      (T.takeWhile (fun c => c ≠ 63)).map tolower

/-- The tokens are tried in order, and the search stops without a match at
the first token that is empty or begins with `?`. -/
def ReachesFit (b : List Nat) : List (List Nat) → Prop
  | [] => False
  | T :: Ts => T ≠ [] ∧ T.head? ≠ some 63 ∧ (SubdirFits T b ∨ ReachesFit b Ts)

/-- The pattern matches the candidate under `wildcasecmp`: the call returns a
non-zero value. -/
def hits (pattern cand : List Nat) : Bool :=
  match wildcasecmp pattern cand with
  | .done v => decide (v ≠ 0)
  | _ => false

/-- The candidate name a pattern is matched against: the part of `dirname`
after its last `/` when `match_full` is off and `dirname` contains a `/`, the
whole `dirname` otherwise. -/
def candidate (match_full : Bool) (dirname : List Nat) : List Nat :=
  if match_full = false ∧ 47 ∈ dirname then baseName dirname else dirname

/-- A directory record qualifies for display: `search_mode` is set or its
status is 0 (NEWDIR), no pattern is given or the pattern filter accepts it,
`matchpath(group_dirs, dirname)` is 0, and `subcomp(dirname)` is 0. -/
def qualifies (g : Globals) (pattern : Option (List Nat)) (r : dirlog) : Bool :=
  decide (g.search_mode = true ∨ r.status = 0) &&
  decide (newdirsPattern g.match_full pattern r.dirname = .done true) &&
  decide (matchpath g.group_dirs r.dirname = .done 0) &&
  decide (subcomp g.subdir_list r.dirname = .done 0)

/-- No pattern is given, or the pattern matches the candidate name of the
record. -/
def patternHits (match_full : Bool) (pattern : Option (List Nat)) (dirname : List Nat) : Bool :=
  match pattern with
  | none => true
  | some pat => hits pat (candidate match_full dirname)

/-- A nuke record qualifies for display: `search_mode` is set or its status
is the required one, and no pattern is given or the pattern matches its
candidate name. -/
def qualifiesNuke (g : Globals) (status : Nat) (pattern : Option (List Nat)) (r : nukelog) :
    Bool :=
  decide (g.search_mode = true ∨ r.status = status) &&
  patternHits g.match_full pattern r.dirname

/-! ## A small dirlog and nukelog for the examples -/

/-- Settings of the examples: two results, base-name matching, no search mode. -/
def exGlobals : Globals :=
  { max_results := 2, match_full := false, search_mode := false,
    group_dirs := cstr "/site/groups /site/old", subdir_list := cstr "cd?,sample" }

/-- A toy layout with records of two bytes: the status, then the last
character of the directory name `/site/rel/X`. -/
def exDecodeDir (raw : List Nat) : dirlog :=
  { status := raw.getD 0 0, uptime := 0, uploader := 0, group := 0, files := 0, bytes := 0,
    dirname := cstr "/site/rel/" ++ [raw.getD 1 65] }

/-- The same toy layout for nuke records. -/
def exDecodeNuke (raw : List Nat) : nukelog :=
  { status := raw.getD 0 0, nuketime := 0, nuker := [], unnuker := [], nukee := [], mult := 1,
    bytes := 0, reason := [], dirname := cstr "/site/rel/" ++ [raw.getD 1 65] }

/-- Four records, oldest first: statuses 0, 1, 0, 0 and names `A`, `B`, `C`, `D`. -/
def exRaws : List (List Nat) := [[0, 65], [1, 66], [0, 67], [0, 68]]

/-! ## Reference notions for lists with empty tokens -/

instance instDecidableRootCovers (T P : List Nat) : Decidable (RootCovers T P) := by
  unfold RootCovers
  exact inferInstance

instance instDecidableSubdirFits (T b : List Nat) : Decidable (SubdirFits T b) := by
  unfold SubdirFits
  exact inferInstance

/-- What `matchpath` answers for one token of the list: a non-empty token hits
the path when it covers it; an empty token (between two spaces, or after a
trailing space) hits every path that begins with `/`. -/
def TokenHit (T P : List Nat) : Prop :=
  (T ≠ [] ∧ RootCovers T P) ∨ (T = [] ∧ P.head? = some 47)

/-! ## One pass of the second loop of wildcasecmp -/

/-- The four pointers of the second loop of `wildcasecmp`: the position in the
pattern, the position in the string, and the two backtrack positions (`none`
while they are NULL). -/
structure WildState where
  wild : List Nat
  string : List Nat
  mp : Option (List Nat)
  cp : Option (List Nat)

/-- What one test of `while (*string)` and one pass through the body lead to:
the loop is left with the pattern pointer `wild`, the function returns from
inside the loop, the backtracking branch is taken with NULL pointers, or the
loop goes on in a new state. -/
inductive WildStep where
  | leave (wild : List Nat)
  | ret (v : Nat)
  | crash
  | next (s : WildState)

/-- One pass of the second loop of `wildcasecmp` (lines 503-517). -/
def wildStep (s : WildState) : WildStep :=
  if deref s.string = 0 then .leave s.wild
  else if deref s.wild = 42 then
    if deref s.wild.tail = 0 then .ret 1
    else .next ⟨s.wild.tail, s.string, some s.wild.tail, some s.string.tail⟩
  else if deref s.wild = 63 ∨ tolower (deref s.wild) = tolower (deref s.string) then
    .next ⟨s.wild.tail, s.string.tail, s.mp, s.cp⟩
  else
    match s.mp, s.cp with
    | some m, some c => .next ⟨m, c, some m, some c.tail⟩
    | _, _ => .crash

/-- The quantity that decreases with every pass of the second loop, in
lexicographic order: the longer of the rests of the pattern at `wild` and at
`mp`, then the rest of the string at `cp`, then the rest of the string at
`string`. -/
def wildMeasure (s : WildState) : Nat × Nat × Nat :=
  (max s.wild.length (s.mp.elim 0 List.length), s.cp.elim 0 List.length, s.string.length)

/-! ## The output lines (showlog.c, lines 399-404 and 456-459) -/

/-- The magnitude of `(float)z` for an integer `z` of magnitude `n` (at most
64 bits): `n` itself below `2^24`, and otherwise the nearest number with a
significand of 24 bits, ties going to the even significand (IEEE 754 single
precision, rounding to nearest). -/
def floatOfNat (n : Nat) : Nat :=
  if n < 2 ^ 24 then n
  else
    (if 2 * (n % 2 ^ (Nat.log2 n - 23)) < 2 ^ (Nat.log2 n - 23) ∨
        (2 * (n % 2 ^ (Nat.log2 n - 23)) = 2 ^ (Nat.log2 n - 23) ∧
          (n / 2 ^ (Nat.log2 n - 23)) % 2 = 0)
      then n / 2 ^ (Nat.log2 n - 23)
      else n / 2 ^ (Nat.log2 n - 23) + 1) * 2 ^ (Nat.log2 n - 23)

/-- The value `(float)z` of the integer `z`, signed (`int32_t`) or unsigned
(`uint64_t`): rounding to nearest is symmetric, so the sign of `z` is kept and
the magnitude is rounded by `floatOfNat`. -/
def floatOfInt (z : Int) : Int :=
  if z < 0 then -((floatOfNat z.natAbs : Nat) : Int) else ((floatOfNat z.natAbs : Nat) : Int)

/-- The number printed by `printf("%.0f", x)` for the non-negative quotient
`x = num / den`: `x` rounded to the nearest integer, a tie going to the even
one. -/
def roundHalfEven (num den : Nat) : Nat :=
  if 2 * (num % den) < den ∨ (2 * (num % den) = den ∧ (num / den) % 2 = 0) then num / den
  else num / den + 1

/-- The number printed by `printf("%.0f", x)` for the quotient `x = num / den`
of either sign: the sign of `num` with the magnitude rounded by
`roundHalfEven` (a negative `x` that rounds to zero is printed as `-0`, the
number 0). -/
def roundHalfEvenInt (num : Int) (den : Nat) : Int :=
  if num < 0 then -((roundHalfEven num.natAbs den : Nat) : Int)
  else ((roundHalfEven num.natAbs den : Nat) : Int)

/-- The integers that single precision represents exactly: a significand
below `2^24` times a power of two, with either sign (the exponent range of the
format is no limit for an integer of 64 bits).  The single precision values
that are not integers are below `2^23` in magnitude. -/
def IsFloat24 (x : Int) : Prop :=
  ∃ m j : Nat, m < 2 ^ 24 ∧ x.natAbs = m * 2 ^ j

/-- The number printed by `printf("%.0f", x)` for a rational `x`: `x` rounded
to the nearest integer, a tie going to the even one. -/
def ratRoundHalfEven (x : Rat) : Int :=
  if x - (Rat.floor x : Int) < 1 / 2 ∨ (x - (Rat.floor x : Int) = 1 / 2 ∧ Rat.floor x % 2 = 0)
    then Rat.floor x
  else Rat.floor x + 1

/-- The fields of an output line of `show_newdirs`:
`status|uptime|uploader|group|files|kilobytes|dirname`. -/
structure DirLine where
  status : Nat
  uptime : Nat
  uploader : Nat
  group : Nat
  files : Nat
  kilobytes : Int
  dirname : List Nat
  deriving DecidableEq

/-- The `printf` of `show_newdirs`:
`printf("%d|%u|%d|%d|%d|%.0f|%s\n", buffer.status, (unsigned int)buffer.uptime, buffer.uploader, buffer.group, buffer.files, (float)buffer.bytes/1024., buffer.dirname)`.
The byte count is converted to `float` whatever its integer type; the division
by the double `1024.` is exact. -/
def dirlogLine (buffer : dirlog) : DirLine :=
  { status := buffer.status, uptime := buffer.uptime % 2 ^ 32, uploader := buffer.uploader,
    group := buffer.group, files := buffer.files,
    kilobytes := roundHalfEvenInt (floatOfInt buffer.bytes) 1024, dirname := buffer.dirname }

/-- The fields of an output line of `show_nukes`:
`status|nuketime|nuker|unnuker|nukee|multiplier|reason|kilobytes|dirname`. -/
structure NukeLine where
  status : Nat
  nuketime : Nat
  nuker : List Nat
  unnuker : List Nat
  nukee : List Nat
  multiplier : Nat
  reason : List Nat
  kilobytes : Int
  dirname : List Nat
  deriving DecidableEq

/-- The `printf` of `show_nukes`:
`printf("%d|%u|%s|%s|%s|%d|%s|%.0f|%s\n", buffer.status, (unsigned int)buffer.nuketime, buffer.nuker, buffer.unnuker, buffer.nukee, buffer.mult, buffer.reason, buffer.bytes*1024.0, buffer.dirname)`.
The field `bytes` holds the (finite) value of the stored float; the product
with the double `1024.0` is exact. -/
def nukelogLine (buffer : nukelog) : NukeLine :=
  { status := buffer.status, nuketime := buffer.nuketime % 2 ^ 32, nuker := buffer.nuker,
    unnuker := buffer.unnuker, nukee := buffer.nukee, multiplier := buffer.mult,
    reason := buffer.reason, kilobytes := ratRoundHalfEven (buffer.bytes * 1024),
    dirname := buffer.dirname }

/-- A toy layout with records of two bytes that hold the byte count as a
signed integer of 16 bits in two's complement, high byte first; the status is 0
and the name is `/site/rel/A`. -/
def exDecodeBytes (raw : List Nat) : dirlog :=
  { status := 0, uptime := 0, uploader := 0, group := 0, files := 0,
    bytes :=
      if raw.getD 0 0 * 256 + raw.getD 1 0 < 32768 then
        ((raw.getD 0 0 * 256 + raw.getD 1 0 : Nat) : Int)
      else ((raw.getD 0 0 * 256 + raw.getD 1 0 : Nat) : Int) - 65536,
    dirname := cstr "/site/rel/A" }

/-- A toy layout with nuke records of two bytes: the status, then the byte
amount as a whole number. -/
def exDecodeAmount (raw : List Nat) : nukelog :=
  { status := raw.getD 0 0, nuketime := 0, nuker := [], unnuker := [], nukee := [], mult := 1,
    bytes := (raw.getD 1 0 : Nat), reason := [], dirname := cstr "/site/rel/A" }

/-! ## Auxiliary facts on bytes and pointers -/

theorem tolower_eq_zero (c : Nat) : tolower c = 0 ↔ c = 0 := by
  unfold tolower; split <;> omega

theorem tolower_eq_star {a b : Nat} (h : tolower a = tolower b) : a = 42 ↔ b = 42 := by
  unfold tolower at h; split_ifs at h <;> omega

theorem tolower_eq_quest {a b : Nat} (h : tolower a = tolower b) : a = 63 ↔ b = 63 := by
  unfold tolower at h; split_ifs at h <;> omega

theorem deref_nil : deref [] = 0 := rfl

theorem deref_cons (c : Nat) (s : List Nat) : deref (c :: s) = c := rfl

theorem deref_eq_zero {s : List Nat} (h : 0 ∉ s) : deref s = 0 ↔ s = [] := by
  cases s with
  | nil => simp [deref]
  | cons a t =>
    simp only [List.mem_cons, not_or] at h
    simp only [deref_cons, reduceCtorEq, iff_false]
    exact fun e => h.1 e.symm

/-! ## Reference glob semantics, unfolded along the pattern -/

theorem globMatches_nil (s : List Nat) : GlobMatches [] s ↔ s = [] := by
  constructor
  · rintro ⟨pieces, h, rfl⟩
    cases h
    rfl
  · rintro rfl
    exact ⟨[], List.Forall₂.nil, rfl⟩

theorem globMatches_cons (p : Nat) (ps s : List Nat) :
    GlobMatches (p :: ps) s ↔ ∃ x t, Fits p x ∧ GlobMatches ps t ∧ s = x ++ t := by
  constructor
  · rintro ⟨pieces, h, rfl⟩
    obtain ⟨x, rest, hx, hrest, rfl⟩ := List.forall₂_cons_left_iff.mp h
    exact ⟨x, rest.flatten, hx, ⟨rest, hrest, rfl⟩, by simp⟩
  · rintro ⟨x, t, hx, ⟨rest, hrest, rfl⟩, rfl⟩
    exact ⟨x :: rest, List.Forall₂.cons hx hrest, by simp⟩

theorem globMatches_star (ps s : List Nat) :
    GlobMatches (42 :: ps) s ↔ ∃ t, t <:+ s ∧ GlobMatches ps t := by
  rw [globMatches_cons]
  constructor
  · rintro ⟨x, t, -, ht, rfl⟩
    exact ⟨t, List.suffix_append x t, ht⟩
  · rintro ⟨t, ⟨x, rfl⟩, ht⟩
    exact ⟨x, t, by simp [Fits], ht, rfl⟩

theorem globMatches_char {p : Nat} (hp : p ≠ 42) (ps s : List Nat) :
    GlobMatches (p :: ps) s ↔
      ∃ c t, s = c :: t ∧ (p = 63 ∨ tolower p = tolower c) ∧ GlobMatches ps t := by
  rw [globMatches_cons]
  constructor
  · rintro ⟨x, t, hx, ht, rfl⟩
    unfold Fits at hx
    rw [if_neg hp] at hx
    split_ifs at hx with h63
    · obtain ⟨c, rfl⟩ := List.length_eq_one.mp hx
      exact ⟨c, t, rfl, Or.inl h63, ht⟩
    · obtain ⟨c, rfl, hc⟩ := hx
      exact ⟨c, t, rfl, Or.inr hc, ht⟩
  · rintro ⟨c, t, rfl, hc, ht⟩
    refine ⟨[c], t, ?_, ht, rfl⟩
    unfold Fits
    rw [if_neg hp]
    split_ifs with h63
    · rfl
    · rcases hc with hc | hc
      · exact absurd hc h63
      · exact ⟨c, rfl, hc⟩

theorem globMatches_star_cons (ps : List Nat) (c : Nat) (s : List Nat) :
    GlobMatches (42 :: ps) (c :: s) ↔ GlobMatches ps (c :: s) ∨ GlobMatches (42 :: ps) s := by
  rw [globMatches_star, globMatches_star]
  constructor
  · rintro ⟨t, ht, hm⟩
    rcases List.suffix_cons_iff.mp ht with rfl | ht
    · exact Or.inl hm
    · exact Or.inr ⟨t, ht, hm⟩
  · rintro (hm | ⟨t, ht, hm⟩)
    · exact ⟨c :: s, List.suffix_refl _, hm⟩
    · exact ⟨t, List.suffix_cons_iff.mpr (Or.inr ht), hm⟩

theorem globMatches_star_self (ps s : List Nat) (h : GlobMatches ps s) :
    GlobMatches (42 :: ps) s :=
  (globMatches_star ps s).mpr ⟨s, List.suffix_refl _, h⟩

theorem globMatches_append_ok {pre pre' : List Nat} (h : List.Forall₂ CharOk pre pre')
    (q t : List Nat) : GlobMatches (pre ++ q) (pre' ++ t) ↔ GlobMatches q t := by
  induction h with
  | nil => simp
  | @cons p c ps cs hpc _ ih =>
    rw [List.cons_append, List.cons_append, globMatches_char hpc.1]
    constructor
    · rintro ⟨c', t', he, -, hm⟩
      obtain ⟨rfl, rfl⟩ := List.cons.inj he
      exact ih.mp hm
    · intro hm
      exact ⟨c, cs ++ t, rfl, hpc.2, ih.mpr hm⟩

theorem globMatches_starfree_split {pre : List Nat} (hpre : 42 ∉ pre) (q : List Nat) :
    ∀ u, GlobMatches (pre ++ q) u →
      ∃ t, t <:+ u ∧ u.length = pre.length + t.length ∧ GlobMatches q t := by
  induction pre with
  | nil =>
    intro u h
    exact ⟨u, List.suffix_refl _, by simp, h⟩
  | cons p ps ih =>
    intro u h
    simp only [List.mem_cons, not_or] at hpre
    rw [List.cons_append, globMatches_char (fun e => hpre.1 e.symm)] at h
    obtain ⟨c, t, rfl, -, hm⟩ := h
    obtain ⟨t', ht', hlen, hq⟩ := ih hpre.2 t hm
    refine ⟨t', ht'.trans (List.suffix_cons c t), ?_, hq⟩
    simp only [List.length_cons, hlen]
    omega

theorem forall₂_charOk_starfree {pre pre' : List Nat} (h : List.Forall₂ CharOk pre pre') :
    42 ∉ pre := by
  induction h with
  | nil => simp
  | cons hpc _ ih =>
    simp only [List.mem_cons, not_or]
    exact ⟨fun e => hpc.1 e.symm, ih⟩

/-! ## The three facts behind the backtracking of `wildcasecmp` -/

theorem forall₂_charOk_snoc {pre pre' : List Nat} (h : List.Forall₂ CharOk pre pre')
    {p c : Nat} (hpc : CharOk p c) : List.Forall₂ CharOk (pre ++ [p]) (pre' ++ [c]) := by
  induction h with
  | nil => exact List.Forall₂.cons hpc List.Forall₂.nil
  | cons h1 _ ih => exact List.Forall₂.cons h1 ih

/-- A later `*` makes the earlier backtrack point obsolete. -/
theorem globMatches_greedy {pre pre' : List Nat} (h : List.Forall₂ CharOk pre pre')
    (q str : List Nat) :
    GlobMatches (42 :: (pre ++ 42 :: q)) (pre' ++ str) ↔ GlobMatches (42 :: q) str := by
  constructor
  · intro hm
    obtain ⟨t, ht, hm⟩ := (globMatches_star _ _).mp hm
    obtain ⟨t', ht', hlen, hm⟩ := globMatches_starfree_split (forall₂_charOk_starfree h) _ t hm
    obtain ⟨t'', ht'', hm⟩ := (globMatches_star _ _).mp hm
    refine (globMatches_star _ _).mpr ⟨t'', ?_, hm⟩
    have h1 : t'' <:+ pre' ++ str := (ht''.trans ht').trans ht
    have h2 : str <:+ pre' ++ str := List.suffix_append _ _
    refine List.suffix_of_suffix_length_le h1 h2 ?_
    have e1 := ht''.length_le
    have e2 := ht.length_le
    have e3 := h.length_eq
    simp only [List.length_append] at e2
    omega
  · intro hm
    exact globMatches_star_self _ _ ((globMatches_append_ok h _ _).mpr hm)

/-- When the candidate is used up, only the rest of the pattern decides. -/
theorem globMatches_exit {pre pre' : List Nat} (h : List.Forall₂ CharOk pre pre')
    (wild : List Nat) :
    GlobMatches (42 :: (pre ++ wild)) pre' ↔ GlobMatches wild [] := by
  constructor
  · intro hm
    obtain ⟨t, ht, hm⟩ := (globMatches_star _ _).mp hm
    obtain ⟨t', _, hlen, hm⟩ := globMatches_starfree_split (forall₂_charOk_starfree h) _ t hm
    have e2 := ht.length_le
    have e3 := h.length_eq
    have : t' = [] := List.length_eq_zero.mp (by omega)
    rw [this] at hm
    exact hm
  · intro hm
    have := (globMatches_append_ok h wild []).mpr hm
    rw [List.append_nil] at this
    exact globMatches_star_self _ _ this

/-- After a mismatch the `*` has to absorb one more character. -/
theorem globMatches_backtrack {pre pre' : List Nat} (h : List.Forall₂ CharOk pre pre')
    (wild : List Nat) (c : Nat) (str : List Nat) (hno : ¬ GlobMatches wild (c :: str)) :
    GlobMatches (42 :: (pre ++ wild)) (pre' ++ c :: str) ↔
      GlobMatches (42 :: (pre ++ wild)) (pre' ++ c :: str).tail := by
  have hno' : ¬ GlobMatches (pre ++ wild) (pre' ++ c :: str) :=
    fun hm => hno ((globMatches_append_ok h _ _).mp hm)
  cases pre' with
  | nil =>
    simp only [List.nil_append, List.tail_cons] at hno' ⊢
    rw [globMatches_star_cons]
    exact ⟨fun hm => hm.resolve_left hno', Or.inr⟩
  | cons x u =>
    simp only [List.cons_append, List.tail_cons] at hno' ⊢
    rw [globMatches_star_cons]
    exact ⟨fun hm => hm.resolve_left hno', Or.inr⟩

theorem not_globMatches_mismatch (wild : List Nat) (c : Nat) (str : List Nat)
    (h42 : deref wild ≠ 42)
    (hbad : ¬ (deref wild = 63 ∨ tolower (deref wild) = tolower c)) :
    ¬ GlobMatches wild (c :: str) := by
  cases wild with
  | nil =>
    rw [globMatches_nil]
    simp
  | cons p ps =>
    rw [deref_cons] at h42 hbad
    rw [globMatches_char h42]
    rintro ⟨c', t, he, hok, -⟩
    obtain ⟨rfl, rfl⟩ := List.cons.inj he
    exact hbad hok

/-! ## The loops of `wildcasecmp` -/

theorem wildEnd_spec : ∀ wild : List Nat, 0 ∉ wild →
    (wildEnd wild = 0 ∨ wildEnd wild = 1) ∧ (wildEnd wild ≠ 0 ↔ GlobMatches wild []) := by
  intro wild
  induction wild with
  | nil =>
    intro _
    simp [wildEnd, globMatches_nil]
  | cons p ps ih =>
    intro h0
    simp only [List.mem_cons, not_or] at h0
    by_cases hp : p = 42
    · subst hp
      have hrec := ih h0.2
      simp only [wildEnd, if_true]
      refine ⟨hrec.1, hrec.2.trans ?_⟩
      rw [globMatches_star]
      constructor
      · intro hm
        exact ⟨[], List.suffix_refl _, hm⟩
      · rintro ⟨t, ht, hm⟩
        rw [List.suffix_nil.mp ht] at hm
        exact hm
    · have hp0 : p ≠ 0 := fun e => h0.1 e.symm
      simp only [wildEnd, if_neg hp, if_neg hp0, ne_eq, not_true_eq_false, false_iff, true_or,
        true_and]
      rw [globMatches_char hp]
      rintro ⟨c, t, he, -⟩
      exact List.noConfusion he

theorem wildLoop1_spec : ∀ (string wild : List Nat), 0 ∉ string → 0 ∉ wild →
    match wildLoop1 wild string with
    | none => ¬ GlobMatches wild string
    | some (w, s) =>
      (GlobMatches wild string ↔ GlobMatches w s) ∧ (s = [] ∨ deref w = 42) ∧
        0 ∉ w ∧ 0 ∉ s ∧ w.length ≤ wild.length ∧ s.length ≤ string.length := by
  intro string
  induction string with
  | nil =>
    intro wild _ hw
    simp [wildLoop1, hw]
  | cons c cs ih =>
    intro wild hs hw
    have hs' := hs
    simp only [List.mem_cons, not_or] at hs'
    have hc : c ≠ 0 := fun e => hs'.1 e.symm
    unfold wildLoop1
    by_cases h42 : deref wild = 42
    · rw [if_neg (fun h : c ≠ 0 ∧ deref wild ≠ 42 => h.2 h42)]
      exact ⟨Iff.rfl, Or.inr h42, hw, hs, le_refl _, le_refl _⟩
    · rw [if_pos ⟨hc, h42⟩]
      by_cases hbad : deref wild ≠ 63 ∧ tolower (deref wild) ≠ tolower c
      · rw [if_pos hbad]
        exact not_globMatches_mismatch wild c cs h42 (by tauto)
      · rw [if_neg hbad]
        cases wild with
        | nil =>
          exfalso
          apply hbad
          simp only [deref_nil]
          refine ⟨by decide, fun e => hc ((tolower_eq_zero c).mp e.symm)⟩
        | cons p ps =>
          rw [deref_cons] at h42 hbad
          simp only [List.mem_cons, not_or] at hw
          have hrec := ih ps hs'.2 hw.2
          simp only [List.tail_cons]
          have hstep : GlobMatches (p :: ps) (c :: cs) ↔ GlobMatches ps cs := by
            rw [globMatches_char h42]
            constructor
            · rintro ⟨c', t, he, -, hm⟩
              obtain ⟨rfl, rfl⟩ := List.cons.inj he
              exact hm
            · intro hm
              exact ⟨c, cs, rfl, by tauto, hm⟩
          cases hres : wildLoop1 ps cs with
          | none =>
            rw [hres] at hrec
            simp only
            exact fun hm => hrec (hstep.mp hm)
          | some ws =>
            obtain ⟨w, s⟩ := ws
            rw [hres] at hrec
            simp only at hrec ⊢
            obtain ⟨h1, h2, h3, h4, h5, h6⟩ := hrec
            refine ⟨hstep.trans h1, h2, h3, h4, ?_, ?_⟩
            · simp only [List.length_cons]; omega
            · simp only [List.length_cons]; omega

theorem wildLoop2_succ (fuel : Nat) (wild string : List Nat) (mp cp : Option (List Nat)) :
    wildLoop2 (fuel + 1) wild string mp cp =
      if deref string = 0 then .done (wildEnd wild)
      else if deref wild = 42 then
        if deref wild.tail = 0 then .done 1
        else wildLoop2 fuel wild.tail string (some wild.tail) (some string.tail)
      else if deref wild = 63 ∨ tolower (deref wild) = tolower (deref string) then
        wildLoop2 fuel wild.tail string.tail mp cp
      else
        match mp, cp with
        | some m, some c => wildLoop2 fuel m c (some m) (some c.tail)
        | _, _ => .fault := rfl

/-- The second loop of `wildcasecmp` once both backtrack pointers are set:
`mp = pre ++ wild`, the candidate position one before `cp` is `pre' ++ str`,
and `pre` has matched `pre'` character by character. -/
theorem wildLoop2_spec : ∀ (fuel : Nat) (wild str pre pre' mp cp : List Nat),
    List.Forall₂ CharOk pre pre' → mp = pre ++ wild → cp = (pre' ++ str).tail →
    0 ∉ mp → 0 ∉ pre' ++ str →
    1 ≤ fuel → (str ≠ [] → cp.length * (mp.length + 1) + wild.length + 2 ≤ fuel) →
    ∃ r, wildLoop2 fuel wild str (some mp) (some cp) = .done r ∧ (r = 0 ∨ r = 1) ∧
      (r ≠ 0 ↔ GlobMatches (42 :: mp) (pre' ++ str)) := by
  intro fuel
  induction fuel with
  | zero =>
    intro _ _ _ _ _ _ _ _ _ _ _ h1
    omega
  | succ fuel ih =>
    intro wild str pre pre' mp cp hpre hmp hcp h0mp h0s _ hfuel
    have h0w : 0 ∉ wild := by
      rw [hmp] at h0mp
      exact fun h => h0mp (List.mem_append_right _ h)
    cases str with
    | nil =>
      obtain ⟨hv, hiff⟩ := wildEnd_spec wild h0w
      refine ⟨wildEnd wild, by simp [wildLoop2, deref], hv, hiff.trans ?_⟩
      rw [hmp, List.append_nil]
      exact (globMatches_exit hpre wild).symm
    | cons c str' =>
      have h0str : 0 ∉ c :: str' := fun h => h0s (List.mem_append_right _ h)
      have hc : c ≠ 0 := fun e => h0str (by rw [e]; exact List.mem_cons_self _ _)
      have hfuel := hfuel (by simp)
      have hmplen : mp.length = pre.length + wild.length := by rw [hmp, List.length_append]
      have hcplen : cp.length = pre'.length + str'.length := by
        rw [hcp, List.length_tail, List.length_append, List.length_cons]
        omega
      have hds : deref (c :: str') ≠ 0 := by rw [deref_cons]; exact hc
      rw [wildLoop2_succ, if_neg hds]
      by_cases h42 : deref wild = 42
      · rw [if_pos h42]
        cases wild with
        | nil => simp [deref] at h42
        | cons p wild' =>
          rw [deref_cons] at h42
          subst h42
          have h0w' : 0 ∉ wild' := fun h => h0w (List.mem_cons_of_mem _ h)
          simp only [List.tail_cons]
          by_cases hend : deref wild' = 0
          · rw [if_pos hend]
            have hnil : wild' = [] := (deref_eq_zero h0w').mp hend
            subst hnil
            refine ⟨1, rfl, Or.inr rfl, ?_⟩
            simp only [ne_eq, one_ne_zero, not_false_eq_true, true_iff]
            rw [hmp]
            apply globMatches_star_self
            rw [globMatches_append_ok hpre]
            exact (globMatches_star _ _).mpr ⟨[], List.nil_suffix, (globMatches_nil _).mpr rfl⟩
          · rw [if_neg hend]
            have hmul : str'.length * (wild'.length + 1) ≤ cp.length * (mp.length + 1) := by
              apply Nat.mul_le_mul
              · omega
              · simp only [List.length_cons] at hmplen; omega
            simp only [List.length_cons] at hfuel
            obtain ⟨r, hr, hv, hiff⟩ := ih wild' (c :: str') [] [] wild' str' List.Forall₂.nil
              rfl rfl h0w' h0str (by omega) (fun _ => by omega)
            refine ⟨r, hr, hv, hiff.trans ?_⟩
            rw [hmp]
            simp only [List.nil_append]
            exact (globMatches_greedy hpre wild' (c :: str')).symm
      · rw [if_neg h42]
        by_cases hok : deref wild = 63 ∨ tolower (deref wild) = tolower (deref (c :: str'))
        · rw [if_pos hok]
          cases wild with
          | nil =>
            exfalso
            rw [deref_nil, deref_cons] at hok
            rcases hok with hok | hok
            · omega
            · exact hc ((tolower_eq_zero c).mp hok.symm)
          | cons p wild' =>
            rw [deref_cons] at h42
            rw [deref_cons, deref_cons] at hok
            simp only [List.tail_cons]
            have hpc : CharOk p c := ⟨h42, hok⟩
            simp only [List.length_cons] at hfuel
            obtain ⟨r, hr, hv, hiff⟩ := ih wild' str' (pre ++ [p]) (pre' ++ [c]) mp cp
              (forall₂_charOk_snoc hpre hpc) (by rw [hmp]; simp) (by rw [hcp]; simp) h0mp
              (by simpa using h0s) (by omega) (fun _ => by omega)
            refine ⟨r, hr, hv, hiff.trans ?_⟩
            simp
        · rw [if_neg hok]
          rw [deref_cons] at hok
          have h0cp : 0 ∉ cp := by
            rw [hcp]
            exact fun h => h0s (List.mem_of_mem_tail h)
          obtain ⟨r, hr, hv, hiff⟩ := ih mp cp [] [] mp cp.tail List.Forall₂.nil
            rfl rfl h0mp h0cp (by omega) (fun hne => by
              cases cp with
              | nil => exact absurd rfl hne
              | cons x cp' =>
                simp only [List.length_cons, List.tail_cons] at hfuel ⊢
                rw [Nat.add_mul] at hfuel
                omega)
          refine ⟨r, hr, hv, hiff.trans ?_⟩
          simp only [List.nil_append]
          rw [hcp, hmp]
          exact (globMatches_backtrack hpre wild c str'
            (not_globMatches_mismatch wild c str' h42 hok)).symm

/-- The function `wildcasecmp` against the reference semantics: it returns, its
value is 0 or 1, and it is 1 exactly on a match. -/
theorem wildcasecmp_spec (wild string : List Nat) (hw : 0 ∉ wild) (hs : 0 ∉ string) :
    ∃ r, wildcasecmp wild string = .done r ∧ (r = 0 ∨ r = 1) ∧
      (r ≠ 0 ↔ GlobMatches wild string) := by
  have h1 := wildLoop1_spec string wild hs hw
  unfold wildcasecmp
  cases hres : wildLoop1 wild string with
  | none =>
    rw [hres] at h1
    exact ⟨0, rfl, Or.inl rfl, by simpa using h1⟩
  | some ws =>
    obtain ⟨w, s⟩ := ws
    rw [hres] at h1
    simp only at h1 ⊢
    obtain ⟨hiff, hstar, h0w, h0s, hlw, hls⟩ := h1
    cases s with
    | nil =>
      obtain ⟨hv, hiff'⟩ := wildEnd_spec w h0w
      exact ⟨wildEnd w, by simp [wildLoop2, deref], hv, hiff'.trans hiff.symm⟩
    | cons c s' =>
      have hstar : deref w = 42 := hstar.resolve_left (by simp)
      have hc : c ≠ 0 := fun e => h0s (by rw [e]; exact List.mem_cons_self _ _)
      have hds : deref (c :: s') ≠ 0 := by rw [deref_cons]; exact hc
      cases w with
      | nil => simp [deref] at hstar
      | cons p w' =>
        rw [deref_cons] at hstar
        subst hstar
        have h0w' : 0 ∉ w' := fun h => h0w (List.mem_cons_of_mem _ h)
        rw [wildLoop2_succ, if_neg hds, if_pos (deref_cons _ _)]
        simp only [List.tail_cons]
        by_cases hend : deref w' = 0
        · rw [if_pos hend]
          have hnil : w' = [] := (deref_eq_zero h0w').mp hend
          subst hnil
          refine ⟨1, rfl, Or.inr rfl, ?_⟩
          simp only [ne_eq, one_ne_zero, not_false_eq_true, true_iff]
          rw [hiff]
          exact (globMatches_star _ _).mpr ⟨[], List.nil_suffix, (globMatches_nil _).mpr rfl⟩
        · rw [if_neg hend]
          simp only [List.length_cons] at hlw hls
          have hmul : s'.length * (w'.length + 1) ≤ string.length * wild.length := by
            apply Nat.mul_le_mul <;> omega
          obtain ⟨r, hr, hv, hiff'⟩ := wildLoop2_spec
            ((string.length + 1) * (wild.length + 1) + 1) w' (c :: s') [] [] w' s'
            List.Forall₂.nil rfl rfl h0w' h0s (by omega) (fun _ => by
              have e : (string.length + 1) * (wild.length + 1)
                  = string.length * wild.length + string.length + wild.length + 1 := by ring
              omega)
          exact ⟨r, hr, hv, hiff'.trans hiff.symm⟩

/-! ## Case-insensitivity of the reference semantics -/

theorem forall₂_tolower_of_map {a b : List Nat} (h : a.map tolower = b.map tolower) :
    List.Forall₂ (fun x y => tolower x = tolower y) a b := by
  have h1 : List.Forall₂ Eq (a.map tolower) (b.map tolower) := by
    rw [h]
    exact List.forall₂_refl _
  rw [List.forall₂_map_left_iff, List.forall₂_map_right_iff] at h1
  exact h1

theorem not_mem_zero_of_map_tolower {a b : List Nat} (h : a.map tolower = b.map tolower)
    (h0 : 0 ∉ b) : 0 ∉ a := by
  intro ha
  have h1 : tolower 0 ∈ a.map tolower := List.mem_map_of_mem _ ha
  rw [h] at h1
  obtain ⟨y, hy, hy0⟩ := List.mem_map.mp h1
  have : y = 0 := (tolower_eq_zero y).mp (by rw [hy0]; rfl)
  exact h0 (this ▸ hy)

theorem globMatches_case_mono : ∀ (w w' : List Nat),
    List.Forall₂ (fun x y => tolower x = tolower y) w w' →
    ∀ (s s' : List Nat), List.Forall₂ (fun x y => tolower x = tolower y) s s' →
    GlobMatches w s → GlobMatches w' s' := by
  intro w w' hw
  induction hw with
  | nil =>
    intro s s' hs hm
    rw [globMatches_nil] at hm ⊢
    subst hm
    cases hs
    rfl
  | @cons p p' ps ps' hp _ ih =>
    intro s s' hs hm
    by_cases h42 : p = 42
    · have h42' : p' = 42 := (tolower_eq_star hp).mp h42
      subst h42 h42'
      obtain ⟨t, ht, hm⟩ := (globMatches_star _ _).mp hm
      rw [List.suffix_iff_eq_drop] at ht
      have hd := List.forall₂_drop (s.length - t.length) hs
      rw [← ht] at hd
      exact (globMatches_star _ _).mpr ⟨_, List.drop_suffix _ _, ih _ _ hd hm⟩
    · have h42' : p' ≠ 42 := fun e => h42 ((tolower_eq_star hp).mpr e)
      obtain ⟨c, t, rfl, hok, hm⟩ := (globMatches_char h42 _ _).mp hm
      cases hs with
      | @cons _ c' _ t' hc ht =>
        refine (globMatches_char h42' _ _).mpr ⟨c', t', rfl, ?_, ih _ _ ht hm⟩
        rcases hok with hok | hok
        · exact Or.inl ((tolower_eq_quest hp).mp hok)
        · exact Or.inr (by rw [← hp, hok, hc])

theorem globMatches_case (w w' s s' : List Nat) (hw : w'.map tolower = w.map tolower)
    (hs : s'.map tolower = s.map tolower) : GlobMatches w' s' ↔ GlobMatches w s :=
  ⟨globMatches_case_mono w' w (forall₂_tolower_of_map hw) s' s (forall₂_tolower_of_map hs),
   globMatches_case_mono w w' (forall₂_tolower_of_map hw.symm) s s'
     (forall₂_tolower_of_map hs.symm)⟩

/-! ## Claims on `wildcasecmp` -/

/-- C1: for a pattern and a candidate without NUL, `wildcasecmp` returns, and
its value is non-zero if and only if the candidate matches the pattern under
the reference glob semantics (`*` any run, `?` one character, other characters
equal after ASCII lower-casing, the whole candidate consumed). -/
theorem wildcasecmp_iff_globMatches (pattern candidate : List Nat) (hp : 0 ∉ pattern)
    (hc : 0 ∉ candidate) :
    ∃ r, wildcasecmp pattern candidate = .done r ∧ (r ≠ 0 ↔ GlobMatches pattern candidate) := by
  obtain ⟨r, hr, -, hiff⟩ := wildcasecmp_spec pattern candidate hp hc
  exact ⟨r, hr, hiff⟩

theorem wildcasecmp_iff_globMatches_witness :
    0 ∉ cstr "A?C" ∧ 0 ∉ cstr "abc" ∧
    ∃ r, wildcasecmp (cstr "A?C") (cstr "abc") = .done r ∧
      (r ≠ 0 ↔ GlobMatches (cstr "A?C") (cstr "abc")) :=
  ⟨by decide, by decide,
    wildcasecmp_iff_globMatches (cstr "A?C") (cstr "abc") (by decide) (by decide)⟩

/-- The examples given with the wildcard matcher, run on the code. -/
theorem wildcasecmp_examples :
    wildcasecmp (cstr "*") (cstr "") = .done 1 ∧
    wildcasecmp (cstr "*") (cstr "any string") = .done 1 ∧
    wildcasecmp (cstr "A?C") (cstr "ABC") = .done 1 ∧
    wildcasecmp (cstr "A?C") (cstr "abc") = .done 1 ∧
    wildcasecmp (cstr "A?C") (cstr "AC") = .done 0 ∧
    wildcasecmp (cstr "A?C") (cstr "ABBC") = .done 0 := by decide

/-- C10: `wildcasecmp` is ASCII case-insensitive in both arguments: when `w'`
and `s'` differ from `w` and `s` only in the case of ASCII letters (they agree
after lower-casing), both calls return and one is non-zero exactly when the
other is. -/
theorem wildcasecmp_case_insensitive (w s w' s' : List Nat) (hw : 0 ∉ w) (hs : 0 ∉ s)
    (hw' : w'.map tolower = w.map tolower) (hs' : s'.map tolower = s.map tolower) :
    ∃ r r', wildcasecmp w s = .done r ∧ wildcasecmp w' s' = .done r' ∧ (r' ≠ 0 ↔ r ≠ 0) := by
  obtain ⟨r, hr, -, hiff⟩ := wildcasecmp_spec w s hw hs
  obtain ⟨r', hr', -, hiff'⟩ := wildcasecmp_spec w' s'
    (not_mem_zero_of_map_tolower hw' hw) (not_mem_zero_of_map_tolower hs' hs)
  exact ⟨r, r', hr, hr', hiff'.trans ((globMatches_case w w' s s' hw' hs').trans hiff.symm)⟩

theorem wildcasecmp_case_insensitive_witness :
    0 ∉ cstr "rel*-x?z" ∧ 0 ∉ cstr "Release-XYZ" ∧
    (cstr "REL*-X?z").map tolower = (cstr "rel*-x?z").map tolower ∧
    (cstr "rELEASE-xyz").map tolower = (cstr "Release-XYZ").map tolower ∧
    ∃ r r', wildcasecmp (cstr "rel*-x?z") (cstr "Release-XYZ") = .done r ∧
      wildcasecmp (cstr "REL*-X?z") (cstr "rELEASE-xyz") = .done r' ∧ (r' ≠ 0 ↔ r ≠ 0) :=
  ⟨by decide, by decide, by decide, by decide,
    wildcasecmp_case_insensitive (cstr "rel*-x?z") (cstr "Release-XYZ") (cstr "REL*-X?z")
      (cstr "rELEASE-xyz") (by decide) (by decide) (by decide) (by decide)⟩

/-! ## The backward scan -/

theorem Run.bind_eq_done {α β : Type} {r : Run α} {f : α → Run β} {b : β}
    (h : r.bind f = .done b) : ∃ a, r = .done a ∧ f a = .done b := by
  cases r with
  | done v => exact ⟨v, rfl, h⟩
  | fault => exact Run.noConfusion h
  | timeout => exact Run.noConfusion h

theorem Run.bind_done {α β : Type} (a : α) (f : α → Run β) : (Run.done a).bind f = f a := rfl

theorem fseekCur_back_fail (data : List Nat) (pos R : Nat) (h : pos < R) :
    (fseekCur { data := data, pos := pos } (-(R : Int))).2 ≠ 0 := by
  unfold fseekCur
  rw [if_neg (by simp only; omega)]
  show (-1 : Int) ≠ 0
  decide

theorem fseekCur_back_ok (data : List Nat) (pos R : Nat) (h : R ≤ pos) :
    fseekCur { data := data, pos := pos } (-(R : Int)) = ({ data := data, pos := pos - R }, 0) := by
  unfold fseekCur
  rw [if_pos (by simp only; omega)]
  have e : ((pos : Int) + -(R : Int)).toNat = pos - R := by omega
  simp only [e]

theorem fread1_ok (data : List Nat) (pos R : Nat) (h : pos + R ≤ data.length) :
    fread1 { data := data, pos := pos } R =
      ({ data := data, pos := pos + R }, some ((data.drop pos).take R)) := by
  unfold fread1
  rw [if_pos h]

theorem scanLoop_succ (R fuel : Nat) (fp : FILE) :
    scanLoop R (fuel + 1) fp =
      if (fseekCur fp (-(R : Int))).2 ≠ 0 then .done []
      else
        match (fread1 (fseekCur fp (-(R : Int))).1 R).2 with
        | none => .done []
        | some buffer =>
          (scanLoop R fuel
            (fseekCur (fread1 (fseekCur fp (-(R : Int))).1 R).1 (-(R : Int))).1).bind
            fun rest => .done (buffer :: rest) := rfl

theorem scanLoop_eq_backChunks (R : Nat) (hR : 0 < R) (data : List Nat) :
    ∀ (fuel pos : Nat), pos ≤ data.length → pos / R < fuel →
      scanLoop R fuel { data := data, pos := pos } = .done (backChunks R data pos (pos / R)) := by
  intro fuel
  induction fuel with
  | zero => intro pos _ h; exact absurd h (Nat.not_lt_zero _)
  | succ fuel ih =>
    intro pos hpos hfuel
    rw [scanLoop_succ]
    by_cases h : pos < R
    · rw [if_pos (fseekCur_back_fail data pos R h), Nat.div_eq_of_lt h]
      rfl
    · have hle : R ≤ pos := Nat.le_of_not_lt h
      have hdiv : pos / R = (pos - R) / R + 1 := by
        rw [Nat.div_eq_sub_div hR hle]
      rw [fseekCur_back_ok data pos R hle]
      simp only [ne_eq, not_true_eq_false, if_false]
      rw [fread1_ok data (pos - R) R (by omega)]
      simp only
      have e : pos - R + R = pos := by omega
      rw [e, fseekCur_back_ok data pos R hle, ih (pos - R) (by omega) (by omega), hdiv]
      rfl

theorem scanFile_eq_backChunks (R : Nat) (hR : 0 < R) (data : List Nat) :
    scanFile R data = .done (backChunks R data data.length (data.length / R)) := by
  unfold scanFile fseekEnd
  exact scanLoop_eq_backChunks R hR data _ _ (le_refl _)
    (Nat.lt_succ_of_le (Nat.div_le_self _ _))

theorem backChunks_length (R : Nat) (data : List Nat) :
    ∀ (n pos : Nat), (backChunks R data pos n).length = n := by
  intro n
  induction n with
  | zero => intro pos; rfl
  | succ n ih => intro pos; simp [backChunks, ih]

theorem backChunks_getElem? (R : Nat) (data : List Nat) :
    ∀ (n pos j : Nat), j < n →
      (backChunks R data pos n)[j]? = some ((data.drop (pos - (j + 1) * R)).take R) := by
  intro n
  induction n with
  | zero => intro pos j h; omega
  | succ n ih =>
    intro pos j h
    cases j with
    | zero => simp [backChunks]
    | succ j =>
      simp only [backChunks, List.getElem?_cons_succ]
      rw [ih (pos - R) j (by omega)]
      have e : pos - R - (j + 1) * R = pos - (j + 1 + 1) * R := by
        rw [Nat.sub_sub, Nat.add_mul (j + 1) 1 R, Nat.one_mul, Nat.add_comm]
      rw [e]

theorem backChunks_flatten (R : Nat) :
    ∀ (recs : List (List Nat)) (tail : List Nat), (∀ r ∈ recs, r.length = R) →
      backChunks R (recs.flatten ++ tail) recs.flatten.length recs.length = recs.reverse := by
  intro recs
  induction recs using List.reverseRecOn with
  | nil => intro tail _; rfl
  | append_singleton init last ih =>
    intro tail hlen
    have hlast : last.length = R := hlen last (by simp)
    have hinit : ∀ r ∈ init, r.length = R := fun r hr => hlen r (by simp [hr])
    simp only [List.flatten_append, List.flatten_cons, List.flatten_nil, List.append_nil,
      List.length_append, List.length_cons, List.length_nil, List.reverse_append,
      List.reverse_cons, List.reverse_nil, List.nil_append, List.cons_append, backChunks, hlast,
      Nat.add_sub_cancel, zero_add]
    have e1 : List.take R (List.drop init.flatten.length (init.flatten ++ last ++ tail)) = last := by
      rw [List.append_assoc, List.drop_left, ← hlast, List.take_left]
    rw [e1, List.append_assoc, ih (last ++ tail) hinit]

theorem flatten_length_of_const (R : Nat) (recs : List (List Nat))
    (h : ∀ r ∈ recs, r.length = R) : recs.flatten.length = recs.length * R := by
  induction recs with
  | nil => simp
  | cons r rs ih =>
    simp only [List.flatten_cons, List.length_append, List.length_cons]
    rw [ih (fun x hx => h x (List.mem_cons_of_mem _ hx)), h r (List.mem_cons_self _ _)]
    ring

theorem scanFile_records (R : Nat) (hR : 0 < R) (recs : List (List Nat))
    (h : ∀ r ∈ recs, r.length = R) : scanFile R recs.flatten = .done recs.reverse := by
  rw [scanFile_eq_backChunks R hR]
  have hl := flatten_length_of_const R recs h
  have hd : recs.flatten.length / R = recs.length := by
    rw [hl, Nat.mul_div_cancel _ hR]
  rw [hd]
  have := backChunks_flatten R recs [] h
  rw [List.append_nil] at this
  rw [this]

/-- C8: for a record size `R > 0`, the backward scan of a file that is the
concatenation of `k` records of `R` bytes returns exactly these `k` records in
reverse write order (the `j`-th buffer is the `(k-j+1)`-th record written) and
stops; on a file shorter than one record it yields nothing. -/
theorem scan_whole_records (R : Nat) (recs : List (List Nat)) (short : List Nat) (hR : 0 < R)
    (hrecs : ∀ r ∈ recs, r.length = R) (hshort : short.length < R) :
    scanFile R recs.flatten = .done recs.reverse ∧
    (∀ j, j < recs.length → recs.reverse[j]? = recs[recs.length - (j + 1)]?) ∧
    scanFile R short = .done [] := by
  refine ⟨scanFile_records R hR recs hrecs, fun j hj => ?_, ?_⟩
  · rw [List.getElem?_reverse hj]
    congr 1
    omega
  · rw [scanFile_eq_backChunks R hR, Nat.div_eq_of_lt hshort]
    rfl

theorem scan_whole_records_witness :
    0 < 2 ∧ (∀ r ∈ [[1, 2], [3, 4], [5, 6]], r.length = 2) ∧ [9].length < 2 ∧
    (scanFile 2 [[1, 2], [3, 4], [5, 6]].flatten = .done [[1, 2], [3, 4], [5, 6]].reverse ∧
    (∀ j, j < [[1, 2], [3, 4], [5, 6]].length →
      [[1, 2], [3, 4], [5, 6]].reverse[j]? =
        [[1, 2], [3, 4], [5, 6]][[[1, 2], [3, 4], [5, 6]].length - (j + 1)]?) ∧
    scanFile 2 [9] = .done []) :=
  ⟨by decide, by decide, by decide,
    scan_whole_records 2 [[1, 2], [3, 4], [5, 6]] [9] (by decide) (by decide) (by decide)⟩

/-- C9 as stated fails: on the three bytes `1 2 3` with records of two bytes
the scan returns the byte range `[1, 3)`, which holds the trailing partial
byte, and not the whole record `[0, 2)` counted from the start. -/
theorem scan_partial_counterexample :
    0 < 2 ∧ [1, 2, 3].length % 2 ≠ 0 ∧
    scanFile 2 [1, 2, 3] = .done [[2, 3]] ∧
    (wholeRecords 2 [1, 2, 3]).reverse = [[1, 2]] ∧
    scanFile 2 [1, 2, 3] ≠ .done (wholeRecords 2 [1, 2, 3]).reverse := by decide

/-- C9, amended: for a record size `R > 0` and a file whose length `L` is not
a multiple of `R`, the backward scan yields exactly `L / R` buffers and stops;
the `j`-th buffer (from 0) is the byte range `[L - (j+1) R, L - j R)`, counted
back from the end of the file, so it is the `L mod R` leading bytes that are
never returned. -/
theorem scan_partial_from_end (R : Nat) (data : List Nat) (hR : 0 < R)
    (_hL : data.length % R ≠ 0) :
    ∃ bufs, scanFile R data = .done bufs ∧ bufs.length = data.length / R ∧
      ∀ j, j < data.length / R →
        bufs[j]? = some ((data.drop (data.length - (j + 1) * R)).take R) ∧
        data.length % R ≤ data.length - (j + 1) * R :=
  ⟨_, scanFile_eq_backChunks R hR data, backChunks_length R data _ _,
    fun j hj => ⟨backChunks_getElem? R data _ _ j hj, by
      have h1 : (j + 1) * R ≤ data.length / R * R := Nat.mul_le_mul_right R hj
      have h2 := Nat.div_add_mod' data.length R
      omega⟩⟩

theorem scan_partial_from_end_witness :
    0 < 2 ∧ [1, 2, 3].length % 2 ≠ 0 ∧
    ∃ bufs, scanFile 2 [1, 2, 3] = .done bufs ∧ bufs.length = [1, 2, 3].length / 2 ∧
      ∀ j, j < [1, 2, 3].length / 2 →
        bufs[j]? = some (([1, 2, 3].drop ([1, 2, 3].length - (j + 1) * 2)).take 2) ∧
        [1, 2, 3].length % 2 ≤ [1, 2, 3].length - (j + 1) * 2 :=
  ⟨by decide, by decide, scan_partial_from_end 2 [1, 2, 3] (by decide) (by decide)⟩

/-! ## matchpath -/

theorem charAt_nat (s : List Nat) (k : Nat) (h : k ≤ s.length) :
    charAt s (k : Int) = .done (s.getD k 0) := by
  unfold charAt
  rw [if_pos ⟨Int.ofNat_nonneg k, by exact_mod_cast h⟩]
  rfl

theorem getD_append_cons (X : List Nat) (b : Nat) (Y : List Nat) :
    (X ++ b :: Y).getD X.length 0 = b := by
  induction X with
  | nil => rfl
  | cons x X ih => simpa using ih

theorem getD_eq_zero_iff {P : List Nat} (h0 : 0 ∉ P) {n : Nat} (hn : n ≤ P.length) :
    P.getD n 0 = 0 ↔ P.length = n := by
  rw [List.getD_eq_getElem?_getD]
  constructor
  · intro h
    by_contra hne
    have hlt : n < P.length := by omega
    rw [List.getElem?_eq_getElem hlt] at h
    simp only [Option.getD_some] at h
    exact h0 (h ▸ List.getElem_mem hlt)
  · intro h
    rw [List.getElem?_eq_none (by omega)]
    rfl

theorem getD_eq_slash_iff (P : List Nat) (n : Nat) :
    P.getD n 0 = 47 ↔ P[n]? = some 47 := by
  rw [List.getD_eq_getElem?_getD]
  cases P[n]? with
  | none => simp
  | some x => simp

theorem strncmpEq_iff : ∀ (T Y P : List Nat), 0 ∉ T →
    (strncmpEq T.length (T ++ Y) P = true ↔ T <+: P) := by
  intro T
  induction T with
  | nil => intro Y P _; simp [strncmpEq]
  | cons t T ih =>
    intro Y P h0
    simp only [List.mem_cons, not_or] at h0
    have ht : t ≠ 0 := fun e => h0.1 e.symm
    simp only [List.length_cons, List.cons_append, strncmpEq, deref_cons, List.tail_cons, ht,
      if_false]
    cases P with
    | nil =>
      simp only [deref_nil, ne_eq, ht, not_false_eq_true, if_true]
      simp
    | cons p P =>
      simp only [deref_cons, List.tail_cons]
      by_cases htp : t = p
      · subst htp
        simp only [ne_eq, not_true_eq_false, if_false]
        rw [ih Y P h0.2, List.cons_prefix_cons]
        simp
      · simp only [ne_eq, htp, not_false_eq_true, if_true]
        rw [List.cons_prefix_cons]
        simp [htp]

theorem getLast?_eq_getD (P : List Nat) (h : 1 ≤ P.length) :
    P.getLast? = some (P.getD (P.length - 1) 0) := by
  rcases List.eq_nil_or_concat P with rfl | ⟨X, a, rfl⟩
  · simp at h
  · have e : (X ++ [a]).length - 1 = X.length := by simp
    rw [List.concat_eq_append, e, getD_append_cons]
    simp

theorem matchpathC_spec (A init rest P : List Nat) (b : Nat) (hP : 2 ≤ P.length) :
    matchpathC (A ++ (init ++ [b]) ++ rest) P (A.length + (init.length + 1))
        ((init.length + 1 : Nat) : Int) =
      .done (if P.length = init.length ∧ P.getLast? ≠ some 47 ∧ b = 47 then 1 else 0) := by
  unfold matchpathC
  by_cases hlen : P.length = init.length
  · have e1 : (P.length : Int) = ((init.length + 1 : Nat) : Int) - 1 := by
      push_cast
      omega
    have e2 : ((init.length + 1 : Nat) : Int) - 2 = ((P.length - 1 : Nat) : Int) := by
      push_cast
      omega
    have e3 : ((A.length + (init.length + 1) : Nat) : Int) - 1 = (((A ++ init).length : Nat) : Int) := by
      rw [List.length_append]
      push_cast
      omega
    have e4 : A ++ (init ++ [b]) ++ rest = (A ++ init) ++ b :: rest := by simp
    rw [if_pos e1, e2, charAt_nat P _ (by omega), Run.bind_done, e3, e4,
      charAt_nat _ _ (by simp), Run.bind_done, getD_append_cons]
    rw [getLast?_eq_getD P (by omega)]
    by_cases ha : P.getD (P.length - 1) 0 = 47
    · rw [if_neg (not_not_intro ha), if_neg (fun h => h.2.1 (by rw [ha]))]
    · by_cases hb : b = 47
      · rw [if_pos ha, if_pos hb, if_pos ⟨hlen, fun h => ha (Option.some.inj h), hb⟩]
      · rw [if_pos ha, if_neg hb, if_neg (fun h => hb h.2.2)]
  · have e1 : ¬ (P.length : Int) = ((init.length + 1 : Nat) : Int) - 1 := by
      push_cast
      omega
    rw [if_neg e1]
    simp [hlen]

theorem matchpathDelim_spec (A init rest P : List Nat) (b : Nat) (h0 : 0 ∉ init ++ [b])
    (hP : 2 ≤ P.length) (h0P : 0 ∉ P) :
    ∃ v, matchpathDelim (A ++ (init ++ [b]) ++ rest) P (A.length + (init.length + 1))
        ((init.length + 1 : Nat) : Int) = .done v ∧
      (v = true ↔ RootCovers (init ++ [b]) P) := by
  have h0i : 0 ∉ init := fun h => h0 (List.mem_append_left _ h)
  have e3 : ((A.length + (init.length + 1) : Nat) : Int) - 1 = (((A ++ init).length : Nat) : Int) := by
    rw [List.length_append]
    push_cast
    omega
  have e4 : A ++ (init ++ [b]) ++ rest = (A ++ init) ++ b :: rest := by simp
  have hb : charAt (A ++ (init ++ [b]) ++ rest) (((A.length + (init.length + 1) : Nat) : Int) - 1)
      = .done b := by
    rw [e3, e4, charAt_nat _ _ (by simp), getD_append_cons]
  have e5 : ¬ ((A.length + (init.length + 1) : Nat) : Int) - ((init.length + 1 : Nat) : Int) < 0 := by
    push_cast
    omega
  have e6 : (((A.length + (init.length + 1) : Nat) : Int) - ((init.length + 1 : Nat) : Int)).toNat
      = A.length := by
    push_cast
    omega
  have hlast : (init ++ [b]).getLast? = some b := by simp
  have hlenT : (init ++ [b]).length = init.length + 1 := by simp
  unfold matchpathDelim
  rw [matchpathC_spec A init rest P b hP, Run.bind_done, if_neg e5, e6, hb, Run.bind_done]
  by_cases hc : P.length = init.length ∧ P.getLast? ≠ some 47 ∧ b = 47
  · -- the list token is the path followed by one more `/`
    obtain ⟨hlen, hPlast, hb47⟩ := hc
    rw [if_pos (show P.length = init.length ∧ P.getLast? ≠ some 47 ∧ b = 47 from
      ⟨hlen, hPlast, hb47⟩)]
    have e7 : (((init.length + 1 : Nat) : Int) - 1).toNat = init.length := by
      push_cast
      omega
    have e8 : List.drop A.length (A ++ (init ++ [b]) ++ rest) = init ++ (b :: rest) := by
      simp
    rw [e7, e8]
    by_cases hpre : init <+: P
    · have heq : init = P := List.IsPrefix.eq_of_length hpre hlen.symm
      rw [(strncmpEq_iff init (b :: rest) P h0i).mpr hpre]
      simp only [if_true, if_pos hb47]
      refine ⟨true, rfl, iff_of_true rfl (Or.inr ⟨?_, hPlast⟩)⟩
      rw [heq, hb47]
    · have hf : strncmpEq init.length (init ++ b :: rest) P = false := by
        rw [← Bool.not_eq_true, strncmpEq_iff init (b :: rest) P h0i]
        exact hpre
      rw [hf]
      refine ⟨false, rfl, iff_of_false (by simp) ?_⟩
      rintro (⟨hp, -⟩ | ⟨he, -⟩)
      · have := hp.length_le
        rw [hlenT] at this
        omega
      · rw [hb47] at he
        exact hpre (by rw [List.append_cancel_right he])
  · rw [if_neg hc]
    have e7 : (((init.length + 1 : Nat) : Int) - 0).toNat = (init ++ [b]).length := by
      rw [hlenT]
      push_cast
      omega
    have e8 : List.drop A.length (A ++ (init ++ [b]) ++ rest) = (init ++ [b]) ++ rest := by
      simp
    have hsecond : ¬ (init ++ [b] = P ++ [47] ∧ P.getLast? ≠ some 47) := by
      rintro ⟨he, hPlast⟩
      apply hc
      have hlen := congrArg List.length he
      simp only [List.length_append, List.length_cons, List.length_nil] at hlen
      refine ⟨by omega, hPlast, ?_⟩
      have := congrArg List.getLast? he
      simpa using this
    rw [e7, e8]
    by_cases hpre : init ++ [b] <+: P
    · rw [(strncmpEq_iff (init ++ [b]) rest P h0).mpr hpre]
      simp only [if_true]
      have hle : init.length + 1 ≤ P.length := by
        have := hpre.length_le
        rw [hlenT] at this
        exact this
      by_cases hb47 : b = 47
      · rw [if_pos hb47]
        exact ⟨true, rfl, iff_of_true rfl (Or.inl ⟨hpre, Or.inl (by rw [hlast, hb47])⟩)⟩
      · rw [if_neg hb47, if_pos (by exact_mod_cast hle), charAt_nat P _ hle, Run.bind_done]
        refine ⟨_, rfl, ?_⟩
        rw [decide_eq_true_iff, getD_eq_slash_iff, getD_eq_zero_iff h0P hle]
        constructor
        · rintro (h | h)
          · exact Or.inl ⟨hpre, Or.inr (Or.inr (by rw [hlenT]; exact h))⟩
          · exact Or.inl ⟨hpre, Or.inr (Or.inl (by rw [hlenT]; exact h))⟩
        · rintro (⟨-, h | h | h⟩ | h)
          · rw [hlast] at h
            exact absurd (Option.some.inj h) hb47
          · rw [hlenT] at h
            exact Or.inr h
          · rw [hlenT] at h
            exact Or.inl h
          · exact absurd h hsecond
    · have hf : strncmpEq (init ++ [b]).length (init ++ [b] ++ rest) P = false := by
        rw [← Bool.not_eq_true, strncmpEq_iff (init ++ [b]) rest P h0]
        exact hpre
      rw [hf]
      refine ⟨false, rfl, iff_of_false (by simp) ?_⟩
      rintro (⟨hp, -⟩ | h)
      · exact hpre hp
      · exact hsecond h

theorem splitBy_ne_nil (sep : Nat) (l : List Nat) : splitBy sep l ≠ [] := by
  cases l with
  | nil => simp [splitBy]
  | cons c cs =>
    unfold splitBy
    split_ifs
    · simp
    · split <;> simp

theorem splitBy_append_sep (sep : Nat) (cur rest : List Nat) (h : sep ∉ cur) :
    splitBy sep (cur ++ sep :: rest) = cur :: splitBy sep rest := by
  induction cur with
  | nil => simp [splitBy]
  | cons c cs ih =>
    simp only [List.mem_cons, not_or] at h
    have hc : c ≠ sep := fun e => h.1 e.symm
    rw [List.cons_append, splitBy, if_neg hc, ih h.2]

theorem splitBy_no_sep (sep : Nat) (cur : List Nat) (h : sep ∉ cur) :
    splitBy sep cur = [cur] := by
  induction cur with
  | nil => rfl
  | cons c cs ih =>
    simp only [List.mem_cons, not_or] at h
    have hc : c ≠ sep := fun e => h.1 e.symm
    rw [splitBy, if_neg hc, ih h.2]

theorem matchpathLoop_spec (P : List Nat) (hP : 2 ≤ P.length) (h0P : 0 ∉ P) :
    ∀ (rest A cur instr0 : List Nat) (i : Nat) (pos : Int),
      instr0 = A ++ cur ++ rest → i = A.length + cur.length → pos = (cur.length : Int) →
      32 ∉ cur → 0 ∉ cur → 0 ∉ rest → (∀ T ∈ splitBy 32 (cur ++ rest), T ≠ []) →
      ∃ r, matchpathLoop instr0 P rest i pos = .done r ∧ (r = 0 ∨ r = 1) ∧
        (r = 1 ↔ ∃ T ∈ splitBy 32 (cur ++ rest), RootCovers T P) := by
  intro rest
  induction rest with
  | nil =>
    intro A cur instr0 i pos hinstr hi hpos h32 h0 _ htok
    rw [List.append_nil, splitBy_no_sep 32 cur h32] at htok ⊢
    have hne : cur ≠ [] := htok cur (List.mem_singleton_self _)
    rcases List.eq_nil_or_concat cur with rfl | ⟨init, b, rfl⟩
    · exact absurd rfl hne
    · rw [List.concat_eq_append] at *
      have hlen : (init ++ [b]).length = init.length + 1 := by simp
      rw [hlen] at hi hpos
      subst hinstr hi hpos
      obtain ⟨v, hv, hiff⟩ := matchpathDelim_spec A init [] P b h0 hP h0P
      unfold matchpathLoop
      rw [hv, Run.bind_done]
      cases v with
      | true =>
        exact ⟨1, rfl, Or.inr rfl, iff_of_true rfl ⟨_, List.mem_singleton_self _, hiff.mp rfl⟩⟩
      | false =>
        refine ⟨0, rfl, Or.inl rfl, iff_of_false (by decide) ?_⟩
        rintro ⟨T, hT, hcov⟩
        rw [List.mem_singleton.mp hT] at hcov
        exact Bool.false_ne_true (hiff.mpr hcov)
  | cons ch rest ih =>
    intro A cur instr0 i pos hinstr hi hpos h32 h0 h0r htok
    simp only [List.mem_cons, not_or] at h0r
    have hch0 : ch ≠ 0 := fun e => h0r.1 e.symm
    unfold matchpathLoop
    by_cases hsp : ch = 32
    · subst hsp
      rw [if_pos (Or.inr rfl)]
      rw [splitBy_append_sep 32 cur rest h32] at htok ⊢
      have hne : cur ≠ [] := htok cur (List.mem_cons_self _ _)
      rcases List.eq_nil_or_concat cur with rfl | ⟨init, b, rfl⟩
      · exact absurd rfl hne
      · rw [List.concat_eq_append] at *
        have hlen : (init ++ [b]).length = init.length + 1 := by simp
        rw [hlen] at hi hpos
        obtain ⟨v, hv, hiff⟩ := matchpathDelim_spec A init (32 :: rest) P b h0 hP h0P
        rw [← hinstr, ← hi, ← hpos] at hv
        rw [hv, Run.bind_done]
        cases v with
        | true =>
          exact ⟨1, rfl, Or.inr rfl, iff_of_true rfl ⟨_, List.mem_cons_self _ _, hiff.mp rfl⟩⟩
        | false =>
          simp only [Bool.false_eq_true, if_false, if_neg hch0]
          obtain ⟨r, hr, hv01, hriff⟩ := ih (A ++ (init ++ [b]) ++ [32]) [] instr0 (i + 1) 0
            (by rw [hinstr]; simp) (by rw [hi]; simp; omega) (by simp)
            (List.not_mem_nil _) (List.not_mem_nil _) h0r.2
            (fun T hT => htok T (List.mem_cons_of_mem _ (by simpa using hT)))
          refine ⟨r, hr, hv01, hriff.trans ?_⟩
          simp only [List.nil_append, List.mem_cons, exists_eq_or_imp]
          constructor
          · exact Or.inr
          · rintro (hcov | h)
            · exact absurd (hiff.mpr hcov) Bool.false_ne_true
            · exact h
    · rw [if_neg (by simp only [hch0, hsp, or_self, not_false_eq_true])]
      obtain ⟨r, hr, hv01, hriff⟩ := ih A (cur ++ [ch]) instr0 (i + 1) (pos + 1)
        (by rw [hinstr]; simp) (by rw [hi]; simp; omega) (by rw [hpos]; simp)
        (by simp only [List.mem_append, List.mem_singleton, not_or]; exact ⟨h32, fun e => hsp e.symm⟩)
        (by simp only [List.mem_append, List.mem_singleton, not_or]; exact ⟨h0, fun e => hch0 e.symm⟩)
        h0r.2
        (fun T hT => htok T (by simpa using hT))
      refine ⟨r, hr, hv01, hriff.trans ?_⟩
      simp

/-- C2: for an excluded-roots list of at least 2 characters made of
non-empty tokens separated by single spaces, and a path of at least 2
characters, `matchpath` returns 1 exactly when some token of the list covers
the path: the token is a prefix of the path ending on a component boundary, or
it is the path followed by one `/` while the path does not end in `/`
(byte-wise, case-sensitive comparison). -/
theorem matchpath_iff_rootCovers (list P : List Nat) (hlist : 2 ≤ list.length)
    (hP : 2 ≤ P.length) (h0l : 0 ∉ list) (h0P : 0 ∉ P)
    (htok : ∀ T ∈ splitBy 32 list, T ≠ []) :
    ∃ r, matchpath list P = .done r ∧ (r = 0 ∨ r = 1) ∧
      (r = 1 ↔ ∃ T ∈ splitBy 32 list, RootCovers T P) := by
  unfold matchpath
  rw [if_neg (by omega)]
  exact matchpathLoop_spec P hP h0P list [] [] list 0 0 (by simp) (by simp) (by simp)
    (List.not_mem_nil _) (List.not_mem_nil _) h0l (by simpa using htok)

theorem matchpath_iff_rootCovers_witness :
    2 ≤ (cstr "/site/old /site/tmp").length ∧ 2 ≤ (cstr "/site/old/x").length ∧
    0 ∉ cstr "/site/old /site/tmp" ∧ 0 ∉ cstr "/site/old/x" ∧
    (∀ T ∈ splitBy 32 (cstr "/site/old /site/tmp"), T ≠ []) ∧
    ∃ r, matchpath (cstr "/site/old /site/tmp") (cstr "/site/old/x") = .done r ∧
      (r = 0 ∨ r = 1) ∧
      (r = 1 ↔ ∃ T ∈ splitBy 32 (cstr "/site/old /site/tmp"), RootCovers T (cstr "/site/old/x")) :=
  ⟨by decide, by decide, by decide, by decide, by decide,
    matchpath_iff_rootCovers (cstr "/site/old /site/tmp") (cstr "/site/old/x")
      (by decide) (by decide) (by decide) (by decide) (by decide)⟩

/-- The examples given with the excluded-root matcher, run on the code. -/
theorem matchpath_examples :
    matchpath (cstr "site/old") (cstr "site/old") = .done 1 ∧
    matchpath (cstr "site/old") (cstr "site/old/x") = .done 1 ∧
    matchpath (cstr "site/old") (cstr "site/old/sub") = .done 1 ∧
    matchpath (cstr "site/old") (cstr "site/oldstuff") = .done 0 := by decide

theorem charAt_in (s : List Nat) (k : Int) (h : 0 ≤ k ∧ k ≤ s.length) :
    ∃ x, charAt s k = .done x := by
  unfold charAt
  rw [if_pos h]
  exact ⟨_, rfl⟩

theorem matchpathC_total (instr0 P : List Nat) (i : Nat) (pos : Int) (h1 : 1 ≤ i)
    (h2 : i ≤ instr0.length) (hP : 2 ≤ P.length) :
    ∃ c, matchpathC instr0 P i pos = .done c := by
  unfold matchpathC
  by_cases e : (P.length : Int) = pos - 1
  · rw [if_pos e]
    obtain ⟨a, ha⟩ := charAt_in P (pos - 2) ⟨by omega, by omega⟩
    rw [ha, Run.bind_done]
    by_cases h47 : a ≠ 47
    · rw [if_pos h47]
      obtain ⟨b, hb⟩ := charAt_in instr0 ((i : Int) - 1) ⟨by omega, by omega⟩
      rw [hb, Run.bind_done]
      exact ⟨_, rfl⟩
    · rw [if_neg h47]
      exact ⟨_, rfl⟩
  · rw [if_neg e]
    exact ⟨_, rfl⟩

theorem matchpathDelim_total (instr0 P : List Nat) (i : Nat) (pos : Int) (h1 : 1 ≤ i)
    (h2 : i ≤ instr0.length) (h3 : 0 ≤ pos) (h4 : pos ≤ i) (hP : 2 ≤ P.length) :
    ∃ v, matchpathDelim instr0 P i pos = .done v := by
  unfold matchpathDelim
  obtain ⟨c, hc⟩ := matchpathC_total instr0 P i pos h1 h2 hP
  rw [hc, Run.bind_done, if_neg (by omega)]
  by_cases hcmp : strncmpEq (pos - c).toNat (instr0.drop ((i : Int) - pos).toNat) P = true
  · rw [if_pos hcmp]
    obtain ⟨b, hb⟩ := charAt_in instr0 ((i : Int) - 1) ⟨by omega, by omega⟩
    rw [hb, Run.bind_done]
    by_cases h47 : b = 47
    · rw [if_pos h47]
      exact ⟨_, rfl⟩
    · rw [if_neg h47]
      by_cases hge : (P.length : Int) ≥ pos
      · rw [if_pos hge]
        obtain ⟨d, hd⟩ := charAt_in P pos ⟨h3, hge⟩
        rw [hd, Run.bind_done]
        exact ⟨_, rfl⟩
      · rw [if_neg hge]
        exact ⟨_, rfl⟩
  · rw [if_neg hcmp]
    exact ⟨_, rfl⟩

theorem matchpathLoop_total (instr0 P : List Nat) (hP : 2 ≤ P.length) :
    ∀ (rest : List Nat) (i : Nat) (pos : Int), i + rest.length = instr0.length →
      0 ≤ pos → pos ≤ i → (i = 0 → ∃ ch t, rest = ch :: t ∧ ch ≠ 0 ∧ ch ≠ 32) →
      ∃ r, matchpathLoop instr0 P rest i pos = .done r ∧ (r = 0 ∨ r = 1) := by
  intro rest
  induction rest with
  | nil =>
    intro i pos hi h3 h4 hfirst
    have h1 : 1 ≤ i := by
      by_contra hlt
      obtain ⟨ch, t, he, -⟩ := hfirst (by omega)
      exact List.noConfusion he
    simp only [List.length_nil, Nat.add_zero] at hi
    obtain ⟨v, hv⟩ := matchpathDelim_total instr0 P i pos h1 (by omega) h3 h4 hP
    unfold matchpathLoop
    rw [hv, Run.bind_done]
    cases v
    · exact ⟨0, rfl, Or.inl rfl⟩
    · exact ⟨1, rfl, Or.inr rfl⟩
  | cons ch rest ih =>
    intro i pos hi h3 h4 hfirst
    simp only [List.length_cons] at hi
    unfold matchpathLoop
    by_cases hd : ch = 0 ∨ ch = 32
    · rw [if_pos hd]
      have h1 : 1 ≤ i := by
        by_contra hlt
        obtain ⟨ch', t, he, hn0, hn32⟩ := hfirst (by omega)
        obtain ⟨rfl, -⟩ := List.cons.inj he
        rcases hd with hd | hd
        · exact hn0 hd
        · exact hn32 hd
      obtain ⟨v, hv⟩ := matchpathDelim_total instr0 P i pos h1 (by omega) h3 h4 hP
      rw [hv, Run.bind_done]
      cases v with
      | true => exact ⟨1, rfl, Or.inr rfl⟩
      | false =>
        simp only [Bool.false_eq_true, if_false]
        by_cases hz : ch = 0
        · rw [if_pos hz]
          exact ⟨0, rfl, Or.inl rfl⟩
        · rw [if_neg hz]
          exact ih (i + 1) 0 (by omega) (le_refl _) (by omega) (fun h => by omega)
    · rw [if_neg hd]
      exact ih (i + 1) (pos + 1) (by omega) (by omega) (by push_cast; omega) (fun h => by omega)

/-- A list that does not begin with a space is scanned without any read
outside of the two strings. -/
theorem matchpath_total (instr P : List Nat) (hhead : instr.head? ≠ some 32) (h0 : 0 ∉ instr) :
    ∃ r, matchpath instr P = .done r ∧ (r = 0 ∨ r = 1) := by
  unfold matchpath
  by_cases hshort : instr.length < 2 ∨ P.length < 2
  · rw [if_pos hshort]
    exact ⟨0, rfl, Or.inl rfl⟩
  · rw [if_neg hshort]
    refine matchpathLoop_total instr P (by omega) instr 0 0 (by simp) (le_refl _) (le_refl _)
      (fun _ => ?_)
    cases instr with
    | nil => simp at hshort
    | cons ch t =>
      simp only [List.mem_cons, not_or] at h0
      refine ⟨ch, t, rfl, fun e => h0.1 e.symm, fun e => hhead ?_⟩
      rw [e]
      rfl

/-! ## subcomp -/

theorem splitBy_eq_takeWhile (sep : Nat) (l : List Nat) :
    splitBy sep l = l.takeWhile (fun c => c ≠ sep) ::
      (match l.dropWhile (fun c => c ≠ sep) with
        | [] => []
        | _ :: r => splitBy sep r) := by
  induction l with
  | nil => rfl
  | cons c cs ih =>
    by_cases hc : c = sep
    · rw [splitBy, if_pos hc]
      simp [hc]
    · rw [splitBy, if_neg hc, ih]
      simp [hc]

theorem afterLast_splitBy (d : List Nat) :
    match afterLast 47 d with
    | none => splitBy 47 d = [d]
    | some r => ∃ init, init ≠ [] ∧ splitBy 47 d = init ++ [r] := by
  induction d with
  | nil => simp [afterLast, splitBy]
  | cons x xs ih =>
    unfold afterLast
    cases hrec : afterLast 47 xs with
    | some r =>
      rw [hrec] at ih
      obtain ⟨init, hne, hsplit⟩ := ih
      simp only
      by_cases hx : x = 47
      · rw [splitBy, if_pos hx, hsplit]
        exact ⟨[] :: init, by simp, by simp⟩
      · rw [splitBy, if_neg hx, hsplit]
        cases init with
        | nil => exact absurd rfl hne
        | cons t ts => exact ⟨(x :: t) :: ts, by simp, by simp⟩
    | none =>
      rw [hrec] at ih
      simp only at ih ⊢
      by_cases hx : x = 47
      · rw [if_pos hx, splitBy, if_pos hx, ih]
        exact ⟨[[]], by simp, by simp⟩
      · rw [if_neg hx, splitBy, if_neg hx, ih]

theorem bstring_eq_baseName (d : List Nat) :
    (match afterLast 47 d with
      | some b => b
      | none => d) = baseName d := by
  have h := afterLast_splitBy d
  unfold baseName
  cases hrec : afterLast 47 d with
  | some r =>
    rw [hrec] at h
    obtain ⟨init, -, hsplit⟩ := h
    simp [hsplit]
  | none =>
    rw [hrec] at h
    simp only at h
    simp [h]

theorem strncasecmpEq_iff : ∀ (pre b : List Nat), 0 ∉ pre → pre.length ≤ b.length →
    (strncasecmpEq pre.length b pre = true ↔
      (b.take pre.length).map tolower = pre.map tolower) := by
  intro pre
  induction pre with
  | nil => intro b _ _; simp [strncasecmpEq]
  | cons p ps ih =>
    intro b h0 hlen
    simp only [List.mem_cons, not_or] at h0
    have hp : p ≠ 0 := fun e => h0.1 e.symm
    cases b with
    | nil => simp at hlen
    | cons x xs =>
      simp only [List.length_cons, Nat.add_le_add_iff_right] at hlen
      simp only [List.length_cons, strncasecmpEq, deref_cons, List.tail_cons, List.take_succ_cons,
        List.map_cons, List.cons.injEq]
      by_cases hx : tolower x = tolower p
      · have hx0 : x ≠ 0 := by
          intro e
          rw [e] at hx
          exact hp ((tolower_eq_zero p).mp hx.symm)
        simp only [hx, ne_eq, not_true_eq_false, if_false, hx0, true_and]
        exact ih xs h0.2 hlen
      · simp [hx]

theorem subcompLoop_succ (b : List Nat) (fuel : Nat) (startpos : List Nat) :
    subcompLoop b (fuel + 1) startpos =
      if (startpos.takeWhile (fun c => c ≠ 44)).length = 0 then .done 0
      else if ((startpos.takeWhile (fun c => c ≠ 44)).takeWhile (fun c => c ≠ 63)).length = 0
        then .done 0
      else if ((startpos.takeWhile (fun c => c ≠ 44)).takeWhile (fun c => c ≠ 63)).length
            ≤ b.length ∧
          b.length ≤ (startpos.takeWhile (fun c => c ≠ 44)).length ∧
          strncasecmpEq ((startpos.takeWhile (fun c => c ≠ 44)).takeWhile (fun c => c ≠ 63)).length
            b ((startpos.takeWhile (fun c => c ≠ 44)).takeWhile (fun c => c ≠ 63)) = true
        then .done 1
      else if (startpos.dropWhile (fun c => c ≠ 44)).length ≤ 1 then .done 0
      else subcompLoop b fuel (startpos.dropWhile (fun c => c ≠ 44)).tail := rfl

theorem takeWhile_eq_nil_iff_head (T : List Nat) (hT : T ≠ []) :
    (T.takeWhile (fun c => c ≠ 63)).length = 0 ↔ T.head? = some 63 := by
  cases T with
  | nil => exact absurd rfl hT
  | cons t ts =>
    by_cases h : t = 63
    · simp [h]
    · simp [h]

theorem not_mem_takeWhile {l : List Nat} {p : Nat → Bool} {a : Nat} (h : a ∉ l) :
    a ∉ l.takeWhile p :=
  fun hm => h ((List.takeWhile_sublist p).subset hm)

theorem not_mem_dropWhile_tail {l : List Nat} {p : Nat → Bool} {a : Nat} (h : a ∉ l) :
    a ∉ (l.dropWhile p).tail :=
  fun hm => h ((List.dropWhile_sublist p).subset (List.mem_of_mem_tail hm))

theorem subcompLoop_spec (b : List Nat) :
    ∀ (fuel : Nat) (startpos : List Nat), startpos.length < fuel → 0 ∉ startpos →
      ∃ r, subcompLoop b fuel startpos = .done r ∧ (r = 0 ∨ r = 1) ∧
        (r = 1 ↔ ReachesFit b (splitBy 44 startpos)) := by
  intro fuel
  induction fuel with
  | zero => intro _ h; omega
  | succ fuel ih =>
    intro startpos hfuel h0
    rw [subcompLoop_succ, splitBy_eq_takeWhile]
    generalize htok : startpos.takeWhile (fun c => c ≠ 44) = token
    have h0tok : 0 ∉ token := by
      rw [← htok]
      exact not_mem_takeWhile h0
    by_cases hempty : token.length = 0
    · rw [if_pos hempty]
      refine ⟨0, rfl, Or.inl rfl, iff_of_false (by decide) ?_⟩
      rintro ⟨hne, -⟩
      exact hne (List.length_eq_zero.mp hempty)
    · rw [if_neg hempty]
      have hne : token ≠ [] := fun e => hempty (by rw [e]; rfl)
      by_cases hq : (token.takeWhile (fun c => c ≠ 63)).length = 0
      · rw [if_pos hq]
        refine ⟨0, rfl, Or.inl rfl, iff_of_false (by decide) ?_⟩
        rintro ⟨-, hhead, -⟩
        exact hhead ((takeWhile_eq_nil_iff_head token hne).mp hq)
      · rw [if_neg hq]
        have hhead : token.head? ≠ some 63 :=
          fun e => hq ((takeWhile_eq_nil_iff_head token hne).mpr e)
        by_cases hfit : (token.takeWhile (fun c => c ≠ 63)).length ≤ b.length ∧
            b.length ≤ token.length ∧
            strncasecmpEq (token.takeWhile (fun c => c ≠ 63)).length b
              (token.takeWhile (fun c => c ≠ 63)) = true
        · rw [if_pos hfit]
          refine ⟨1, rfl, Or.inr rfl, iff_of_true rfl ⟨hne, hhead, Or.inl ?_⟩⟩
          exact ⟨hfit.1, hfit.2.1,
            (strncasecmpEq_iff _ b (not_mem_takeWhile h0tok) hfit.1).mp hfit.2.2⟩
        · rw [if_neg hfit]
          have hnofit : ¬ SubdirFits token b := by
            rintro ⟨h1, h2, h3⟩
            exact hfit ⟨h1, h2, (strncasecmpEq_iff _ b (not_mem_takeWhile h0tok) h1).mpr h3⟩
          have hdl : (startpos.dropWhile (fun c => c ≠ 44)).length ≤ startpos.length :=
            (List.dropWhile_sublist _).length_le
          cases hend : startpos.dropWhile (fun c => c ≠ 44) with
          | nil =>
            simp only [List.length_nil, Nat.zero_le, if_true]
            refine ⟨0, rfl, Or.inl rfl, iff_of_false (by decide) ?_⟩
            rintro ⟨-, -, h | h⟩
            · exact hnofit h
            · exact h
          | cons e r =>
            rw [hend] at hdl
            simp only [List.length_cons] at hdl
            simp only [List.tail_cons, List.length_cons]
            by_cases hr : r = []
            · subst hr
              simp only [List.length_nil, Nat.zero_add, le_refl, if_true]
              refine ⟨0, rfl, Or.inl rfl, iff_of_false (by decide) ?_⟩
              rintro ⟨-, -, h | h⟩
              · exact hnofit h
              · exact h.1 rfl
            · have hrlen : ¬ r.length + 1 ≤ 1 := by
                have := List.length_pos.mpr hr
                omega
              rw [if_neg hrlen]
              have h0r : 0 ∉ r := by
                have := @not_mem_dropWhile_tail startpos (fun c => decide (c ≠ 44)) 0 h0
                rw [hend] at this
                exact this
              obtain ⟨v, hv, hv01, hiff⟩ := ih r (by omega) h0r
              refine ⟨v, hv, hv01, hiff.trans ?_⟩
              constructor
              · intro h
                exact ⟨hne, hhead, Or.inr h⟩
              · rintro ⟨-, -, h | h⟩
                · exact absurd h hnofit
                · exact h

theorem reachesFit_iff (b : List Nat) : ∀ (toks : List (List Nat)),
    (∀ T ∈ toks, T ≠ [] ∧ T.head? ≠ some 63) →
    (ReachesFit b toks ↔ ∃ T ∈ toks, SubdirFits T b) := by
  intro toks
  induction toks with
  | nil => intro _; simp [ReachesFit]
  | cons T Ts ih =>
    intro h
    have hT := h T (List.mem_cons_self _ _)
    have hrec := ih (fun U hU => h U (List.mem_cons_of_mem _ hU))
    simp only [ReachesFit, List.mem_cons, exists_eq_or_imp]
    rw [hrec]
    tauto

theorem subcomp_spec (subdir_list directory : List Nat) (h0 : 0 ∉ subdir_list) :
    ∃ r, subcomp subdir_list directory = .done r ∧ (r = 0 ∨ r = 1) ∧
      (r = 1 ↔ 2 ≤ directory.length ∧
        ReachesFit (baseName directory) (splitBy 44 subdir_list)) := by
  unfold subcomp
  by_cases hk : directory.length < 2
  · rw [if_pos hk]
    exact ⟨0, rfl, Or.inl rfl, iff_of_false (by decide) (fun h => by omega)⟩
  · rw [if_neg hk]
    simp only
    rw [bstring_eq_baseName]
    obtain ⟨r, hr, hv, hiff⟩ := subcompLoop_spec (baseName directory)
      (subdir_list.length + 1) subdir_list (Nat.lt_succ_self _) h0
    exact ⟨r, hr, hv, hiff.trans ⟨fun h => ⟨by omega, h⟩, fun h => h.2⟩⟩

/-- C3: for a directory path of length at least 2 and a comma-separated
subdirectory list whose tokens are all non-empty and do not begin with `?`,
`subcomp` returns 1 exactly when the base name of the directory fits some token
of the list: its length lies between the length of the prefix of the token
(the part before its first `?`) and the length of the whole token, and it
begins with the prefix, compared case-insensitively. -/
theorem subcomp_iff_fits (subdir_list directory : List Nat) (hk : 2 ≤ directory.length)
    (h0 : 0 ∉ subdir_list)
    (htok : ∀ T ∈ splitBy 44 subdir_list, T ≠ [] ∧ T.head? ≠ some 63) :
    ∃ r, subcomp subdir_list directory = .done r ∧ (r = 0 ∨ r = 1) ∧
      (r = 1 ↔ ∃ T ∈ splitBy 44 subdir_list, SubdirFits T (baseName directory)) := by
  obtain ⟨r, hr, hv, hiff⟩ := subcomp_spec subdir_list directory h0
  refine ⟨r, hr, hv, hiff.trans ?_⟩
  rw [reachesFit_iff _ _ htok]
  exact ⟨fun h => h.2, fun h => ⟨hk, h⟩⟩

theorem subcomp_iff_fits_witness :
    2 ≤ (cstr "/site/rel/CD1").length ∧ 0 ∉ cstr "cd?,sample,CD?1" ∧
    (∀ T ∈ splitBy 44 (cstr "cd?,sample,CD?1"), T ≠ [] ∧ T.head? ≠ some 63) ∧
    ∃ r, subcomp (cstr "cd?,sample,CD?1") (cstr "/site/rel/CD1") = .done r ∧ (r = 0 ∨ r = 1) ∧
      (r = 1 ↔ ∃ T ∈ splitBy 44 (cstr "cd?,sample,CD?1"),
        SubdirFits T (baseName (cstr "/site/rel/CD1"))) :=
  ⟨by decide, by decide, by decide,
    subcomp_iff_fits (cstr "cd?,sample,CD?1") (cstr "/site/rel/CD1")
      (by decide) (by decide) (by decide)⟩

/-- The examples given with the excluded-subdirectory matcher, run on the
code. -/
theorem subcomp_examples :
    subcomp (cstr "CD?1") (cstr "/site/rel/CD1") = .done 1 ∧
    subcomp (cstr "CD?1") (cstr "/site/rel/CDROM") = .done 0 ∧
    baseName (cstr "/site/rel/CD1") = cstr "CD1" := by decide

/-! ## The pattern filters -/

theorem baseName_of_no_slash (d : List Nat) (h : 47 ∉ d) : baseName d = d := by
  unfold baseName
  rw [splitBy_no_sep 47 d h]
  rfl

theorem afterLast_suffix (c : Nat) : ∀ (d r : List Nat), afterLast c d = some r → r <:+ d := by
  intro d
  induction d with
  | nil => intro r h; simp [afterLast] at h
  | cons x xs ih =>
    intro r h
    unfold afterLast at h
    cases hrec : afterLast c xs with
    | some r' =>
      rw [hrec] at h
      simp only [Option.some.injEq] at h
      subst h
      exact (ih r' hrec).trans (List.suffix_cons x xs)
    | none =>
      rw [hrec] at h
      simp only at h
      split_ifs at h
      simp only [Option.some.injEq] at h
      subst h
      exact List.suffix_cons x xs

theorem afterLast_none_iff (c : Nat) : ∀ d : List Nat, afterLast c d = none ↔ c ∉ d := by
  intro d
  induction d with
  | nil => simp [afterLast]
  | cons x xs ih =>
    unfold afterLast
    cases hrec : afterLast c xs with
    | some r' =>
      have : c ∈ xs := by
        by_contra hc
        rw [ih.mpr hc] at hrec
        exact Option.noConfusion hrec
      simp [this]
    | none =>
      have hc : c ∉ xs := ih.mp hrec
      by_cases hx : x = c
      · simp [hx]
      · simp only [if_neg hx, List.mem_cons, not_or, true_iff]
        exact ⟨fun e => hx e.symm, hc⟩

theorem basePtr_eq_candidate (match_full : Bool) (dirname : List Nat) :
    basePtr match_full dirname = candidate match_full dirname := by
  unfold basePtr candidate
  by_cases hf : match_full = false
  · rw [if_pos hf, bstring_eq_baseName]
    by_cases hs : 47 ∈ dirname
    · rw [if_pos ⟨hf, hs⟩]
    · rw [if_neg (fun h => hs h.2), baseName_of_no_slash dirname hs]
  · rw [if_neg hf, if_neg (fun h => hf h.1)]

theorem basePtr_no_nul (match_full : Bool) (dirname : List Nat) (h0 : 0 ∉ dirname) :
    0 ∉ basePtr match_full dirname := by
  unfold basePtr
  split_ifs
  · cases hrec : afterLast 47 dirname with
    | some r => exact fun h => h0 ((afterLast_suffix 47 dirname r hrec).subset h)
    | none => exact h0
  · exact h0

theorem hits_iff (pattern cand : List Nat) (r : Nat) (h : wildcasecmp pattern cand = .done r) :
    hits pattern cand = true ↔ r ≠ 0 := by
  unfold hits
  rw [h]
  simp

theorem subpatLoop_succ (p : List Nat) (fuel : Nat) (subpat : List Nat) (m : Bool) :
    subpatLoop p (fuel + 1) subpat m =
      match subpat.dropWhile (fun c => c ≠ 32) with
      | [] => .done (subpat, m)
      | _ :: t =>
        if m then .done (subpat, m)
        else
          (wildcasecmp (subpat.takeWhile (fun c => c ≠ 32)) p).bind fun r =>
            subpatLoop p fuel t (if r ≠ 0 then true else m) := rfl

theorem subpatLoop_spec (p : List Nat) (h0p : 0 ∉ p) :
    ∀ (fuel : Nat) (subpat : List Nat) (m : Bool), subpat.length < fuel → 0 ∉ subpat →
      ∃ st, subpatLoop p fuel subpat m = .done st ∧ 0 ∉ st.1 ∧
        ((st.2 = true ∨ hits st.1 p = true) ↔
          (m = true ∨ ∃ T ∈ splitBy 32 subpat, hits T p = true)) := by
  intro fuel
  induction fuel with
  | zero => intro _ _ h; omega
  | succ fuel ih =>
    intro subpat m hfuel h0
    rw [subpatLoop_succ, splitBy_eq_takeWhile]
    have hdl : (subpat.dropWhile (fun c => c ≠ 32)).length ≤ subpat.length :=
      (List.dropWhile_sublist _).length_le
    cases hend : subpat.dropWhile (fun c => c ≠ 32) with
    | nil =>
      simp only
      have htw : subpat.takeWhile (fun c => c ≠ 32) = subpat := by
        have := List.takeWhile_append_dropWhile (fun c => decide (c ≠ 32)) subpat
        rw [hend, List.append_nil] at this
        exact this
      rw [htw]
      exact ⟨(subpat, m), rfl, h0, by simp⟩
    | cons e t =>
      simp only
      rw [hend] at hdl
      simp only [List.length_cons] at hdl
      cases m with
      | true => exact ⟨(subpat, true), rfl, h0, by simp⟩
      | false =>
        simp only [Bool.false_eq_true, if_false]
        obtain ⟨r, hr, -, -⟩ := wildcasecmp_spec (subpat.takeWhile (fun c => c ≠ 32)) p
          (not_mem_takeWhile h0) h0p
        rw [hr, Run.bind_done]
        have h0t : 0 ∉ t := by
          have := @not_mem_dropWhile_tail subpat (fun c => decide (c ≠ 32)) 0 h0
          rw [hend] at this
          exact this
        obtain ⟨st, hst, h0st, hiff⟩ := ih t (if r ≠ 0 then true else false) (by omega) h0t
        refine ⟨st, hst, h0st, hiff.trans ?_⟩
        have hh := hits_iff _ _ r hr
        simp only [List.mem_cons, exists_eq_or_imp, false_or, hh]
        by_cases hr0 : r = 0
        · simp [hr0]
        · simp [hr0]

theorem newdirsMatch_spec (match_full : Bool) (pattern dirname : List Nat) (h0p : 0 ∉ pattern)
    (h0d : 0 ∉ dirname) :
    ∃ m, newdirsMatch match_full pattern dirname = .done m ∧
      (m = true ↔ ∃ T ∈ splitBy 32 pattern, hits T (candidate match_full dirname) = true) := by
  unfold newdirsMatch
  simp only
  have h0c := basePtr_no_nul match_full dirname h0d
  rw [basePtr_eq_candidate] at h0c ⊢
  obtain ⟨st, hst, h0st, hiff⟩ := subpatLoop_spec (candidate match_full dirname) h0c
    (pattern.length + 1) pattern false (Nat.lt_succ_self _) h0p
  rw [hst, Run.bind_done]
  obtain ⟨r, hr, -, -⟩ := wildcasecmp_spec st.1 (candidate match_full dirname) h0st h0c
  rw [hr, Run.bind_done]
  refine ⟨_, rfl, ?_⟩
  have hh := hits_iff _ _ r hr
  simp only [Bool.false_eq_true, false_or, hh] at hiff
  rw [← hiff]
  by_cases hr0 : r = 0
  · simp [hr0]
  · simp [hr0]

/-- C5: in `show_newdirs` the pattern filter accepts a directory record if
and only if at least one of the tokens obtained by splitting the pattern
argument at each space matches the candidate under `wildcasecmp`; the
candidate is the part of `dirname` after its last `/` when `match_full` is off
and `dirname` contains a `/`, and the whole `dirname` otherwise. -/
theorem newdirsMatch_iff_some_token (match_full : Bool) (pattern dirname : List Nat)
    (h0p : 0 ∉ pattern) (h0d : 0 ∉ dirname) :
    ∃ m, newdirsMatch match_full pattern dirname = .done m ∧
      (m = true ↔ ∃ T ∈ splitBy 32 pattern, hits T (candidate match_full dirname) = true) :=
  newdirsMatch_spec match_full pattern dirname h0p h0d

theorem newdirsMatch_iff_some_token_witness :
    0 ∉ cstr "foo bar" ∧ 0 ∉ cstr "/site/rel/BAR" ∧
    ∃ m, newdirsMatch false (cstr "foo bar") (cstr "/site/rel/BAR") = .done m ∧
      (m = true ↔ ∃ T ∈ splitBy 32 (cstr "foo bar"),
        hits T (candidate false (cstr "/site/rel/BAR")) = true) :=
  ⟨by decide, by decide,
    newdirsMatch_iff_some_token false (cstr "foo bar") (cstr "/site/rel/BAR")
      (by decide) (by decide)⟩

/-- The example given with the pattern list, run on the code: `foo bar`
accepts `foo` and `bar` in any letter case, and nothing else. -/
theorem newdirsMatch_examples :
    newdirsMatch false (cstr "foo bar") (cstr "/site/rel/FOO") = .done true ∧
    newdirsMatch false (cstr "foo bar") (cstr "/site/rel/Bar") = .done true ∧
    newdirsMatch false (cstr "foo bar") (cstr "bar") = .done true ∧
    newdirsMatch false (cstr "foo bar") (cstr "/site/rel/foobar") = .done false := by decide

/-- C6 fails on the code: `show_nukes` hands the whole pattern argument to
`wildcasecmp`, so with the two patterns `foo bar` a nuke record whose candidate
name is `foo` is rejected although the pattern `foo` matches it; the dirlog
filter accepts the same name. -/
theorem nukesMatch_no_split :
    nukesMatch false (cstr "foo bar") (cstr "/site/rel/foo") = .done false ∧
    (∃ T ∈ splitBy 32 (cstr "foo bar"),
      hits T (candidate false (cstr "/site/rel/foo")) = true) ∧
    newdirsMatch false (cstr "foo bar") (cstr "/site/rel/foo") = .done true := by
  refine ⟨by decide, ⟨cstr "foo", by decide, by decide⟩, by decide⟩

/-! ## show_newdirs and show_nukes -/

theorem newdirsLoop_succ {Line : Type} (g : Globals) (R : Nat) (decode : List Nat → dirlog)
    (fmt : dirlog → Line) (pattern : Option (List Nat)) (fuel : Nat) (fp : FILE) (i : Nat) :
    newdirsLoop g R decode fmt pattern (fuel + 1) fp i =
      if i < g.max_results then
        if (fseekCur fp (-(R : Int))).2 ≠ 0 then .done []
        else
          match (fread1 (fseekCur fp (-(R : Int))).1 R).2 with
          | none => .done []
          | some raw =>
            if g.search_mode = false ∧ (decode raw).status ≠ 0 then
              newdirsLoop g R decode fmt pattern fuel
                (fseekCur (fread1 (fseekCur fp (-(R : Int))).1 R).1 (-(R : Int))).1 i
            else
              (newdirsPattern g.match_full pattern (decode raw).dirname).bind fun m =>
              if m = false then
                newdirsLoop g R decode fmt pattern fuel
                  (fseekCur (fread1 (fseekCur fp (-(R : Int))).1 R).1 (-(R : Int))).1 i
              else
                (matchpath g.group_dirs (decode raw).dirname).bind fun mp =>
                  if mp ≠ 0 then
                    newdirsLoop g R decode fmt pattern fuel
                      (fseekCur (fread1 (fseekCur fp (-(R : Int))).1 R).1 (-(R : Int))).1 i
                  else
                    (subcomp g.subdir_list (decode raw).dirname).bind fun sc =>
                      if sc ≠ 0 then
                        newdirsLoop g R decode fmt pattern fuel
                          (fseekCur (fread1 (fseekCur fp (-(R : Int))).1 R).1 (-(R : Int))).1 i
                      else
                        (newdirsLoop g R decode fmt pattern fuel
                          (fseekCur (fread1 (fseekCur fp (-(R : Int))).1 R).1 (-(R : Int))).1
                          (i + 1)).bind fun rest => .done (fmt (decode raw) :: rest)
      else .done [] := rfl

theorem newdirsPattern_total (match_full : Bool) (pattern : Option (List Nat))
    (dirname : List Nat) (h0pat : ∀ pat, pattern = some pat → 0 ∉ pat) (h0d : 0 ∉ dirname) :
    ∃ m, newdirsPattern match_full pattern dirname = .done m := by
  cases pattern with
  | none => exact ⟨true, rfl⟩
  | some pat =>
    obtain ⟨m, hm, -⟩ := newdirsMatch_spec match_full pat dirname (h0pat pat rfl) h0d
    exact ⟨m, hm⟩

theorem take_filter_cons_neg {α β : Type} (p : α → Bool) (f : α → β) (x : α) (l : List α)
    (n : Nat) (h : p x = false) :
    (((x :: l).filter p).take n).map f = ((l.filter p).take n).map f := by
  rw [List.filter_cons_of_neg (by rw [h]; exact Bool.false_ne_true)]

theorem take_filter_cons_pos {α β : Type} (p : α → Bool) (f : α → β) (x : α) (l : List α)
    (n : Nat) (h : p x = true) :
    (((x :: l).filter p).take (n + 1)).map f = f x :: ((l.filter p).take n).map f := by
  rw [List.filter_cons_of_pos h, List.take_succ_cons, List.map_cons]

theorem newdirsLoop_eq_scan {Line : Type} (g : Globals) (R : Nat) (decode : List Nat → dirlog)
    (fmt : dirlog → Line) (pattern : Option (List Nat))
    (hhead : g.group_dirs.head? ≠ some 32) (h0gd : 0 ∉ g.group_dirs)
    (h0sl : 0 ∉ g.subdir_list) (h0pat : ∀ pat, pattern = some pat → 0 ∉ pat) :
    ∀ (fuel : Nat) (fp : FILE) (i : Nat) (bufs : List (List Nat)),
      scanLoop R fuel fp = .done bufs → (∀ b ∈ bufs, 0 ∉ (decode b).dirname) →
      newdirsLoop g R decode fmt pattern fuel fp i =
        .done ((((bufs.map decode).filter (qualifies g pattern)).take
          (g.max_results - i)).map fmt) := by
  intro fuel
  induction fuel with
  | zero =>
    intro fp i bufs h
    exact Run.noConfusion h
  | succ fuel ih =>
    intro fp i bufs hscan h0dir
    rw [newdirsLoop_succ]
    by_cases hi : i < g.max_results
    · rw [if_pos hi]
      rw [scanLoop_succ] at hscan
      by_cases hseek : (fseekCur fp (-(R : Int))).2 ≠ 0
      · rw [if_pos hseek] at hscan ⊢
        obtain rfl := Run.done.inj hscan
        simp
      · rw [if_neg hseek] at hscan ⊢
        cases hread : (fread1 (fseekCur fp (-(R : Int))).1 R).2 with
        | none =>
          rw [hread] at hscan
          obtain rfl := Run.done.inj hscan
          simp
        | some raw =>
          rw [hread] at hscan
          simp only at hscan ⊢
          obtain ⟨rest, hrest, hbufs⟩ := Run.bind_eq_done hscan
          obtain rfl := Run.done.inj hbufs
          have h0raw : 0 ∉ (decode raw).dirname := h0dir raw (List.mem_cons_self _ _)
          have h0rest : ∀ b ∈ rest, 0 ∉ (decode b).dirname :=
            fun b hb => h0dir b (List.mem_cons_of_mem _ hb)
          have hskip := ih _ i rest hrest h0rest
          have hkeep := ih _ (i + 1) rest hrest h0rest
          rw [List.map_cons]
          by_cases hst : g.search_mode = false ∧ (decode raw).status ≠ 0
          · rw [if_pos hst, hskip, take_filter_cons_neg]
            unfold qualifies
            have : ¬ (g.search_mode = true ∨ (decode raw).status = 0) := by
              rintro (h | h)
              · rw [hst.1] at h
                exact Bool.false_ne_true h
              · exact hst.2 h
            simp [this]
          · rw [if_neg hst]
            have hstat : g.search_mode = true ∨ (decode raw).status = 0 := by
              by_cases hs : g.search_mode = true
              · exact Or.inl hs
              · refine Or.inr ?_
                by_contra hne
                exact hst ⟨by simpa using hs, hne⟩
            obtain ⟨m, hm⟩ := newdirsPattern_total g.match_full pattern (decode raw).dirname
              h0pat h0raw
            rw [hm, Run.bind_done]
            by_cases hmf : m = false
            · rw [if_pos hmf, hskip, take_filter_cons_neg]
              unfold qualifies
              rw [hm, hmf]
              simp
            · rw [if_neg hmf]
              have hmt : m = true := by simpa using hmf
              obtain ⟨mp, hmp, -⟩ := matchpath_total g.group_dirs (decode raw).dirname hhead h0gd
              rw [hmp, Run.bind_done]
              by_cases hmp0 : mp ≠ 0
              · rw [if_pos hmp0, hskip, take_filter_cons_neg]
                unfold qualifies
                have : ¬ matchpath g.group_dirs (decode raw).dirname = .done 0 := by
                  rw [hmp]
                  exact fun h => hmp0 (Run.done.inj h)
                simp [this]
              · rw [if_neg hmp0]
                have hmpz : mp = 0 := by simpa using hmp0
                obtain ⟨sc, hsc, -, -⟩ := subcomp_spec g.subdir_list (decode raw).dirname h0sl
                rw [hsc, Run.bind_done]
                by_cases hsc0 : sc ≠ 0
                · rw [if_pos hsc0, hskip, take_filter_cons_neg]
                  unfold qualifies
                  have : ¬ subcomp g.subdir_list (decode raw).dirname = .done 0 := by
                    rw [hsc]
                    exact fun h => hsc0 (Run.done.inj h)
                  simp [this]
                · rw [if_neg hsc0, hkeep, Run.bind_done]
                  have hscz : sc = 0 := by simpa using hsc0
                  have e : g.max_results - i = (g.max_results - (i + 1)) + 1 := by omega
                  rw [e, take_filter_cons_pos]
                  unfold qualifies
                  rw [hm, hmp, hsc, hmpz, hscz, hmt]
                  simp [hstat]
    · rw [if_neg hi]
      have e : g.max_results - i = 0 := by omega
      rw [e]
      rfl

theorem qualifies_iff (g : Globals) (pattern : Option (List Nat)) (r : dirlog) :
    qualifies g pattern r = true ↔
      (g.search_mode = true ∨ r.status = 0) ∧
      newdirsPattern g.match_full pattern r.dirname = .done true ∧
      matchpath g.group_dirs r.dirname = .done 0 ∧
      subcomp g.subdir_list r.dirname = .done 0 := by
  unfold qualifies
  simp only [Bool.and_eq_true, decide_eq_true_eq, and_assoc]

theorem show_newdirs_spec {Line : Type} (g : Globals) (R : Nat) (decode : List Nat → dirlog)
    (fmt : dirlog → Line) (pattern : Option (List Nat)) (raws : List (List Nat)) (hR : 0 < R)
    (hraws : ∀ b ∈ raws, b.length = R)
    (hhead : g.group_dirs.head? ≠ some 32) (h0gd : 0 ∉ g.group_dirs)
    (h0sl : 0 ∉ g.subdir_list) (h0pat : ∀ pat, pattern = some pat → 0 ∉ pat)
    (h0dir : ∀ b ∈ raws, 0 ∉ (decode b).dirname) :
    show_newdirs g R decode fmt pattern raws.flatten =
      .done ((((raws.reverse.map decode).filter (qualifies g pattern)).take
        g.max_results).map fmt) := by
  have hscan := scanFile_records R hR raws hraws
  unfold scanFile at hscan
  unfold show_newdirs
  rw [newdirsLoop_eq_scan g R decode fmt pattern hhead h0gd h0sl h0pat _ _ 0 raws.reverse hscan
    (fun b hb => h0dir b (List.mem_reverse.mp hb))]
  rfl

/-- C4: for a dirlog that is a concatenation of whole directory records
(oldest first), the lines printed by `show_newdirs` are exactly the renderings
of the first `max_results` records of the reversed list of records that
qualify, in that order; a record qualifies iff (`search_mode` is set or its
status is 0) and the pattern filter accepts it (or no pattern is given) and
`matchpath(group_dirs, dirname)` is 0 and `subcomp(dirname)` is 0.  Records
that do not qualify are skipped without counting. -/
theorem show_newdirs_newest_first {Line : Type} (g : Globals) (R : Nat)
    (decode : List Nat → dirlog) (fmt : dirlog → Line) (pattern : Option (List Nat))
    (raws : List (List Nat)) (hR : 0 < R) (hmax : 1 ≤ g.max_results)
    (hraws : ∀ b ∈ raws, b.length = R)
    (hhead : g.group_dirs.head? ≠ some 32) (h0gd : 0 ∉ g.group_dirs)
    (h0sl : 0 ∉ g.subdir_list) (h0pat : ∀ pat, pattern = some pat → 0 ∉ pat)
    (h0dir : ∀ b ∈ raws, 0 ∉ (decode b).dirname) :
    show_newdirs g R decode fmt pattern raws.flatten =
      .done ((((raws.reverse.map decode).filter (qualifies g pattern)).take
        g.max_results).map fmt) ∧
    (∀ r, qualifies g pattern r = true ↔
      (g.search_mode = true ∨ r.status = 0) ∧
      (pattern = none ∨
        ∃ pat, pattern = some pat ∧ newdirsMatch g.match_full pat r.dirname = .done true) ∧
      matchpath g.group_dirs r.dirname = .done 0 ∧
      subcomp g.subdir_list r.dirname = .done 0) := by
  have _ := hmax
  refine ⟨show_newdirs_spec g R decode fmt pattern raws hR hraws hhead h0gd h0sl h0pat h0dir,
    fun r => ?_⟩
  rw [qualifies_iff]
  cases pattern with
  | none => simp [newdirsPattern]
  | some pat => simp [newdirsPattern]

theorem show_newdirs_newest_first_witness :
    0 < 2 ∧ 1 ≤ exGlobals.max_results ∧ (∀ b ∈ exRaws, b.length = 2) ∧
    exGlobals.group_dirs.head? ≠ some 32 ∧ 0 ∉ exGlobals.group_dirs ∧
    0 ∉ exGlobals.subdir_list ∧ (∀ pat, some (cstr "a b c") = some pat → 0 ∉ pat) ∧
    (∀ b ∈ exRaws, 0 ∉ (exDecodeDir b).dirname) ∧
    (show_newdirs exGlobals 2 exDecodeDir id (some (cstr "a b c")) exRaws.flatten =
      .done ((((exRaws.reverse.map exDecodeDir).filter
        (qualifies exGlobals (some (cstr "a b c")))).take exGlobals.max_results).map id) ∧
    (∀ r, qualifies exGlobals (some (cstr "a b c")) r = true ↔
      (exGlobals.search_mode = true ∨ r.status = 0) ∧
      (some (cstr "a b c") = none ∨
        ∃ pat, some (cstr "a b c") = some pat ∧
          newdirsMatch exGlobals.match_full pat r.dirname = .done true) ∧
      matchpath exGlobals.group_dirs r.dirname = .done 0 ∧
      subcomp exGlobals.subdir_list r.dirname = .done 0)) :=
  ⟨by decide, by decide, by decide, by decide, by decide, by decide,
    fun pat h => by cases h; decide, by decide,
    show_newdirs_newest_first exGlobals 2 exDecodeDir id (some (cstr "a b c")) exRaws
      (by decide) (by decide) (by decide) (by decide) (by decide) (by decide)
      (fun pat h => by cases h; decide) (by decide)⟩

/-- The toy dirlog run on the code: of the four records (statuses 0, 1, 0, 0)
the two newest with status 0 are printed, newest first; with the pattern list
`a b c` the record `D` is skipped without counting; in search mode with the
subdirectory list `c?,sample` the record `C` is left out by `subcomp` and the
three others are printed whatever their status. -/
theorem show_newdirs_examples :
    show_newdirs exGlobals 2 exDecodeDir (fun r => r.dirname) none exRaws.flatten =
      .done [cstr "/site/rel/D", cstr "/site/rel/C"] ∧
    show_newdirs exGlobals 2 exDecodeDir (fun r => r.dirname) (some (cstr "a b c"))
      exRaws.flatten = .done [cstr "/site/rel/C", cstr "/site/rel/A"] ∧
    show_newdirs
      { exGlobals with max_results := 4, search_mode := true, subdir_list := cstr "c?,sample" }
      2 exDecodeDir (fun r => r.dirname) none exRaws.flatten =
      .done [cstr "/site/rel/D", cstr "/site/rel/B", cstr "/site/rel/A"] := by decide

theorem nukesLoop_succ {Line : Type} (g : Globals) (R : Nat) (decode : List Nat → nukelog)
    (fmt : nukelog → Line) (status : Nat) (pattern : Option (List Nat)) (fuel : Nat) (fp : FILE)
    (i : Nat) :
    nukesLoop g R decode fmt status pattern (fuel + 1) fp i =
      if i < g.max_results then
        if (fseekCur fp (-(R : Int))).2 ≠ 0 then .done []
        else
          match (fread1 (fseekCur fp (-(R : Int))).1 R).2 with
          | none => .done []
          | some raw =>
            if g.search_mode = false ∧ (decode raw).status ≠ status then
              nukesLoop g R decode fmt status pattern fuel
                (fseekCur (fread1 (fseekCur fp (-(R : Int))).1 R).1 (-(R : Int))).1 i
            else
              (nukesPattern g.match_full pattern (decode raw).dirname).bind fun m =>
              if m = false then
                nukesLoop g R decode fmt status pattern fuel
                  (fseekCur (fread1 (fseekCur fp (-(R : Int))).1 R).1 (-(R : Int))).1 i
              else
                (nukesLoop g R decode fmt status pattern fuel
                  (fseekCur (fread1 (fseekCur fp (-(R : Int))).1 R).1 (-(R : Int))).1
                  (i + 1)).bind fun rest => .done (fmt (decode raw) :: rest)
      else .done [] := rfl

theorem nukesPattern_spec (match_full : Bool) (pattern : Option (List Nat))
    (dirname : List Nat) (h0pat : ∀ pat, pattern = some pat → 0 ∉ pat) (h0d : 0 ∉ dirname) :
    nukesPattern match_full pattern dirname = .done (patternHits match_full pattern dirname) := by
  cases pattern with
  | none => rfl
  | some pat =>
    unfold nukesPattern nukesMatch patternHits hits
    simp only
    rw [basePtr_eq_candidate]
    have h0c := basePtr_no_nul match_full dirname h0d
    rw [basePtr_eq_candidate] at h0c
    obtain ⟨r, hr, -, -⟩ := wildcasecmp_spec pat (candidate match_full dirname) (h0pat pat rfl) h0c
    rw [hr, Run.bind_done]

theorem nukesLoop_eq_scan {Line : Type} (g : Globals) (R : Nat) (decode : List Nat → nukelog)
    (fmt : nukelog → Line) (status : Nat) (pattern : Option (List Nat))
    (h0pat : ∀ pat, pattern = some pat → 0 ∉ pat) :
    ∀ (fuel : Nat) (fp : FILE) (i : Nat) (bufs : List (List Nat)),
      scanLoop R fuel fp = .done bufs → (∀ b ∈ bufs, 0 ∉ (decode b).dirname) →
      nukesLoop g R decode fmt status pattern fuel fp i =
        .done ((((bufs.map decode).filter (qualifiesNuke g status pattern)).take
          (g.max_results - i)).map fmt) := by
  intro fuel
  induction fuel with
  | zero =>
    intro fp i bufs h
    exact Run.noConfusion h
  | succ fuel ih =>
    intro fp i bufs hscan h0dir
    rw [nukesLoop_succ]
    by_cases hi : i < g.max_results
    · rw [if_pos hi]
      rw [scanLoop_succ] at hscan
      by_cases hseek : (fseekCur fp (-(R : Int))).2 ≠ 0
      · rw [if_pos hseek] at hscan ⊢
        obtain rfl := Run.done.inj hscan
        simp
      · rw [if_neg hseek] at hscan ⊢
        cases hread : (fread1 (fseekCur fp (-(R : Int))).1 R).2 with
        | none =>
          rw [hread] at hscan
          obtain rfl := Run.done.inj hscan
          simp
        | some raw =>
          rw [hread] at hscan
          simp only at hscan ⊢
          obtain ⟨rest, hrest, hbufs⟩ := Run.bind_eq_done hscan
          obtain rfl := Run.done.inj hbufs
          have h0raw : 0 ∉ (decode raw).dirname := h0dir raw (List.mem_cons_self _ _)
          have h0rest : ∀ b ∈ rest, 0 ∉ (decode b).dirname :=
            fun b hb => h0dir b (List.mem_cons_of_mem _ hb)
          have hskip := ih _ i rest hrest h0rest
          have hkeep := ih _ (i + 1) rest hrest h0rest
          rw [List.map_cons]
          by_cases hst : g.search_mode = false ∧ (decode raw).status ≠ status
          · rw [if_pos hst, hskip, take_filter_cons_neg]
            unfold qualifiesNuke
            have : ¬ (g.search_mode = true ∨ (decode raw).status = status) := by
              rintro (h | h)
              · rw [hst.1] at h
                exact Bool.false_ne_true h
              · exact hst.2 h
            simp [this]
          · rw [if_neg hst]
            have hstat : g.search_mode = true ∨ (decode raw).status = status := by
              by_cases hs : g.search_mode = true
              · exact Or.inl hs
              · refine Or.inr ?_
                by_contra hne
                exact hst ⟨by simpa using hs, hne⟩
            rw [nukesPattern_spec g.match_full pattern (decode raw).dirname h0pat h0raw,
              Run.bind_done]
            by_cases hmf : patternHits g.match_full pattern (decode raw).dirname = false
            · rw [if_pos hmf, hskip, take_filter_cons_neg]
              unfold qualifiesNuke
              rw [hmf]
              simp
            · rw [if_neg hmf, hkeep, Run.bind_done]
              have hmt : patternHits g.match_full pattern (decode raw).dirname = true := by
                simpa using hmf
              have e : g.max_results - i = (g.max_results - (i + 1)) + 1 := by omega
              rw [e, take_filter_cons_pos]
              unfold qualifiesNuke
              rw [hmt]
              simp [hstat]
    · rw [if_neg hi]
      have e : g.max_results - i = 0 := by omega
      rw [e]
      rfl

theorem show_nukes_spec {Line : Type} (g : Globals) (R : Nat) (decode : List Nat → nukelog)
    (fmt : nukelog → Line) (status : Nat) (pattern : Option (List Nat))
    (raws : List (List Nat)) (hR : 0 < R) (hraws : ∀ b ∈ raws, b.length = R)
    (h0pat : ∀ pat, pattern = some pat → 0 ∉ pat)
    (h0dir : ∀ b ∈ raws, 0 ∉ (decode b).dirname) :
    show_nukes g R decode fmt status pattern raws.flatten =
      .done ((((raws.reverse.map decode).filter (qualifiesNuke g status pattern)).take
        g.max_results).map fmt) := by
  have hscan := scanFile_records R hR raws hraws
  unfold scanFile at hscan
  unfold show_nukes
  rw [nukesLoop_eq_scan g R decode fmt status pattern h0pat _ _ 0 raws.reverse hscan
    (fun b hb => h0dir b (List.mem_reverse.mp hb))]
  rfl

theorem qualifiesNuke_iff (g : Globals) (status : Nat) (pattern : Option (List Nat))
    (r : nukelog) :
    qualifiesNuke g status pattern r = true ↔
      (g.search_mode = true ∨ r.status = status) ∧
      (pattern = none ∨
        ∃ pat, pattern = some pat ∧ hits pat (candidate g.match_full r.dirname) = true) := by
  unfold qualifiesNuke patternHits
  cases pattern with
  | none => simp
  | some pat => simp

/-- C7: for a nukelog that is a concatenation of whole nuke records (oldest
first), the lines printed by `show_nukes` are exactly the renderings of the
first `max_results` records of the reversed list restricted to the records for
which (`search_mode` is set or the status equals the required status) and (no
pattern is given or the pattern matches the candidate name); the lists
`group_dirs` and `subdir_list` play no part, and when the pattern matches no
record's candidate name nothing is printed. -/
theorem show_nukes_newest_first {Line : Type} (g : Globals) (R : Nat)
    (decode : List Nat → nukelog) (fmt : nukelog → Line) (status : Nat)
    (pattern : Option (List Nat)) (raws : List (List Nat)) (hR : 0 < R)
    (hmax : 1 ≤ g.max_results) (hraws : ∀ b ∈ raws, b.length = R)
    (h0pat : ∀ pat, pattern = some pat → 0 ∉ pat)
    (h0dir : ∀ b ∈ raws, 0 ∉ (decode b).dirname) :
    show_nukes g R decode fmt status pattern raws.flatten =
      .done ((((raws.reverse.map decode).filter (qualifiesNuke g status pattern)).take
        g.max_results).map fmt) ∧
    (∀ r, qualifiesNuke g status pattern r = true ↔
      (g.search_mode = true ∨ r.status = status) ∧
      (pattern = none ∨
        ∃ pat, pattern = some pat ∧ hits pat (candidate g.match_full r.dirname) = true)) ∧
    (∀ gd sl, show_nukes { g with group_dirs := gd, subdir_list := sl } R decode fmt status
        pattern raws.flatten = show_nukes g R decode fmt status pattern raws.flatten) ∧
    (∀ pat, pattern = some pat →
      (∀ b ∈ raws, hits pat (candidate g.match_full (decode b).dirname) = false) →
      show_nukes g R decode fmt status pattern raws.flatten = .done []) := by
  have _ := hmax
  have hmain := show_nukes_spec g R decode fmt status pattern raws hR hraws h0pat h0dir
  refine ⟨hmain, qualifiesNuke_iff g status pattern, fun gd sl => ?_, fun pat hpat hno => ?_⟩
  · rw [hmain, show_nukes_spec { g with group_dirs := gd, subdir_list := sl } R decode fmt status
      pattern raws hR hraws h0pat h0dir]
    rfl
  · rw [hmain]
    have hnone : (raws.reverse.map decode).filter (qualifiesNuke g status pattern) = [] := by
      rw [List.filter_eq_nil_iff]
      intro r hr
      obtain ⟨b, hb, rfl⟩ := List.mem_map.mp hr
      rw [qualifiesNuke_iff]
      rintro ⟨-, h | ⟨pat', hpat', hhit⟩⟩
      · rw [h] at hpat
        exact Option.noConfusion hpat
      · rw [hpat] at hpat'
        obtain rfl := Option.some.inj hpat'
        rw [hno b (List.mem_reverse.mp hb)] at hhit
        exact Bool.false_ne_true hhit
    rw [hnone, List.take_nil, List.map_nil]

theorem show_nukes_newest_first_witness :
    0 < 2 ∧ 1 ≤ exGlobals.max_results ∧ (∀ b ∈ exRaws, b.length = 2) ∧
    (∀ pat, some (cstr "?") = some pat → 0 ∉ pat) ∧
    (∀ b ∈ exRaws, 0 ∉ (exDecodeNuke b).dirname) ∧
    (show_nukes exGlobals 2 exDecodeNuke id 0 (some (cstr "?")) exRaws.flatten =
      .done ((((exRaws.reverse.map exDecodeNuke).filter
        (qualifiesNuke exGlobals 0 (some (cstr "?")))).take exGlobals.max_results).map id) ∧
    (∀ r, qualifiesNuke exGlobals 0 (some (cstr "?")) r = true ↔
      (exGlobals.search_mode = true ∨ r.status = 0) ∧
      (some (cstr "?") = none ∨
        ∃ pat, some (cstr "?") = some pat ∧
          hits pat (candidate exGlobals.match_full r.dirname) = true)) ∧
    (∀ gd sl, show_nukes { exGlobals with group_dirs := gd, subdir_list := sl } 2 exDecodeNuke id
        0 (some (cstr "?")) exRaws.flatten =
      show_nukes exGlobals 2 exDecodeNuke id 0 (some (cstr "?")) exRaws.flatten) ∧
    (∀ pat, some (cstr "?") = some pat →
      (∀ b ∈ exRaws, hits pat (candidate exGlobals.match_full (exDecodeNuke b).dirname) = false) →
      show_nukes exGlobals 2 exDecodeNuke id 0 (some (cstr "?")) exRaws.flatten = .done [])) :=
  ⟨by decide, by decide, by decide, fun pat h => by cases h; decide, by decide,
    show_nukes_newest_first exGlobals 2 exDecodeNuke id 0 (some (cstr "?")) exRaws
      (by decide) (by decide) (by decide) (fun pat h => by cases h; decide) (by decide)⟩

/-- The toy nukelog run on the code: with required status 0 the two newest
records of status 0 are printed, newest first; a pattern that matches no name
prints nothing; two patterns in one argument match nothing either. -/
theorem show_nukes_examples :
    show_nukes exGlobals 2 exDecodeNuke (fun r => r.dirname) 0 none exRaws.flatten =
      .done [cstr "/site/rel/D", cstr "/site/rel/C"] ∧
    show_nukes exGlobals 2 exDecodeNuke (fun r => r.dirname) 1 (some (cstr "zz*"))
      exRaws.flatten = .done [] ∧
    show_nukes exGlobals 2 exDecodeNuke (fun r => r.dirname) 0 (some (cstr "a c"))
      exRaws.flatten = .done [] := by decide

/-! ## matchpath on lists with any arrangement of spaces -/

theorem matchpathDelim_empty (A rest P : List Nat) (hP : 2 ≤ P.length) (h0P : 0 ∉ P) :
    ∃ v, matchpathDelim (A ++ [32] ++ rest) P (A.length + 1) 0 = .done v ∧
      (v = true ↔ P.head? = some 47) := by
  have e1 : ¬ (P.length : Int) = 0 - 1 := by omega
  have e2 : ¬ ((A.length + 1 : Nat) : Int) - 0 < 0 := by omega
  have e3 : ((A.length + 1 : Nat) : Int) - 1 = ((A.length : Nat) : Int) := by
    push_cast
    omega
  have e4 : A ++ [32] ++ rest = A ++ 32 :: rest := by simp
  have hb : charAt (A ++ [32] ++ rest) (((A.length + 1 : Nat) : Int) - 1) = .done 32 := by
    rw [e3, e4, charAt_nat _ _ (by simp), getD_append_cons]
  have hd : charAt P 0 = .done (P.getD 0 0) := charAt_nat P 0 (Nat.zero_le _)
  unfold matchpathDelim matchpathC
  rw [if_neg e1, Run.bind_done, if_neg e2]
  have hcmp : strncmpEq ((0 : Int) - 0).toNat
      (List.drop (((A.length + 1 : Nat) : Int) - 0).toNat (A ++ [32] ++ rest)) P = true := rfl
  rw [hcmp, if_pos rfl, hb, Run.bind_done, if_neg (by decide),
    if_pos (by exact_mod_cast Nat.zero_le _), hd, Run.bind_done]
  refine ⟨_, rfl, ?_⟩
  rw [decide_eq_true_iff]
  cases P with
  | nil => simp at hP
  | cons p ps =>
    simp only [List.mem_cons, not_or] at h0P
    have hp : p ≠ 0 := fun e => h0P.1 e.symm
    simp [hp]

theorem matchpathLoop_any (P : List Nat) (hP : 2 ≤ P.length) (h0P : 0 ∉ P) :
    ∀ (rest A cur instr0 : List Nat) (i : Nat) (pos : Int),
      instr0 = A ++ cur ++ rest → i = A.length + cur.length → pos = (cur.length : Int) →
      32 ∉ cur → 0 ∉ cur → 0 ∉ rest →
      (A.getLast? = some 32 ∨ (A = [] ∧ (cur ≠ [] ∨ ∃ ch t, rest = ch :: t ∧ ch ≠ 32))) →
      ∃ r, matchpathLoop instr0 P rest i pos = .done r ∧ (r = 0 ∨ r = 1) ∧
        (r = 1 ↔ ∃ T ∈ splitBy 32 (cur ++ rest), TokenHit T P) := by
  have hdelim : ∀ (A cur rest : List Nat), 0 ∉ cur →
      (cur = [] → A.getLast? = some 32) →
      ∃ v, matchpathDelim (A ++ cur ++ rest) P (A.length + cur.length) (cur.length : Int)
          = .done v ∧ (v = true ↔ TokenHit cur P) := by
    intro A cur rest h0 hA
    rcases List.eq_nil_or_concat cur with rfl | ⟨init, b, rfl⟩
    · have hlast := hA rfl
      rcases List.eq_nil_or_concat A with rfl | ⟨A', x, rfl⟩
      · simp at hlast
      · rw [List.concat_eq_append] at hlast ⊢
        have hx : x = 32 := by simpa using hlast
        subst hx
        obtain ⟨v, hv, hiff⟩ := matchpathDelim_empty A' rest P hP h0P
        refine ⟨v, ?_, hiff.trans ?_⟩
        · simpa using hv
        · simp [TokenHit]
    · rw [List.concat_eq_append] at h0 ⊢
      obtain ⟨v, hv, hiff⟩ := matchpathDelim_spec A init rest P b h0 hP h0P
      refine ⟨v, ?_, hiff.trans ?_⟩
      · simpa using hv
      · simp [TokenHit]
  intro rest
  induction rest with
  | nil =>
    intro A cur instr0 i pos hinstr hi hpos h32 h0 _ hJ
    rw [List.append_nil, splitBy_no_sep 32 cur h32]
    have hA : cur = [] → A.getLast? = some 32 := by
      intro hc
      rcases hJ with h | ⟨-, h | ⟨ch, t, he, -⟩⟩
      · exact h
      · exact absurd hc h
      · exact List.noConfusion he
    obtain ⟨v, hv, hiff⟩ := hdelim A cur [] h0 hA
    rw [← hinstr, ← hi, ← hpos] at hv
    unfold matchpathLoop
    rw [hv, Run.bind_done]
    cases v with
    | true =>
      exact ⟨1, rfl, Or.inr rfl, iff_of_true rfl ⟨_, List.mem_singleton_self _, hiff.mp rfl⟩⟩
    | false =>
      refine ⟨0, rfl, Or.inl rfl, iff_of_false (by decide) ?_⟩
      rintro ⟨T, hT, hcov⟩
      rw [List.mem_singleton.mp hT] at hcov
      exact Bool.false_ne_true (hiff.mpr hcov)
  | cons ch rest ih =>
    intro A cur instr0 i pos hinstr hi hpos h32 h0 h0r hJ
    simp only [List.mem_cons, not_or] at h0r
    have hch0 : ch ≠ 0 := fun e => h0r.1 e.symm
    unfold matchpathLoop
    by_cases hsp : ch = 32
    · subst hsp
      rw [if_pos (Or.inr rfl)]
      rw [splitBy_append_sep 32 cur rest h32]
      have hA : cur = [] → A.getLast? = some 32 := by
        intro hc
        rcases hJ with h | ⟨-, h | ⟨ch, t, he, hne⟩⟩
        · exact h
        · exact absurd hc h
        · obtain ⟨rfl, -⟩ := List.cons.inj he
          exact absurd rfl hne
      obtain ⟨v, hv, hiff⟩ := hdelim A cur (32 :: rest) h0 hA
      rw [← hinstr, ← hi, ← hpos] at hv
      rw [hv, Run.bind_done]
      cases v with
      | true =>
        exact ⟨1, rfl, Or.inr rfl, iff_of_true rfl ⟨_, List.mem_cons_self _ _, hiff.mp rfl⟩⟩
      | false =>
        simp only [Bool.false_eq_true, if_false, if_neg hch0]
        obtain ⟨r, hr, hv01, hriff⟩ := ih (A ++ cur ++ [32]) [] instr0 (i + 1) 0
          (by rw [hinstr]; simp) (by rw [hi]; simp; omega) (by simp)
          (List.not_mem_nil _) (List.not_mem_nil _) h0r.2 (Or.inl (by simp))
        refine ⟨r, hr, hv01, hriff.trans ?_⟩
        simp only [List.nil_append, List.mem_cons, exists_eq_or_imp]
        constructor
        · exact Or.inr
        · rintro (hcov | h)
          · exact absurd (hiff.mpr hcov) Bool.false_ne_true
          · exact h
    · rw [if_neg (by simp only [hch0, hsp, or_self, not_false_eq_true])]
      obtain ⟨r, hr, hv01, hriff⟩ := ih A (cur ++ [ch]) instr0 (i + 1) (pos + 1)
        (by rw [hinstr]; simp) (by rw [hi]; simp; omega) (by rw [hpos]; simp)
        (by simp only [List.mem_append, List.mem_singleton, not_or]; exact ⟨h32, fun e => hsp e.symm⟩)
        (by simp only [List.mem_append, List.mem_singleton, not_or]; exact ⟨h0, fun e => hch0 e.symm⟩)
        h0r.2
        (by
          rcases hJ with h | ⟨h, -⟩
          · exact Or.inl h
          · exact Or.inr ⟨h, Or.inl (by simp)⟩)
      refine ⟨r, hr, hv01, hriff.trans ?_⟩
      simp

/-- The answer of `matchpath` for a list that does not begin with a space,
whatever its spaces are otherwise. -/
theorem matchpath_any (list P : List Nat) (hlist : 2 ≤ list.length) (hP : 2 ≤ P.length)
    (hhead : list.head? ≠ some 32) (h0l : 0 ∉ list) (h0P : 0 ∉ P) :
    ∃ r, matchpath list P = .done r ∧ (r = 0 ∨ r = 1) ∧
      (r = 1 ↔ ∃ T ∈ splitBy 32 list, TokenHit T P) := by
  unfold matchpath
  rw [if_neg (by omega)]
  refine matchpathLoop_any P hP h0P list [] [] list 0 0 (by simp) (by simp) (by simp)
    (List.not_mem_nil _) (List.not_mem_nil _) h0l (Or.inr ⟨rfl, Or.inr ?_⟩)
  cases list with
  | nil => simp at hlist
  | cons ch t =>
    refine ⟨ch, t, rfl, fun e => hhead ?_⟩
    rw [e]
    rfl

theorem rootCovers_append_slash (T P : List Nat) (hlast : P.getLast? ≠ some 47) :
    RootCovers T (P ++ [47]) ↔ RootCovers T P := by
  unfold RootCovers
  constructor
  · rintro (⟨hpre, h⟩ | ⟨-, h⟩)
    · rcases List.prefix_concat_iff.mp hpre with heq | hpre'
      · exact Or.inr ⟨heq, hlast⟩
      · have hle := hpre'.length_le
        refine Or.inl ⟨hpre', ?_⟩
        rcases h with h | h | h
        · exact Or.inl h
        · simp only [List.length_append, List.length_cons, List.length_nil] at h
          omega
        · by_cases hlt : T.length < P.length
          · rw [List.getElem?_append_left hlt] at h
            exact Or.inr (Or.inr h)
          · exact Or.inr (Or.inl (by omega))
    · exact absurd (by simp) h
  · rintro (⟨hpre, h⟩ | ⟨heq, -⟩)
    · have hle := hpre.length_le
      refine Or.inl ⟨hpre.trans (List.prefix_append _ _), ?_⟩
      rcases h with h | h | h
      · exact Or.inl h
      · refine Or.inr (Or.inr ?_)
        rw [← h]
        simp
      · have hlt : T.length < P.length := by
          by_contra hge
          rw [List.getElem?_eq_none (by omega)] at h
          exact Option.noConfusion h
        refine Or.inr (Or.inr ?_)
        rw [List.getElem?_append_left hlt]
        exact h
    · refine Or.inl ⟨by rw [heq], Or.inr (Or.inl (by rw [heq]))⟩

theorem tokenHit_append_slash (T P : List Nat) (hne : P ≠ []) (hlast : P.getLast? ≠ some 47) :
    TokenHit T (P ++ [47]) ↔ TokenHit T P := by
  unfold TokenHit
  rw [rootCovers_append_slash T P hlast]
  cases P with
  | nil => exact absurd rfl hne
  | cons p ps => simp

/-- C11 fails on the code: after a trailing space (or between two spaces)
`matchpath` compares zero characters, so the empty token is taken as matching
and every path that begins with `/` is reported as excluded, although no
non-empty token of the list covers it; without the stray space the same path is
not excluded.  A list that begins with a space makes the function read the
character before the list. -/
theorem matchpath_stray_space :
    matchpath (cstr "/site/old ") (cstr "/site/new") = .done 1 ∧
    ¬ (∃ T ∈ splitBy 32 (cstr "/site/old "), T ≠ [] ∧ RootCovers T (cstr "/site/new")) ∧
    matchpath (cstr "/site/old  /site/tmp") (cstr "/site/new") = .done 1 ∧
    ¬ (∃ T ∈ splitBy 32 (cstr "/site/old  /site/tmp"),
      T ≠ [] ∧ RootCovers T (cstr "/site/new")) ∧
    matchpath (cstr "/site/old") (cstr "/site/new") = .done 0 ∧
    matchpath (cstr "/site/old /site/tmp") (cstr "/site/new") = .done 0 ∧
    matchpath (cstr " /site/old") (cstr "/site/new") = .fault := by decide

/-- C16: for an excluded-roots list of length at least 2 that does not begin
with a space and a path `P` of length at least 2 that does not end in `/`,
`matchpath(list, P)` and `matchpath(list, P/)` return the same value; in
particular the token `/site/old/` matches the path `/site/old`. -/
theorem matchpath_trailing_slash (list P : List Nat) (hlist : 2 ≤ list.length)
    (hhead : list.head? ≠ some 32) (hP : 2 ≤ P.length) (hlast : P.getLast? ≠ some 47)
    (h0l : 0 ∉ list) (h0P : 0 ∉ P) :
    (∃ r, matchpath list P = .done r ∧ matchpath list (P ++ [47]) = .done r) ∧
    matchpath (cstr "/site/old/") (cstr "/site/old") = .done 1 ∧
    matchpath (cstr "/site/old/") (cstr "/site/old/") = .done 1 := by
  refine ⟨?_, by decide, by decide⟩
  obtain ⟨r, hr, hv, hiff⟩ := matchpath_any list P hlist hP hhead h0l h0P
  obtain ⟨r', hr', hv', hiff'⟩ := matchpath_any list (P ++ [47]) hlist
    (by simp only [List.length_append, List.length_cons, List.length_nil]; omega) hhead h0l
    (by simp only [List.mem_append, List.mem_singleton, not_or]; exact ⟨h0P, by decide⟩)
  have hne : P ≠ [] := fun e => by rw [e] at hP; simp at hP
  have hsame : r' = 1 ↔ r = 1 := by
    rw [hiff, hiff']
    constructor
    · rintro ⟨T, hT, h⟩
      exact ⟨T, hT, (tokenHit_append_slash T P hne hlast).mp h⟩
    · rintro ⟨T, hT, h⟩
      exact ⟨T, hT, (tokenHit_append_slash T P hne hlast).mpr h⟩
  have heq : r' = r := by
    rcases hv with h | h <;> rcases hv' with h' | h' <;> omega
  exact ⟨r, hr, by rw [hr', heq]⟩

theorem matchpath_trailing_slash_witness :
    2 ≤ (cstr "/site/old/ /site/tmp").length ∧
    (cstr "/site/old/ /site/tmp").head? ≠ some 32 ∧
    2 ≤ (cstr "/site/old").length ∧ (cstr "/site/old").getLast? ≠ some 47 ∧
    0 ∉ cstr "/site/old/ /site/tmp" ∧ 0 ∉ cstr "/site/old" ∧
    ((∃ r, matchpath (cstr "/site/old/ /site/tmp") (cstr "/site/old") = .done r ∧
      matchpath (cstr "/site/old/ /site/tmp") (cstr "/site/old" ++ [47]) = .done r) ∧
    matchpath (cstr "/site/old/") (cstr "/site/old") = .done 1 ∧
    matchpath (cstr "/site/old/") (cstr "/site/old/") = .done 1) :=
  ⟨by decide, by decide, by decide, by decide, by decide, by decide,
    matchpath_trailing_slash (cstr "/site/old/ /site/tmp") (cstr "/site/old")
      (by decide) (by decide) (by decide) (by decide) (by decide) (by decide)⟩

/-- C19: for an excluded-roots list of length at least 2 whose first
character is not a space and any candidate path, `matchpath` never reads
outside the list or the path (the reads of `instr[-1]`, `path[pos-2]` and
`path[pos]` all fall between index 0 and the terminating NUL): the run does not
end in a fault, it returns 0 or 1. -/
theorem matchpath_reads_in_range (list P : List Nat) (hlist : 2 ≤ list.length)
    (hhead : list.head? ≠ some 32) (h0l : 0 ∉ list) :
    matchpath list P ≠ .fault ∧ ∃ r, matchpath list P = .done r ∧ (r = 0 ∨ r = 1) := by
  have _ := hlist
  obtain ⟨r, hr, hv⟩ := matchpath_total list P hhead h0l
  refine ⟨?_, r, hr, hv⟩
  rw [hr]
  exact fun h => Run.noConfusion h

theorem matchpath_reads_in_range_witness :
    2 ≤ (cstr "/site/old  /x ").length ∧ (cstr "/site/old  /x ").head? ≠ some 32 ∧
    0 ∉ cstr "/site/old  /x " ∧
    (matchpath (cstr "/site/old  /x ") (cstr "/s") ≠ .fault ∧
      ∃ r, matchpath (cstr "/site/old  /x ") (cstr "/s") = .done r ∧ (r = 0 ∨ r = 1)) :=
  ⟨by decide, by decide, by decide,
    matchpath_reads_in_range (cstr "/site/old  /x ") (cstr "/s")
      (by decide) (by decide) (by decide)⟩

/-! ## subcomp: position of the token, optional characters, trailing separator -/

theorem reachesFit_of_fit (b T : List Nat) (after : List (List Nat))
    (hfit : SubdirFits T b) : ∀ (before : List (List Nat)),
    (∀ U ∈ before ++ [T], U ≠ [] ∧ U.head? ≠ some 63) →
    ReachesFit b (before ++ T :: after) := by
  intro before
  induction before with
  | nil =>
    intro hok
    have hT := hok T (by simp)
    exact ⟨hT.1, hT.2, Or.inl hfit⟩
  | cons U Us ih =>
    intro hok
    have hU := hok U (by simp)
    exact ⟨hU.1, hU.2, Or.inr (ih (fun V hV => hok V (List.mem_cons_of_mem _ hV)))⟩

theorem not_reachesFit_nil_base : ∀ (toks : List (List Nat)), ¬ ReachesFit [] toks := by
  intro toks
  induction toks with
  | nil => exact fun h => h
  | cons T Ts ih =>
    rintro ⟨hne, hhead, hfit | hrest⟩
    · have hlen : (T.takeWhile (fun c => c ≠ 63)).length = 0 := by
        have := hfit.1
        simp only [List.length_nil] at this
        omega
      exact hhead ((takeWhile_eq_nil_iff_head T hne).mp hlen)
    · exact ih hrest

theorem afterLast_append_self (c : Nat) : ∀ (X : List Nat), afterLast c (X ++ [c]) = some [] := by
  intro X
  induction X with
  | nil => simp [afterLast]
  | cons x X ih =>
    rw [List.cons_append, afterLast, ih]

theorem baseName_trailing_slash (d : List Nat) (hlast : d.getLast? = some 47) :
    baseName d = [] := by
  rcases List.eq_nil_or_concat d with rfl | ⟨X, a, rfl⟩
  · simp at hlast
  · rw [List.concat_eq_append] at hlast ⊢
    have ha : a = 47 := by simpa using hlast
    subst ha
    rw [← bstring_eq_baseName, afterLast_append_self]

theorem takeWhile_append_replicate (pre : List Nat) (n : Nat) (h63 : 63 ∉ pre) :
    (pre ++ List.replicate n 63).takeWhile (fun c => c ≠ 63) = pre := by
  induction pre with
  | nil =>
    cases n with
    | zero => rfl
    | succ n => simp [List.replicate_succ]
  | cons p ps ih =>
    simp only [List.mem_cons, not_or] at h63
    have hp : p ≠ 63 := fun e => h63.1 e.symm
    rw [List.cons_append, List.takeWhile_cons_of_pos (by simpa using hp), ih h63.2]

theorem subdirFits_replicate (pre b : List Nat) (n : Nat) (h63 : 63 ∉ pre) :
    SubdirFits (pre ++ List.replicate n 63) b ↔
      ∃ p suf, b = p ++ suf ∧ p.map tolower = pre.map tolower ∧ suf.length ≤ n := by
  unfold SubdirFits
  rw [takeWhile_append_replicate pre n h63]
  simp only [List.length_append, List.length_replicate]
  constructor
  · rintro ⟨h1, h2, h3⟩
    refine ⟨b.take pre.length, b.drop pre.length, (List.take_append_drop _ _).symm, h3, ?_⟩
    rw [List.length_drop]
    omega
  · rintro ⟨p, suf, rfl, hp, hsuf⟩
    have hlen : p.length = pre.length := by
      have := congrArg List.length hp
      simpa using this
    refine ⟨?_, ?_, ?_⟩
    · rw [List.length_append]; omega
    · rw [List.length_append]; omega
    · rw [← hlen, List.take_left]
      exact hp

/-- C12 as stated fails: the base name `CD1` fits the token `CD??`, but
after a first token that is empty, or that begins with `?`, `subcomp` leaves
its loop and returns 0; and a directory of one character is never matched,
whatever the list. -/
theorem subcomp_position_counterexample :
    cstr "CD??" ∈ splitBy 44 (cstr ",CD??") ∧
    SubdirFits (cstr "CD??") (baseName (cstr "/x/CD1")) ∧
    subcomp (cstr ",CD??") (cstr "/x/CD1") = .done 0 ∧
    cstr "CD??" ∈ splitBy 44 (cstr "?x,CD??") ∧
    subcomp (cstr "?x,CD??") (cstr "/x/CD1") = .done 0 ∧
    cstr "a" ∈ splitBy 44 (cstr "a") ∧ SubdirFits (cstr "a") (baseName (cstr "a")) ∧
    subcomp (cstr "a") (cstr "a") = .done 0 := by decide

/-- C12, amended: for a directory path of at least 2 characters, if the base
name fits a token of the list under the prefix/length rule, and that token and
every token before it in the list is non-empty and does not begin with `?`,
then `subcomp` returns 1, whatever the position of the token and whatever the
tokens after it are. -/
theorem subcomp_fits_reached (subdir_list directory : List Nat) (before : List (List Nat))
    (T : List Nat) (after : List (List Nat)) (hk : 2 ≤ directory.length)
    (h0 : 0 ∉ subdir_list) (hsplit : splitBy 44 subdir_list = before ++ T :: after)
    (hok : ∀ U ∈ before ++ [T], U ≠ [] ∧ U.head? ≠ some 63)
    (hfit : SubdirFits T (baseName directory)) :
    subcomp subdir_list directory = .done 1 := by
  obtain ⟨r, hr, -, hiff⟩ := subcomp_spec subdir_list directory h0
  have h1 : r = 1 := by
    rw [hiff, hsplit]
    exact ⟨hk, reachesFit_of_fit _ T after hfit before hok⟩
  rw [hr, h1]

theorem subcomp_fits_reached_witness :
    2 ≤ (cstr "/site/rel/Cd2").length ∧ 0 ∉ cstr "sample,cd?,,?x" ∧
    splitBy 44 (cstr "sample,cd?,,?x") = [cstr "sample"] ++ cstr "cd?" :: [[], cstr "?x"] ∧
    (∀ U ∈ [cstr "sample"] ++ [cstr "cd?"], U ≠ [] ∧ U.head? ≠ some 63) ∧
    SubdirFits (cstr "cd?") (baseName (cstr "/site/rel/Cd2")) ∧
    subcomp (cstr "sample,cd?,,?x") (cstr "/site/rel/Cd2") = .done 1 :=
  ⟨by decide, by decide, by decide, by decide, by decide,
    subcomp_fits_reached (cstr "sample,cd?,,?x") (cstr "/site/rel/Cd2") [cstr "sample"]
      (cstr "cd?") [[], cstr "?x"] (by decide) (by decide) (by decide) (by decide) (by decide)⟩

/-- C13 as stated fails: with the token `CD??` the base name `CD`, the bare
prefix, is matched. -/
theorem subcomp_bare_prefix_counterexample :
    baseName (cstr "/x/CD") = cstr "CD" ∧
    subcomp (cstr "CD??") (cstr "/x/CD") = .done 1 := by decide

/-- C13, amended: for a token made of a literal prefix followed by `n ≥ 1`
characters `?`, `subcomp` matches exactly the base names that are the prefix
(in any letter case) followed by a suffix of at most `n` characters: the bare
prefix (empty suffix) is matched too, and a base name longer than the token is
not. -/
theorem subcomp_question_token (pre : List Nat) (n : Nat) (directory : List Nat)
    (hpre : pre ≠ []) (h63 : 63 ∉ pre) (h44 : 44 ∉ pre) (h0 : 0 ∉ pre) (hn : 1 ≤ n)
    (hk : 2 ≤ directory.length) :
    (∃ r, subcomp (pre ++ List.replicate n 63) directory = .done r ∧ (r = 0 ∨ r = 1) ∧
      (r = 1 ↔ ∃ p suf, baseName directory = p ++ suf ∧ p.map tolower = pre.map tolower ∧
        suf.length ≤ n)) ∧
    (baseName directory = pre → subcomp (pre ++ List.replicate n 63) directory = .done 1) ∧
    (pre.length + n < (baseName directory).length →
      subcomp (pre ++ List.replicate n 63) directory = .done 0) := by
  have _ := hn
  have h0sl : 0 ∉ pre ++ List.replicate n 63 := by
    simp only [List.mem_append, List.mem_replicate, not_or]
    exact ⟨h0, fun h => absurd h.2 (by decide)⟩
  have h44sl : 44 ∉ pre ++ List.replicate n 63 := by
    simp only [List.mem_append, List.mem_replicate, not_or]
    exact ⟨h44, fun h => absurd h.2 (by decide)⟩
  obtain ⟨r, hr, hv, hiff⟩ := subcomp_spec (pre ++ List.replicate n 63) directory h0sl
  have hne : pre ++ List.replicate n 63 ≠ [] := by
    cases pre with
    | nil => exact absurd rfl hpre
    | cons p ps => simp
  have hhead : (pre ++ List.replicate n 63).head? ≠ some 63 := by
    cases pre with
    | nil => exact absurd rfl hpre
    | cons p ps =>
      simp only [List.mem_cons, not_or] at h63
      simp only [List.cons_append, List.head?_cons, ne_eq, Option.some.injEq]
      exact fun e => h63.1 e.symm
  have hiff' : r = 1 ↔ ∃ p suf, baseName directory = p ++ suf ∧
      p.map tolower = pre.map tolower ∧ suf.length ≤ n := by
    rw [hiff, splitBy_no_sep 44 _ h44sl, ← subdirFits_replicate pre _ n h63]
    simp only [ReachesFit, or_false]
    exact ⟨fun h => h.2.2.2, fun h => ⟨hk, hne, hhead, h⟩⟩
  refine ⟨⟨r, hr, hv, hiff'⟩, fun hb => ?_, fun hlong => ?_⟩
  · have h1 : r = 1 := hiff'.mpr ⟨pre, [], by rw [hb, List.append_nil], rfl, Nat.zero_le _⟩
    rw [hr, h1]
  · have h0r : r = 0 := by
      rcases hv with h | h
      · exact h
      · exfalso
        obtain ⟨p, suf, hb, hp, hsuf⟩ := hiff'.mp h
        have hlen : p.length = pre.length := by
          have := congrArg List.length hp
          simpa using this
        rw [hb, List.length_append] at hlong
        omega
    rw [hr, h0r]

theorem subcomp_question_token_witness :
    cstr "CD" ≠ [] ∧ 63 ∉ cstr "CD" ∧ 44 ∉ cstr "CD" ∧ 0 ∉ cstr "CD" ∧ 1 ≤ 2 ∧
    2 ≤ (cstr "/site/rel/cd12").length ∧
    ((∃ r, subcomp (cstr "CD" ++ List.replicate 2 63) (cstr "/site/rel/cd12") = .done r ∧
      (r = 0 ∨ r = 1) ∧
      (r = 1 ↔ ∃ p suf, baseName (cstr "/site/rel/cd12") = p ++ suf ∧
        p.map tolower = (cstr "CD").map tolower ∧ suf.length ≤ 2)) ∧
    (baseName (cstr "/site/rel/cd12") = cstr "CD" →
      subcomp (cstr "CD" ++ List.replicate 2 63) (cstr "/site/rel/cd12") = .done 1) ∧
    ((cstr "CD").length + 2 < (baseName (cstr "/site/rel/cd12")).length →
      subcomp (cstr "CD" ++ List.replicate 2 63) (cstr "/site/rel/cd12") = .done 0)) :=
  ⟨by decide, by decide, by decide, by decide, by decide, by decide,
    subcomp_question_token (cstr "CD") 2 (cstr "/site/rel/cd12")
      (by decide) (by decide) (by decide) (by decide) (by decide) (by decide)⟩

/-- The examples given with the `?` tokens, run on the code: `CD??` matches
`CD1`, `CD12` and the bare `CD`, and does not match `CD123`. -/
theorem subcomp_question_examples :
    subcomp (cstr "CD??") (cstr "/x/CD1") = .done 1 ∧
    subcomp (cstr "CD??") (cstr "/x/CD12") = .done 1 ∧
    subcomp (cstr "CD??") (cstr "/x/CD") = .done 1 ∧
    subcomp (cstr "CD??") (cstr "/x/CD123") = .done 0 := by decide

/-- C17: for a directory path that ends in `/`, `subcomp` returns 0 whatever
the subdirectory list is: the base name taken after the last `/` is empty, so
no token is matched, even when the last real component (as in `/x/CD1/`)
would match one. -/
theorem subcomp_trailing_slash (subdir_list directory : List Nat)
    (hlast : directory.getLast? = some 47) (h0 : 0 ∉ subdir_list) :
    baseName directory = [] ∧ subcomp subdir_list directory = .done 0 := by
  have hb := baseName_trailing_slash directory hlast
  refine ⟨hb, ?_⟩
  obtain ⟨r, hr, hv, hiff⟩ := subcomp_spec subdir_list directory h0
  rw [hb] at hiff
  have h0r : r = 0 := by
    rcases hv with h | h
    · exact h
    · exact absurd (hiff.mp h).2 (not_reachesFit_nil_base _)
  rw [hr, h0r]

theorem subcomp_trailing_slash_witness :
    (cstr "/x/CD1/").getLast? = some 47 ∧ 0 ∉ cstr "CD??,sample" ∧
    (baseName (cstr "/x/CD1/") = [] ∧
      subcomp (cstr "CD??,sample") (cstr "/x/CD1/") = .done 0) :=
  ⟨by decide, by decide,
    subcomp_trailing_slash (cstr "CD??,sample") (cstr "/x/CD1/") (by decide) (by decide)⟩

/-! ## Termination of wildcasecmp -/

theorem wildLoop2_step (fuel : Nat) (s : WildState) :
    wildLoop2 (fuel + 1) s.wild s.string s.mp s.cp =
      match wildStep s with
      | .leave w => .done (wildEnd w)
      | .ret v => .done v
      | .crash => .fault
      | .next t => wildLoop2 fuel t.wild t.string t.mp t.cp := by
  rw [wildLoop2_succ]
  unfold wildStep
  split_ifs
  · rfl
  · rfl
  · rfl
  · rfl
  · cases s.mp <;> cases s.cp <;> rfl

theorem lex3_of {a b c a' b' c' : Nat}
    (h : a' < a ∨ (a' = a ∧ (b' < b ∨ (b' = b ∧ c' < c)))) :
    Prod.Lex (· < ·) (Prod.Lex (· < ·) (· < ·)) (a', b', c') (a, b, c) := by
  rcases h with h | ⟨rfl, h | ⟨rfl, h⟩⟩
  · exact Prod.Lex.left _ _ h
  · exact Prod.Lex.right _ (Prod.Lex.left _ _ h)
  · exact Prod.Lex.right _ (Prod.Lex.right _ h)

theorem length_pos_of_deref_ne_zero {l : List Nat} (h : deref l ≠ 0) : 1 ≤ l.length := by
  cases l with
  | nil => exact absurd rfl h
  | cons a t => simp

theorem wildStep_decreases (s t : WildState) (h : wildStep s = .next t) :
    Prod.Lex (· < ·) (Prod.Lex (· < ·) (· < ·)) (wildMeasure t) (wildMeasure s) := by
  unfold wildStep at h
  by_cases hs : deref s.string = 0
  · rw [if_pos hs] at h
    exact WildStep.noConfusion h
  · rw [if_neg hs] at h
    have hslen := length_pos_of_deref_ne_zero hs
    by_cases h42 : deref s.wild = 42
    · rw [if_pos h42] at h
      have hwlen : 1 ≤ s.wild.length :=
        length_pos_of_deref_ne_zero (by rw [h42]; decide)
      by_cases hend : deref s.wild.tail = 0
      · rw [if_pos hend] at h
        exact WildStep.noConfusion h
      · rw [if_neg hend] at h
        obtain rfl := (WildStep.next.inj h).symm
        apply lex3_of
        simp only [wildMeasure, Option.elim_some, List.length_tail]
        rw [Nat.max_def, Nat.max_def]
        split_ifs <;> omega
    · rw [if_neg h42] at h
      by_cases hok : deref s.wild = 63 ∨ tolower (deref s.wild) = tolower (deref s.string)
      · rw [if_pos hok] at h
        obtain rfl := (WildStep.next.inj h).symm
        apply lex3_of
        simp only [wildMeasure, List.length_tail, true_and]
        rw [Nat.max_def, Nat.max_def]
        split_ifs <;> omega
      · rw [if_neg hok] at h
        cases hmp : s.mp with
        | none =>
          rw [hmp] at h
          exact WildStep.noConfusion h
        | some m =>
          cases hcp : s.cp with
          | none =>
            rw [hmp, hcp] at h
            exact WildStep.noConfusion h
          | some c =>
            rw [hmp, hcp] at h
            obtain rfl := (WildStep.next.inj h).symm
            apply lex3_of
            simp only [wildMeasure, Option.elim_some, List.length_tail, hmp, hcp]
            rw [Nat.max_def, Nat.max_def]
            split_ifs <;> omega

theorem wildStep_wellFounded : WellFounded (fun t s : WildState => wildStep s = .next t) := by
  have hlex : WellFounded (Prod.Lex (fun a b : Nat => a < b)
      (Prod.Lex (fun a b : Nat => a < b) (fun a b : Nat => a < b))) :=
    WellFounded.prod_lex Nat.lt_wfRel.wf (WellFounded.prod_lex Nat.lt_wfRel.wf Nat.lt_wfRel.wf)
  exact Subrelation.wf (fun {t s} h => wildStep_decreases s t h) (InvImage.wf wildMeasure hlex)

theorem wildLoop2_more_fuel : ∀ (fuel k : Nat) (wild string : List Nat)
    (mp cp : Option (List Nat)) (r : Nat), wildLoop2 fuel wild string mp cp = .done r →
    wildLoop2 (fuel + k) wild string mp cp = .done r := by
  intro fuel
  induction fuel with
  | zero =>
    intro k wild string mp cp r h
    exact Run.noConfusion h
  | succ fuel ih =>
    intro k wild string mp cp r h
    have e : fuel + 1 + k = (fuel + k) + 1 := by omega
    rw [e]
    have h1 := wildLoop2_step fuel ⟨wild, string, mp, cp⟩
    have h2 := wildLoop2_step (fuel + k) ⟨wild, string, mp, cp⟩
    simp only at h1 h2
    rw [h2]
    rw [h1] at h
    cases hstep : wildStep ⟨wild, string, mp, cp⟩ with
    | leave w => rw [hstep] at h; exact h
    | ret v => rw [hstep] at h; exact h
    | crash => rw [hstep] at h; exact h
    | next t =>
      rw [hstep] at h
      exact ih k t.wild t.string t.mp t.cp r h

/-- C18: `wildcasecmp` terminates on every pair of NUL-terminated strings.
The passes of its second loop, as a relation on the four positions (pattern,
string, backtrack pattern, backtrack string), are well-founded, the
backtracking branch included; the run returns a value, so the bound of the
model is not reached and the backtracking branch is never taken with unset
positions; and the value is the same under any larger bound. -/
theorem wildcasecmp_terminates (wild string : List Nat) (hw : 0 ∉ wild) (hs : 0 ∉ string) :
    WellFounded (fun t s : WildState => wildStep s = .next t) ∧
    (∀ fuel (s : WildState), wildLoop2 (fuel + 1) s.wild s.string s.mp s.cp =
      match wildStep s with
      | .leave w => .done (wildEnd w)
      | .ret v => .done v
      | .crash => .fault
      | .next t => wildLoop2 fuel t.wild t.string t.mp t.cp) ∧
    (∃ r, wildcasecmp wild string = .done r ∧ (r = 0 ∨ r = 1) ∧
      ∀ k, (match wildLoop1 wild string with
        | none => Run.done 0
        | some (w, s) =>
          wildLoop2 ((string.length + 1) * (wild.length + 1) + 2 + k) w s none none)
        = .done r) := by
  refine ⟨wildStep_wellFounded, wildLoop2_step, ?_⟩
  obtain ⟨r, hr, hv, -⟩ := wildcasecmp_spec wild string hw hs
  refine ⟨r, hr, hv, fun k => ?_⟩
  unfold wildcasecmp at hr
  cases hres : wildLoop1 wild string with
  | none =>
    rw [hres] at hr
    exact hr
  | some ws =>
    obtain ⟨w, s⟩ := ws
    rw [hres] at hr
    simp only at hr ⊢
    exact wildLoop2_more_fuel _ k w s none none r hr

theorem wildcasecmp_terminates_witness :
    0 ∉ cstr "*a*b?" ∧ 0 ∉ cstr "xaybaab" ∧
    (WellFounded (fun t s : WildState => wildStep s = .next t) ∧
    (∀ fuel (s : WildState), wildLoop2 (fuel + 1) s.wild s.string s.mp s.cp =
      match wildStep s with
      | .leave w => .done (wildEnd w)
      | .ret v => .done v
      | .crash => .fault
      | .next t => wildLoop2 fuel t.wild t.string t.mp t.cp) ∧
    (∃ r, wildcasecmp (cstr "*a*b?") (cstr "xaybaab") = .done r ∧ (r = 0 ∨ r = 1) ∧
      ∀ k, (match wildLoop1 (cstr "*a*b?") (cstr "xaybaab") with
        | none => Run.done 0
        | some (w, s) =>
          wildLoop2 (((cstr "xaybaab").length + 1) * ((cstr "*a*b?").length + 1) + 2 + k)
            w s none none)
        = .done r)) :=
  ⟨by decide, by decide,
    wildcasecmp_terminates (cstr "*a*b?") (cstr "xaybaab") (by decide) (by decide)⟩

/-! ## The kilobytes field -/

theorem floatOfNat_small (n : Nat) (h : n < 2 ^ 24) : floatOfNat n = n := by
  unfold floatOfNat
  rw [if_pos h]

theorem floatOfNat_big (n : Nat) (h : 2 ^ 24 ≤ n) :
    ∃ e q r : Nat, n = q * 2 ^ e + r ∧ r < 2 ^ e ∧ 2 ^ 23 ≤ q ∧ q < 2 ^ 24 ∧
      floatOfNat n =
        (if 2 * r < 2 ^ e ∨ (2 * r = 2 ^ e ∧ q % 2 = 0) then q else q + 1) * 2 ^ e := by
  have hn : n ≠ 0 := by
    intro h0
    rw [h0] at h
    exact absurd h (by norm_num)
  have hL : 24 ≤ Nat.log2 n := (Nat.le_log2 hn).2 h
  have h1 : 2 ^ Nat.log2 n ≤ n := Nat.log2_self_le hn
  have h2 : n < 2 ^ (Nat.log2 n + 1) := Nat.lt_log2_self
  have hpos : 0 < 2 ^ (Nat.log2 n - 23) := Nat.two_pow_pos _
  refine ⟨Nat.log2 n - 23, n / 2 ^ (Nat.log2 n - 23), n % 2 ^ (Nat.log2 n - 23),
    (Nat.div_add_mod' n _).symm, Nat.mod_lt _ hpos, ?_, ?_, ?_⟩
  · rw [Nat.le_div_iff_mul_le hpos, ← pow_add]
    have e : 23 + (Nat.log2 n - 23) = Nat.log2 n := by omega
    rw [e]
    exact h1
  · rw [Nat.div_lt_iff_lt_mul hpos, ← pow_add]
    have e : 24 + (Nat.log2 n - 23) = Nat.log2 n + 1 := by omega
    rw [e]
    exact h2
  · unfold floatOfNat
    rw [if_neg (Nat.not_lt.mpr h)]

theorem float24_gap_free (e q m j : Nat) (hq : 2 ^ 23 ≤ q) (hm : m < 2 ^ 24) :
    m * 2 ^ j ≤ q * 2 ^ e ∨ (q + 1) * 2 ^ e ≤ m * 2 ^ j := by
  by_contra hcon
  push_neg at hcon
  obtain ⟨h1, h2⟩ := hcon
  have he : 0 < 2 ^ e := Nat.two_pow_pos _
  have hj : 0 < 2 ^ j := Nat.two_pow_pos _
  have a1 : 2 ^ 23 * 2 ^ e ≤ q * 2 ^ e := Nat.mul_le_mul_right _ hq
  have a2 : m * 2 ^ j < 2 ^ 24 * 2 ^ j := Nat.mul_lt_mul_of_pos_right hm hj
  have a3 : 2 ^ (23 + e) < 2 ^ (24 + j) := by
    rw [pow_add, pow_add]
    omega
  have a4 : 23 + e < 24 + j := (Nat.pow_lt_pow_iff_right (by norm_num)).mp a3
  obtain ⟨d, rfl⟩ : ∃ d, j = e + d := ⟨j - e, by omega⟩
  have a5 : m * 2 ^ (e + d) = (m * 2 ^ d) * 2 ^ e := by
    rw [pow_add]
    ring
  rw [a5] at h1 h2
  have b1 : q < m * 2 ^ d := Nat.lt_of_mul_lt_mul_right h1
  have b2 : m * 2 ^ d < q + 1 := Nat.lt_of_mul_lt_mul_right h2
  omega

theorem floatOfNat_nearest (n m j : Nat) (hm : m < 2 ^ 24) :
    |((floatOfNat n : Nat) : Int) - (n : Int)| ≤ |((m * 2 ^ j : Nat) : Int) - (n : Int)| := by
  rcases Nat.lt_or_ge n (2 ^ 24) with h | h
  · rw [floatOfNat_small n h, sub_self, abs_zero]
    exact abs_nonneg _
  · obtain ⟨e, q, r, hn, hr, hq, -, hF⟩ := floatOfNat_big n h
    have hg := float24_gap_free e q m j hq hm
    rw [Nat.add_mul, Nat.one_mul] at hg
    rw [hF, Int.abs_eq_natAbs, Int.abs_eq_natAbs]
    split_ifs with hc
    · omega
    · rw [Nat.add_mul, Nat.one_mul]
      omega

theorem floatOfNat_error (n : Nat) :
    |((floatOfNat n : Nat) : Int) - (n : Int)| * 2 ^ 24 ≤ (n : Int) := by
  rcases Nat.lt_or_ge n (2 ^ 24) with h | h
  · rw [floatOfNat_small n h, sub_self, abs_zero]
    omega
  · obtain ⟨e, q, r, hn, hr, hq, -, hF⟩ := floatOfNat_big n h
    have a1 : 2 ^ 23 * 2 ^ e ≤ q * 2 ^ e := Nat.mul_le_mul_right _ hq
    rw [hF, Int.abs_eq_natAbs]
    split_ifs with hc
    · omega
    · rw [Nat.add_mul, Nat.one_mul]
      omega

theorem floatOfNat_tie (n m j : Nat) (hm : m < 2 ^ 24) (hne : m * 2 ^ j ≠ floatOfNat n)
    (htie : |((m * 2 ^ j : Nat) : Int) - (n : Int)| = |((floatOfNat n : Nat) : Int) - (n : Int)|) :
    ∃ B t : Nat, floatOfNat n = 2 * B * t ∧
      (m * 2 ^ j = floatOfNat n + B ∨ floatOfNat n = m * 2 ^ j + B) := by
  rcases Nat.lt_or_ge n (2 ^ 24) with h | h
  · rw [floatOfNat_small n h, sub_self, abs_zero, Int.abs_eq_natAbs] at htie
    rw [floatOfNat_small n h] at hne
    omega
  · obtain ⟨e, q, r, hn, hr, hq, -, hF⟩ := floatOfNat_big n h
    have hg := float24_gap_free e q m j hq hm
    rw [Nat.add_mul, Nat.one_mul] at hg
    rw [hF, Int.abs_eq_natAbs, Int.abs_eq_natAbs] at htie
    rw [hF] at hne
    rw [hF]
    split_ifs at htie hne ⊢ with hc
    · have h2 : 2 * r = 2 ^ e ∧ q % 2 = 0 := by omega
      refine ⟨2 ^ e, q / 2, ?_, Or.inl (by omega)⟩
      have hq2 : q = 2 * (q / 2) := by omega
      calc q * 2 ^ e = (2 * (q / 2)) * 2 ^ e := by rw [← hq2]
        _ = 2 * 2 ^ e * (q / 2) := by ring
    · rw [Nat.add_mul, Nat.one_mul] at htie hne ⊢
      have h2 : 2 * r = 2 ^ e ∧ q % 2 = 1 := by omega
      refine ⟨2 ^ e, (q + 1) / 2, ?_, Or.inr (by omega)⟩
      have hq2 : q + 1 = 2 * ((q + 1) / 2) := by omega
      calc q * 2 ^ e + 2 ^ e = (q + 1) * 2 ^ e := by ring
        _ = (2 * ((q + 1) / 2)) * 2 ^ e := by rw [← hq2]
        _ = 2 * 2 ^ e * ((q + 1) / 2) := by ring

theorem floatOfNat_representable (n : Nat) :
    ∃ m j : Nat, m < 2 ^ 24 ∧ floatOfNat n = m * 2 ^ j := by
  rcases Nat.lt_or_ge n (2 ^ 24) with h | h
  · exact ⟨n, 0, h, by rw [floatOfNat_small n h, Nat.pow_zero, Nat.mul_one]⟩
  · obtain ⟨e, q, r, -, -, -, hq, hF⟩ := floatOfNat_big n h
    rw [hF]
    split_ifs with hc
    · exact ⟨q, e, hq, rfl⟩
    · rcases Nat.lt_or_ge (q + 1) (2 ^ 24) with h1 | h1
      · exact ⟨q + 1, e, h1, rfl⟩
      · have e1 : q + 1 = 2 ^ 24 := by omega
        refine ⟨2 ^ 23, e + 1, by norm_num, ?_⟩
        rw [e1, pow_succ]
        ring

theorem floatOfInt_natAbs (z : Int) : (floatOfInt z).natAbs = floatOfNat z.natAbs := by
  unfold floatOfInt
  split_ifs <;> omega

theorem floatOfInt_isFloat24 (z : Int) : IsFloat24 (floatOfInt z) := by
  obtain ⟨m, j, hm, h⟩ := floatOfNat_representable z.natAbs
  exact ⟨m, j, hm, by rw [floatOfInt_natAbs, h]⟩

theorem floatOfInt_nearest (z g : Int) (hg : IsFloat24 g) :
    |floatOfInt z - z| ≤ |g - z| := by
  obtain ⟨m, j, hm, hj⟩ := hg
  have h := floatOfNat_nearest z.natAbs m j hm
  rw [← hj, Int.abs_eq_natAbs, Int.abs_eq_natAbs] at h
  rw [Int.abs_eq_natAbs, Int.abs_eq_natAbs]
  unfold floatOfInt
  split_ifs <;> omega

theorem floatOfInt_error (z : Int) : |floatOfInt z - z| * 2 ^ 24 ≤ |z| := by
  have h := floatOfNat_error z.natAbs
  rw [Int.abs_eq_natAbs] at h
  rw [Int.abs_eq_natAbs, Int.abs_eq_natAbs]
  unfold floatOfInt
  split_ifs <;> omega

theorem floatOfInt_exact (z : Int) (h : |z| < 2 ^ 24) : floatOfInt z = z := by
  rw [Int.abs_eq_natAbs] at h
  have h1 : z.natAbs < 2 ^ 24 := by omega
  unfold floatOfInt
  rw [floatOfNat_small _ h1]
  split_ifs <;> omega

theorem floatOfInt_natCast (n : Nat) : floatOfInt (n : Int) = ((floatOfNat n : Nat) : Int) := by
  unfold floatOfInt
  rw [if_neg (by omega), Int.natAbs_ofNat]

theorem floatOfInt_neg (z : Int) : floatOfInt (-z) = -floatOfInt z := by
  unfold floatOfInt
  rw [Int.natAbs_neg]
  have h0 : z = 0 → floatOfNat z.natAbs = 0 := by
    intro h
    rw [h]
    rfl
  split_ifs <;> omega

theorem floatOfInt_tie_natCast (n : Nat) (g : Int) (hg : IsFloat24 g)
    (hne : g ≠ ((floatOfNat n : Nat) : Int))
    (htie : |g - (n : Int)| = |((floatOfNat n : Nat) : Int) - (n : Int)|) :
    2 * |g - ((floatOfNat n : Nat) : Int)| ∣ ((floatOfNat n : Nat) : Int) := by
  obtain ⟨m, j, hm, hj⟩ := hg
  have h0 := floatOfNat_nearest n 0 0 (by norm_num)
  rw [Int.abs_eq_natAbs, Int.abs_eq_natAbs] at h0 htie
  have hg0 : g = ((m * 2 ^ j : Nat) : Int) := by
    rw [← hj]
    omega
  rw [hg0] at hne htie ⊢
  have hne1 : m * 2 ^ j ≠ floatOfNat n := fun h => hne (by rw [h])
  have htie1 : |((m * 2 ^ j : Nat) : Int) - (n : Int)| =
      |((floatOfNat n : Nat) : Int) - (n : Int)| := by
    rw [Int.abs_eq_natAbs, Int.abs_eq_natAbs]
    exact htie
  obtain ⟨B, t, hF, hG⟩ := floatOfNat_tie n m j hm hne1 htie1
  have hB : |((m * 2 ^ j : Nat) : Int) - ((floatOfNat n : Nat) : Int)| = (B : Int) := by
    rw [Int.abs_eq_natAbs]
    omega
  rw [hB]
  exact ⟨(t : Int), by rw [hF]; push_cast; ring⟩

theorem floatOfInt_tie (z g : Int) (hg : IsFloat24 g) (hne : g ≠ floatOfInt z)
    (htie : |g - z| = |floatOfInt z - z|) : 2 * |g - floatOfInt z| ∣ floatOfInt z := by
  obtain ⟨n, rfl | rfl⟩ := Int.eq_nat_or_neg z
  · rw [floatOfInt_natCast] at hne htie ⊢
    exact floatOfInt_tie_natCast n g hg hne htie
  · rw [floatOfInt_neg, floatOfInt_natCast] at hne htie ⊢
    have hg1 : IsFloat24 (-g) := by
      obtain ⟨m, j, hm, hj⟩ := hg
      exact ⟨m, j, hm, by rw [Int.natAbs_neg, hj]⟩
    have hne1 : -g ≠ ((floatOfNat n : Nat) : Int) := fun h => hne (by rw [← h, neg_neg])
    have htie1 : |-g - (n : Int)| = |((floatOfNat n : Nat) : Int) - (n : Int)| := by
      have a1 : -g - (n : Int) = -(g - -(n : Int)) := by ring
      have a2 : ((floatOfNat n : Nat) : Int) - (n : Int) =
          -(-((floatOfNat n : Nat) : Int) - -(n : Int)) := by ring
      rw [a1, a2, abs_neg, abs_neg]
      exact htie
    have h := floatOfInt_tie_natCast n (-g) hg1 hne1 htie1
    have a3 : -g - ((floatOfNat n : Nat) : Int) = -(g - -((floatOfNat n : Nat) : Int)) := by
      ring
    rw [a3, abs_neg] at h
    exact (dvd_neg).mpr h

theorem roundHalfEven_1024 (n : Nat) :
    roundHalfEven n 1024 * 1024 ≤ n + 512 ∧ n ≤ roundHalfEven n 1024 * 1024 + 512 ∧
    (n % 1024 ≠ 512 → roundHalfEven n 1024 = (n + 512) / 1024) ∧
    (n % 1024 = 512 → roundHalfEven n 1024 % 2 = 0) ∧
    (roundHalfEven n 1024 = n / 1024 ↔
      (n % 1024 < 512 ∨ (n % 1024 = 512 ∧ (n / 1024) % 2 = 0))) := by
  unfold roundHalfEven
  split_ifs with h
  · refine ⟨by omega, by omega, fun _ => by omega, fun _ => by omega, ?_⟩
    exact iff_of_true rfl (by omega)
  · refine ⟨by omega, by omega, fun _ => by omega, fun _ => by omega, ?_⟩
    exact iff_of_false (by omega) (by omega)

theorem roundHalfEvenInt_nearest (f j : Int) :
    |1024 * roundHalfEvenInt f 1024 - f| ≤ |1024 * j - f| := by
  obtain ⟨h1, h2, -, -, -⟩ := roundHalfEven_1024 f.natAbs
  rw [Int.abs_eq_natAbs, Int.abs_eq_natAbs]
  unfold roundHalfEvenInt
  split_ifs <;> omega

theorem roundHalfEvenInt_near (f : Int) : |1024 * roundHalfEvenInt f 1024 - f| ≤ 512 := by
  obtain ⟨h1, h2, -, -, -⟩ := roundHalfEven_1024 f.natAbs
  rw [Int.abs_eq_natAbs]
  unfold roundHalfEvenInt
  split_ifs <;> omega

theorem roundHalfEvenInt_tie (f : Int) (h : |1024 * roundHalfEvenInt f 1024 - f| = 512) :
    roundHalfEvenInt f 1024 % 2 = 0 := by
  obtain ⟨h1, h2, -, h4, -⟩ := roundHalfEven_1024 f.natAbs
  rw [Int.abs_eq_natAbs] at h
  unfold roundHalfEvenInt at h ⊢
  split_ifs at h ⊢ <;> omega

theorem roundHalfEvenInt_nonneg (z : Int) (h0 : 0 ≤ z) :
    (z % 1024 ≠ 512 → roundHalfEvenInt z 1024 = (z + 512) / 1024) ∧
    (roundHalfEvenInt z 1024 = z / 1024 ↔
      (z % 1024 < 512 ∨ (z % 1024 = 512 ∧ (z / 1024) % 2 = 0))) := by
  obtain ⟨h1, h2, h3, h4, h5⟩ := roundHalfEven_1024 z.natAbs
  unfold roundHalfEvenInt
  rw [if_neg (by omega)]
  constructor
  · intro h
    have := h3 (by omega)
    omega
  · constructor
    · intro h
      have := h5.mp (by omega)
      omega
    · intro h
      have := h5.mpr (by omega)
      omega

theorem floatOfNat_binade (n e : Nat) (h1 : 2 ^ (e + 24) ≤ n) (h2 : n < 2 ^ (e + 25)) :
    floatOfNat n =
      (if 2 * (n % 2 ^ (e + 1)) < 2 ^ (e + 1) ∨
          (2 * (n % 2 ^ (e + 1)) = 2 ^ (e + 1) ∧ (n / 2 ^ (e + 1)) % 2 = 0)
        then n / 2 ^ (e + 1) else n / 2 ^ (e + 1) + 1) * 2 ^ (e + 1) := by
  have hn : n ≠ 0 := by
    intro h0
    rw [h0] at h1
    exact absurd h1 (Nat.not_le.mpr (Nat.two_pow_pos _))
  have a1 : e + 24 ≤ Nat.log2 n := (Nat.le_log2 hn).2 h1
  have a2 : Nat.log2 n < e + 25 := (Nat.log2_lt hn).2 h2
  have a3 : Nat.log2 n - 23 = e + 1 := by omega
  have a4 : 2 ^ 24 ≤ n :=
    Nat.le_trans (Nat.pow_le_pow_right (by norm_num) (Nat.le_add_left 24 e)) h1
  unfold floatOfNat
  rw [if_neg (Nat.not_lt.mpr a4), a3]

theorem floatOfNat_examples :
    floatOfNat 16777217 = 16777216 ∧ floatOfNat 16777219 = 16777220 ∧
    floatOfNat 1073742396 = 1073742336 ∧
    floatOfNat 18446744073709551615 = 18446744073709551616 := by
  refine ⟨?_, ?_, ?_, ?_⟩
  · rw [floatOfNat_binade 16777217 0 (by norm_num) (by norm_num)]
    decide
  · rw [floatOfNat_binade 16777219 0 (by norm_num) (by norm_num)]
    decide
  · rw [floatOfNat_binade 1073742396 6 (by norm_num) (by norm_num)]
    decide
  · rw [floatOfNat_binade 18446744073709551615 39 (by norm_num) (by norm_num)]
    decide

theorem kilobytes_examples :
    floatOfInt (-1073742396) = -1073742336 ∧
    roundHalfEvenInt (floatOfInt (-1073742396)) 1024 = -1048576 ∧
    roundHalfEvenInt (floatOfInt (-2048)) 1024 = -2 ∧
    roundHalfEvenInt (floatOfInt 16777217) 1024 = 16384 ∧
    roundHalfEvenInt (floatOfInt 18446744073709551615) 1024 = 18014398509481984 := by
  have e1 : floatOfInt (-1073742396) = -1073742336 := by
    show (if (-1073742396 : Int) < 0 then -((floatOfNat 1073742396 : Nat) : Int)
      else ((floatOfNat 1073742396 : Nat) : Int)) = _
    rw [floatOfNat_examples.2.2.1]
    decide
  have e2 : floatOfInt 16777217 = 16777216 := by
    show (if (16777217 : Int) < 0 then -((floatOfNat 16777217 : Nat) : Int)
      else ((floatOfNat 16777217 : Nat) : Int)) = _
    rw [floatOfNat_examples.1]
    decide
  have e3 : floatOfInt 18446744073709551615 = 18446744073709551616 := by
    show (if (18446744073709551615 : Int) < 0
      then -((floatOfNat 18446744073709551615 : Nat) : Int)
      else ((floatOfNat 18446744073709551615 : Nat) : Int)) = _
    rw [floatOfNat_examples.2.2.2]
    decide
  refine ⟨e1, ?_, by decide, ?_, ?_⟩
  · rw [e1]
    decide
  · rw [e2]
    decide
  · rw [e3]
    decide

theorem dirlogLine_examples :
    (exDecodeBytes [248, 0]).bytes = -2048 ∧
    (dirlogLine (exDecodeBytes [248, 0])).kilobytes = -2 ∧
    show_newdirs exGlobals 2 exDecodeBytes dirlogLine none [7, 255, 8, 0, 248, 0] =
      .done [dirlogLine (exDecodeBytes [248, 0]), dirlogLine (exDecodeBytes [8, 0])] ∧
    (dirlogLine (exDecodeBytes [8, 0])).kilobytes = 2 := by decide

theorem rat_floor_eq (x : Rat) : Rat.floor x = ⌊x⌋ := rfl

theorem ratRoundHalfEven_near (x : Rat) : |((ratRoundHalfEven x : Int) : Rat) - x| ≤ 1 / 2 := by
  have h1 : ((⌊x⌋ : Int) : Rat) ≤ x := Int.floor_le x
  have h2 : x < ((⌊x⌋ : Int) : Rat) + 1 := Int.lt_floor_add_one x
  unfold ratRoundHalfEven
  rw [rat_floor_eq]
  rw [abs_le]
  split_ifs with h
  · rcases h with h | ⟨h, -⟩
    · constructor <;> linarith
    · constructor <;> linarith
  · have h3 : ¬ x - ((⌊x⌋ : Int) : Rat) < 1 / 2 := fun hlt => h (Or.inl hlt)
    push_cast
    constructor <;> linarith

theorem ratRoundHalfEven_intCast (m : Int) : ratRoundHalfEven (m : Rat) = m := by
  unfold ratRoundHalfEven
  rw [rat_floor_eq, Int.floor_intCast]
  rw [if_pos (Or.inl (by norm_num))]

theorem mem_map_take_filter {α β : Type} (f : α → β) (p : α → Bool) (n : Nat) (l : List α)
    (y : β) (h : y ∈ ((l.filter p).take n).map f) : ∃ x ∈ l, p x = true ∧ y = f x := by
  obtain ⟨x, hx, rfl⟩ := List.mem_map.mp h
  have hx' := List.mem_filter.mp (List.mem_of_mem_take hx)
  exact ⟨x, hx'.1, hx'.2, rfl⟩

/-- C14 as stated fails: a printed record of 2047 bytes shows 2 kilobytes
(1.999 is rounded by `%.0f`), and so does one of 1536 bytes, while the floor of
either quotient is 1. -/
theorem newdirs_kilobytes_counterexample :
    (exDecodeBytes [7, 255]).bytes = 2047 ∧
    show_newdirs exGlobals 2 exDecodeBytes dirlogLine none [7, 255] =
      .done [dirlogLine (exDecodeBytes [7, 255])] ∧
    (dirlogLine (exDecodeBytes [7, 255])).kilobytes = 2 ∧ (2047 : Int) / 1024 = 1 ∧
    (exDecodeBytes [6, 0]).bytes = 1536 ∧
    show_newdirs exGlobals 2 exDecodeBytes dirlogLine none [6, 0] =
      .done [dirlogLine (exDecodeBytes [6, 0])] ∧
    (dirlogLine (exDecodeBytes [6, 0])).kilobytes = 2 ∧ (1536 : Int) / 1024 = 1 := by decide

/-- C14, amended: for every directory record printed by `show_newdirs`, with a
byte count `bytes` of either sign (signed in the layout of GLVERSION 13232,
unsigned in the others), the kilobytes field `k` is obtained by two roundings
and no truncation.  There is a single precision value `f`, the value of
`(float)bytes`: it is nearest to `bytes` among the single precision values, and
at a tie it is the one with the even significand.  The field `k` is an integer
nearest to `f / 1024`, the even one at a tie.  Hence `1024 * k` differs from
`bytes` by at most `512 + |bytes| / 2^24`; for `|bytes| < 2^24` the conversion
is exact (`f = bytes`) and `1024 * k` is within 512 of `bytes`; for
`0 ≤ bytes < 2^24` the field is `(bytes + 512) / 1024` away from a tie, and it
is the floor of `bytes / 1024` only when the remainder is below 512 (or at a
tie over an even floor); a byte count of 2048 renders as 2. -/
theorem newdirs_kilobytes_rounded (g : Globals) (R : Nat) (decode : List Nat → dirlog)
    (pattern : Option (List Nat)) (raws : List (List Nat)) (hR : 0 < R)
    (hraws : ∀ b ∈ raws, b.length = R)
    (hhead : g.group_dirs.head? ≠ some 32) (h0gd : 0 ∉ g.group_dirs)
    (h0sl : 0 ∉ g.subdir_list) (h0pat : ∀ pat, pattern = some pat → 0 ∉ pat)
    (h0dir : ∀ b ∈ raws, 0 ∉ (decode b).dirname) :
    ∃ lines, show_newdirs g R decode dirlogLine pattern raws.flatten = .done lines ∧
      ∀ line ∈ lines, ∃ b ∈ raws, line = dirlogLine (decode b) ∧
        (∃ f : Int, IsFloat24 f ∧
          (∀ x, IsFloat24 x → |f - (decode b).bytes| ≤ |x - (decode b).bytes|) ∧
          (∀ x, IsFloat24 x → x ≠ f → |x - (decode b).bytes| = |f - (decode b).bytes| →
            2 * |x - f| ∣ f) ∧
          (∀ j : Int, |1024 * line.kilobytes - f| ≤ |1024 * j - f|) ∧
          (|1024 * line.kilobytes - f| = 512 → line.kilobytes % 2 = 0) ∧
          (|(decode b).bytes| < 2 ^ 24 → f = (decode b).bytes)) ∧
        |1024 * line.kilobytes - (decode b).bytes| * 2 ^ 24 ≤
          512 * 2 ^ 24 + |(decode b).bytes| ∧
        (|(decode b).bytes| < 2 ^ 24 → |1024 * line.kilobytes - (decode b).bytes| ≤ 512) ∧
        (0 ≤ (decode b).bytes → (decode b).bytes < 2 ^ 24 →
          ((decode b).bytes % 1024 ≠ 512 →
            line.kilobytes = ((decode b).bytes + 512) / 1024) ∧
          (line.kilobytes = (decode b).bytes / 1024 ↔
            ((decode b).bytes % 1024 < 512 ∨
              ((decode b).bytes % 1024 = 512 ∧ ((decode b).bytes / 1024) % 2 = 0)))) ∧
        ((decode b).bytes = 2048 → line.kilobytes = 2) := by
  refine ⟨_, show_newdirs_spec g R decode dirlogLine pattern raws hR hraws hhead h0gd h0sl
    h0pat h0dir, fun line hline => ?_⟩
  obtain ⟨r, hr, -, rfl⟩ := mem_map_take_filter _ _ _ _ line hline
  obtain ⟨b, hb, rfl⟩ := List.mem_map.mp hr
  have e : (dirlogLine (decode b)).kilobytes =
      roundHalfEvenInt (floatOfInt (decode b).bytes) 1024 := rfl
  rw [e]
  refine ⟨b, List.mem_reverse.mp hb, rfl,
    ⟨floatOfInt (decode b).bytes, floatOfInt_isFloat24 _, floatOfInt_nearest _,
      floatOfInt_tie _, roundHalfEvenInt_nearest _, roundHalfEvenInt_tie _,
      floatOfInt_exact _⟩, ?_, fun hsmall => ?_, fun h0 hsmall => ?_, fun h2048 => ?_⟩
  · have h1 := roundHalfEvenInt_near (floatOfInt (decode b).bytes)
    have h2 := floatOfInt_error (decode b).bytes
    rw [Int.abs_eq_natAbs] at h1
    rw [Int.abs_eq_natAbs, Int.abs_eq_natAbs] at h2
    rw [Int.abs_eq_natAbs, Int.abs_eq_natAbs]
    omega
  · have h1 := roundHalfEvenInt_near (floatOfInt (decode b).bytes)
    rw [floatOfInt_exact _ hsmall] at h1 ⊢
    exact h1
  · have hs : |(decode b).bytes| < 2 ^ 24 := by
      rw [Int.abs_eq_natAbs]
      omega
    rw [floatOfInt_exact _ hs]
    exact roundHalfEvenInt_nonneg _ h0
  · rw [h2048]
    decide

theorem newdirs_kilobytes_rounded_witness :
    0 < 2 ∧ (∀ b ∈ [[7, 255], [8, 0], [248, 0]], b.length = 2) ∧
    exGlobals.group_dirs.head? ≠ some 32 ∧ 0 ∉ exGlobals.group_dirs ∧
    0 ∉ exGlobals.subdir_list ∧ (∀ pat, (none : Option (List Nat)) = some pat → 0 ∉ pat) ∧
    (∀ b ∈ [[7, 255], [8, 0], [248, 0]], 0 ∉ (exDecodeBytes b).dirname) ∧
    ∃ lines, show_newdirs exGlobals 2 exDecodeBytes dirlogLine none
        [[7, 255], [8, 0], [248, 0]].flatten = .done lines ∧
      ∀ line ∈ lines, ∃ b ∈ [[7, 255], [8, 0], [248, 0]], line = dirlogLine (exDecodeBytes b) ∧
        (∃ f : Int, IsFloat24 f ∧
          (∀ x, IsFloat24 x → |f - (exDecodeBytes b).bytes| ≤ |x - (exDecodeBytes b).bytes|) ∧
          (∀ x, IsFloat24 x → x ≠ f →
            |x - (exDecodeBytes b).bytes| = |f - (exDecodeBytes b).bytes| → 2 * |x - f| ∣ f) ∧
          (∀ j : Int, |1024 * line.kilobytes - f| ≤ |1024 * j - f|) ∧
          (|1024 * line.kilobytes - f| = 512 → line.kilobytes % 2 = 0) ∧
          (|(exDecodeBytes b).bytes| < 2 ^ 24 → f = (exDecodeBytes b).bytes)) ∧
        |1024 * line.kilobytes - (exDecodeBytes b).bytes| * 2 ^ 24 ≤
          512 * 2 ^ 24 + |(exDecodeBytes b).bytes| ∧
        (|(exDecodeBytes b).bytes| < 2 ^ 24 →
          |1024 * line.kilobytes - (exDecodeBytes b).bytes| ≤ 512) ∧
        (0 ≤ (exDecodeBytes b).bytes → (exDecodeBytes b).bytes < 2 ^ 24 →
          ((exDecodeBytes b).bytes % 1024 ≠ 512 →
            line.kilobytes = ((exDecodeBytes b).bytes + 512) / 1024) ∧
          (line.kilobytes = (exDecodeBytes b).bytes / 1024 ↔
            ((exDecodeBytes b).bytes % 1024 < 512 ∨
              ((exDecodeBytes b).bytes % 1024 = 512 ∧
                ((exDecodeBytes b).bytes / 1024) % 2 = 0)))) ∧
        ((exDecodeBytes b).bytes = 2048 → line.kilobytes = 2) :=
  ⟨by decide, by decide, by decide, by decide, by decide,
    fun pat h => Option.noConfusion h, by decide,
    newdirs_kilobytes_rounded exGlobals 2 exDecodeBytes none [[7, 255], [8, 0], [248, 0]]
      (by decide) (by decide) (by decide) (by decide) (by decide)
      (fun pat h => Option.noConfusion h) (by decide)⟩

theorem exDecodeAmount_bytes : (exDecodeAmount [0, 2]).bytes = 2 := by
  simp [exDecodeAmount]

theorem nukelogLine_two_kilobytes (r : nukelog) (h : r.bytes = 2) :
    (nukelogLine r).kilobytes = 2048 := by
  show ratRoundHalfEven (r.bytes * 1024) = 2048
  rw [h]
  have e : (2 : Rat) * 1024 = ((2048 : Int) : Rat) := by norm_num
  rw [e, ratRoundHalfEven_intCast]

/-- C15 as stated fails in its example: a printed nuke record whose byte amount
is 2.0 shows 2 * 1024 = 2048 in the kilobytes field, not 4096. -/
theorem nukes_kilobytes_counterexample :
    (exDecodeAmount [0, 2]).bytes = 2 ∧
    show_nukes exGlobals 2 exDecodeAmount nukelogLine 0 none [0, 2] =
      .done [nukelogLine (exDecodeAmount [0, 2])] ∧
    (nukelogLine (exDecodeAmount [0, 2])).kilobytes = 2048 ∧
    (nukelogLine (exDecodeAmount [0, 2])).kilobytes ≠ 4096 := by
  have hk := nukelogLine_two_kilobytes _ exDecodeAmount_bytes
  refine ⟨exDecodeAmount_bytes, ?_, hk, by rw [hk]; decide⟩
  have hspec := show_nukes_spec exGlobals 2 exDecodeAmount nukelogLine 0 none [[0, 2]]
    (by decide) (by decide) (fun pat h => Option.noConfusion h) (by decide)
  have hq : qualifiesNuke exGlobals 0 none (exDecodeAmount [0, 2]) = true := by decide
  have hflat : [[0, 2]].flatten = [0, 2] := rfl
  rw [hflat] at hspec
  rw [hspec]
  simp only [List.reverse_cons, List.reverse_nil, List.nil_append, List.map_cons, List.map_nil,
    List.filter_cons_of_pos hq, List.filter_nil]
  rfl

/-- C15, amended: for every nuke record printed by `show_nukes` the kilobytes
field is the stored byte amount multiplied by 1024 (not divided) and rendered
with no fractional digits, that is rounded to the nearest integer; when the
product is a whole number the field is that number, and a byte amount of 2.0
renders as 2048. -/
theorem nukes_kilobytes_times_1024 (g : Globals) (R : Nat) (decode : List Nat → nukelog)
    (status : Nat) (pattern : Option (List Nat)) (raws : List (List Nat)) (hR : 0 < R)
    (hraws : ∀ b ∈ raws, b.length = R) (h0pat : ∀ pat, pattern = some pat → 0 ∉ pat)
    (h0dir : ∀ b ∈ raws, 0 ∉ (decode b).dirname) :
    ∃ lines, show_nukes g R decode nukelogLine status pattern raws.flatten = .done lines ∧
      ∀ line ∈ lines, ∃ b ∈ raws, line = nukelogLine (decode b) ∧
        |((line.kilobytes : Int) : Rat) - (decode b).bytes * 1024| ≤ 1 / 2 ∧
        (∀ m : Int, (decode b).bytes * 1024 = (m : Rat) → line.kilobytes = m) ∧
        ((decode b).bytes = 2 → line.kilobytes = 2048) := by
  refine ⟨_, show_nukes_spec g R decode nukelogLine status pattern raws hR hraws h0pat h0dir,
    fun line hline => ?_⟩
  obtain ⟨r, hr, -, rfl⟩ := mem_map_take_filter _ _ _ _ line hline
  obtain ⟨b, hb, rfl⟩ := List.mem_map.mp hr
  refine ⟨b, List.mem_reverse.mp hb, rfl, ratRoundHalfEven_near _, fun m hm => ?_,
    nukelogLine_two_kilobytes _⟩
  show ratRoundHalfEven ((decode b).bytes * 1024) = m
  rw [hm, ratRoundHalfEven_intCast]

theorem nukes_kilobytes_times_1024_witness :
    0 < 2 ∧ (∀ b ∈ [[0, 2], [0, 3]], b.length = 2) ∧
    (∀ pat, (none : Option (List Nat)) = some pat → 0 ∉ pat) ∧
    (∀ b ∈ [[0, 2], [0, 3]], 0 ∉ (exDecodeAmount b).dirname) ∧
    ∃ lines, show_nukes exGlobals 2 exDecodeAmount nukelogLine 0 none
        [[0, 2], [0, 3]].flatten = .done lines ∧
      ∀ line ∈ lines, ∃ b ∈ [[0, 2], [0, 3]], line = nukelogLine (exDecodeAmount b) ∧
        |((line.kilobytes : Int) : Rat) - (exDecodeAmount b).bytes * 1024| ≤ 1 / 2 ∧
        (∀ m : Int, (exDecodeAmount b).bytes * 1024 = (m : Rat) → line.kilobytes = m) ∧
        ((exDecodeAmount b).bytes = 2 → line.kilobytes = 2048) :=
  ⟨by decide, by decide, fun pat h => Option.noConfusion h, by decide,
    nukes_kilobytes_times_1024 exGlobals 2 exDecodeAmount 0 none [[0, 2], [0, 3]]
      (by decide) (by decide) (fun pat h => Option.noConfusion h) (by decide)⟩

end Showlog
